import Mathlib

/-!
# MCTS framework: a verification development

Shallow embedding of `TreeNodeT.h`, `ofxMSAmcts.h` and `OXOState.h`.

* The search tree is an arena: a list of nodes, a node pointer is `Option Nat`
  (`none` is `nullptr`), `children` holds arena indices and `parent` is the
  weak back pointer.  The root is index `0`; `add_child_with_action` appends.
* Undefined behaviour of the C++ (null dereference, vector index past the end,
  signed `int` overflow) is an explicit `Err`, as is running out of loop fuel.
* `float` arithmetic is kept abstract: the operations the source uses are the
  fields of `FloatOps`, so every theorem holds for any rounding behaviour.
* Randomness is explicit: `std::shuffle` seeded from `std::random_device` is the
  oracle `Oracle.shuffle`, `rand()` is threaded through the world model as a
  generator state `G`, and the wall clock of `MSALoopTimer` is
  `Oracle.check_duration`.
-/

namespace MCTS

/-- Outcomes that are not a normal return of the C++ code. -/
inductive Err where
  /-- dereference of a null node pointer -/
  | null_deref
  /-- `operator[]` past the end of a vector -/
  | out_of_bounds
  /-- signed overflow of an `int` counter -/
  | int_overflow
  /-- the loop did not finish within the fuel it was given -/
  | out_of_fuel
  deriving DecidableEq, Repr

/-- Largest value of a 32 bit `int`. -/
def INT_MAX : Nat := 2 ^ 31 - 1

/-- The `float` operations used by the engine and by the tic-tac-toe domain.
`eps` is `FLT_EPSILON`, `lowest` is `-std::numeric_limits<float>::max()`,
`gt` is the comparison `>`. -/
structure FloatOps (F : Type) where
  ofInt : Int → F
  half : F
  add : F → F → F
  mul : F → F → F
  div : F → F → F
  sqrt : F → F
  log : F → F
  eps : F
  lowest : F
  gt : F → F → Bool

/-- The world model interface the templates `UCT<State, Action>` and
`TreeNodeT<State, Action>` rely on.  `G` is the state of the process-wide random
source read by `get_random_action`; `default_action` is `Action()`. -/
structure World (F S A G : Type) where
  is_terminal : S → Bool
  agent_id : S → Int
  apply_action : S → A → S
  get_actions : S → List A
  get_random_action : S → G → Option A × G
  evaluate : S → List F
  default_action : A

/-- Data members of `TreeNodeT`. -/
structure TreeNode (F S A : Type) where
  state : S
  action : A
  parent : Option Nat
  agent_id : Int
  num_visits : Nat
  value : F
  depth : Nat
  children : List Nat
  actions : List A

/-- Nondeterminism outside the program text: `shuffle k l` is the result of the
`k`-th `std::shuffle` call on `l`, and `check_duration i ms` is what
`timer.check_duration(ms)` answers at the end of loop pass `i`. -/
structure Oracle (A : Type) where
  shuffle : Nat → List A → List A
  check_duration : Nat → Nat → Bool

/-- Public configuration members of `UCT`. -/
structure UCT (F : Type) where
  uct_k : F
  max_iterations : Nat
  max_millis : Nat
  simulation_depth : Nat

/-- Everything a cycle of `run` reads and writes: the arena, the number of
`std::random_device` draws so far, the `rand()` state and `explored_states`
(`none` when the caller passed `nullptr`). -/
structure Engine (F S A G : Type) where
  nodes : List (TreeNode F S A)
  rd : Nat
  rng : G
  explored_states : Option (List S)

/-- What `run` leaves behind: the returned action, `get_iterations()`, and the
engine state at loop exit (the tree is destroyed on return in the C++; it is kept
here to state properties of it). -/
structure RunResult (F S A G : Type) where
  action : A
  iterations : Nat
  best_node : Option Nat
  final : Engine F S A G

section Engine

variable {F S A G : Type}

/-- Constructor `TreeNodeT(state, parent)`; `parent` carries the parent's index and
depth. -/
def TreeNode.create (W : World F S A G) (fl : FloatOps F) (state : S)
    (parent : Option (Nat × Nat)) : TreeNode F S A :=
  { state := state
    parent := parent.map Prod.fst
    action := W.default_action
    agent_id := W.agent_id state
    num_visits := 0
    value := fl.ofInt 0
    depth := match parent with
      | some (_, d) => d + 1
      | none => 0
    children := []
    actions := [] }

/-- `TreeNodeT::is_fully_expanded`. -/
def is_fully_expanded (n : TreeNode F S A) : Bool :=
  !n.children.isEmpty && n.children.length == n.actions.length

/-- `TreeNodeT::is_terminal`. -/
def TreeNode.is_terminal (W : World F S A G) (n : TreeNode F S A) : Bool :=
  W.is_terminal n.state

/-- Dereference of a node pointer. -/
def deref (nodes : List (TreeNode F S A)) (p : Option Nat) : Except Err (TreeNode F S A) :=
  match p with
  | none => .error .null_deref
  | some i =>
    match nodes[i]? with
    | none => .error .null_deref
    | some n => .ok n

/-- `TreeNodeT::add_child_with_action`, called on the node `n` stored at `id`. -/
def add_child_with_action (W : World F S A G) (fl : FloatOps F)
    (nodes : List (TreeNode F S A)) (id : Nat) (n : TreeNode F S A) (new_action : A) :
    List (TreeNode F S A) × Nat :=
  let child_node := TreeNode.create W fl n.state (some (id, n.depth))
  let child_node := { child_node with action := new_action }
  let child_node := { child_node with state := W.apply_action child_node.state new_action }
  let cid := nodes.length
  ((nodes.set id { n with children := n.children ++ [cid] }) ++ [child_node], cid)

/-- `TreeNodeT::expand`, called on the node at `id`.  Returns the new arena, the
new `random_device` count and the returned pointer. -/
def expand (W : World F S A G) (fl : FloatOps F) (o : Oracle A)
    (nodes : List (TreeNode F S A)) (rd : Nat) (id : Nat) :
    Except Err (List (TreeNode F S A) × Nat × Option Nat) :=
  match nodes[id]? with
  | none => .error .null_deref
  | some n =>
    if is_fully_expanded n then .ok (nodes, rd, none)
    else
      let n1 := if n.actions.isEmpty
        then { n with actions := o.shuffle rd (W.get_actions n.state) } else n
      let rd1 := if n.actions.isEmpty then rd + 1 else rd
      match n1.actions[n1.children.length]? with
      | none => .error .out_of_bounds
      | some a =>
        let r := add_child_with_action W fl nodes id n1 a
        .ok (r.1, rd1, some r.2)

/-- `TreeNodeT::update`. -/
def update (fl : FloatOps F) (n : TreeNode F S A) (rewards : List F) :
    Except Err (TreeNode F S A) :=
  if n.agent_id < 0 then .error .out_of_bounds
  else
    match rewards[n.agent_id.toNat]? with
    | none => .error .out_of_bounds
    | some r =>
      if INT_MAX ≤ n.num_visits then .error .int_overflow
      else .ok { n with value := fl.add n.value r, num_visits := n.num_visits + 1 }

/-- The score computed in the body of the loop of `get_best_uct_child`. -/
def uct_score (fl : FloatOps F) (uct_k : F) (node child : TreeNode F S A) : F :=
  let uct_exploitation := fl.div child.value (fl.add (fl.ofInt child.num_visits) fl.eps)
  let uct_exploration := fl.sqrt (fl.div (fl.log (fl.ofInt (node.num_visits + 1)))
    (fl.add (fl.ofInt child.num_visits) fl.eps))
  fl.add uct_exploitation (fl.mul uct_k uct_exploration)

/-- The `for` loop of `get_best_uct_child` over the remaining children. -/
def best_uct_loop (fl : FloatOps F) (nodes : List (TreeNode F S A)) (node : TreeNode F S A)
    (uct_k : F) : List Nat → F → Option Nat → Except Err (Option Nat)
  | [], _, best_node => .ok best_node
  | c :: cs, best_uct_score, best_node =>
    match nodes[c]? with
    | none => .error .null_deref
    | some child =>
      if INT_MAX ≤ node.num_visits then .error .int_overflow
      else
        let uct_score := uct_score fl uct_k node child
        if fl.gt uct_score best_uct_score then
          best_uct_loop fl nodes node uct_k cs uct_score (some c)
        else
          best_uct_loop fl nodes node uct_k cs best_uct_score best_node

/-- `UCT::get_best_uct_child`. -/
def get_best_uct_child (fl : FloatOps F) (nodes : List (TreeNode F S A)) (p : Option Nat)
    (uct_k : F) : Except Err (Option Nat) :=
  match deref nodes p with
  | .error e => .error e
  | .ok node =>
    if !is_fully_expanded node then .ok none
    else best_uct_loop fl nodes node uct_k node.children fl.lowest none

/-- The `for` loop of `get_most_visited_child` over the remaining children. -/
def most_visited_loop (nodes : List (TreeNode F S A)) :
    List Nat → Int → Option Nat → Except Err (Option Nat)
  | [], _, best_node => .ok best_node
  | c :: cs, most_visits, best_node =>
    match nodes[c]? with
    | none => .error .null_deref
    | some child =>
      if (child.num_visits : Int) > most_visits then
        most_visited_loop nodes cs child.num_visits (some c)
      else
        most_visited_loop nodes cs most_visits best_node

/-- `UCT::get_most_visited_child`. -/
def get_most_visited_child (nodes : List (TreeNode F S A)) (p : Option Nat) :
    Except Err (Option Nat) :=
  match deref nodes p with
  | .error e => .error e
  | .ok node => most_visited_loop nodes node.children (-1) none

/-- Phase 1 of `run`: the selection `while` loop, started at pointer `p`. -/
def select (W : World F S A G) (fl : FloatOps F) (nodes : List (TreeNode F S A)) (uct_k : F) :
    Nat → Option Nat → Except Err (Option Nat)
  | 0, _ => .error .out_of_fuel
  | fuel + 1, p =>
    match deref nodes p with
    | .error e => .error e
    | .ok node =>
      if !node.is_terminal W && is_fully_expanded node then
        match get_best_uct_child fl nodes p uct_k with
        | .error e => .error e
        | .ok q => select W fl nodes uct_k fuel q
      else .ok p

/-- Phase 3 of `run`: the simulation `for` loop with `t` steps left. -/
def simulate (W : World F S A G) : Nat → S → G → S × G
  | 0, state, g => (state, g)
  | t + 1, state, g =>
    if W.is_terminal state then (state, g)
    else
      match W.get_random_action state g with
      | (some action, g1) => simulate W t (W.apply_action state action) g1
      | (none, g1) => (state, g1)

/-- Phase 4 of `run`: the back propagation `while(node)` loop. -/
def backpropagate (fl : FloatOps F) (rewards : List F) :
    Nat → List (TreeNode F S A) → Option Nat → Except Err (List (TreeNode F S A))
  | _, nodes, none => .ok nodes
  | 0, _, some _ => .error .out_of_fuel
  | fuel + 1, nodes, some id =>
    match nodes[id]? with
    | none => .error .null_deref
    | some n =>
      match update fl n rewards with
      | .error e => .error e
      | .ok n1 => backpropagate fl rewards fuel (nodes.set id n1) n1.parent

/-- Phases 1 and 2 of one pass of the loop of `run`: returns the arena, the
`random_device` count and the active node.  The selection loop is given as much
fuel as there are nodes. -/
def select_expand (W : World F S A G) (fl : FloatOps F) (o : Oracle A) (cfg : UCT F)
    (e : Engine F S A G) : Except Err (List (TreeNode F S A) × Nat × Option Nat) :=
  match select W fl e.nodes cfg.uct_k e.nodes.length (some 0) with
  | .error err => .error err
  | .ok p =>
    match deref e.nodes p with
    | .error err => .error err
    | .ok node =>
      if !is_fully_expanded node && !node.is_terminal W then
        match p with
        | none => .error .null_deref
        | some id => expand W fl o e.nodes e.rd id
      else .ok (e.nodes, e.rd, p)

/-- One pass of the body of the `while(true)` loop of `run`, up to and including
back propagation.  The back propagation loop is given as much fuel as there are
nodes. -/
def cycle (W : World F S A G) (fl : FloatOps F) (o : Oracle A) (cfg : UCT F)
    (e : Engine F S A G) : Except Err (Engine F S A G) :=
  match select_expand W fl o cfg e with
  | .error err => .error err
  | .ok (nodes1, rd1, p) =>
    match deref nodes1 p with
    | .error err => .error err
    | .ok node =>
      let sim := if !node.is_terminal W
        then simulate W cfg.simulation_depth node.state e.rng else (node.state, e.rng)
      let rewards := W.evaluate sim.1
      let explored := e.explored_states.map (fun v => v ++ [sim.1])
      match backpropagate fl rewards nodes1.length nodes1 p with
      | .error err => .error err
      | .ok nodes2 =>
        .ok { nodes := nodes2, rd := rd1, rng := sim.2, explored_states := explored }

/-- The `while(true)` loop of `run`; `iterations` is the member of that name. -/
def run_loop (W : World F S A G) (fl : FloatOps F) (o : Oracle A) (cfg : UCT F) :
    Nat → Engine F S A G → Nat → Except Err (Engine F S A G × Option Nat × Nat)
  | 0, _, _ => .error .out_of_fuel
  | fuel + 1, e, iterations =>
    match cycle W fl o cfg e with
    | .error err => .error err
    | .ok e1 =>
      match get_most_visited_child e1.nodes (some 0) with
      | .error err => .error err
      | .ok best_node =>
        if decide (cfg.max_millis > 0) && o.check_duration iterations cfg.max_millis then
          .ok (e1, best_node, iterations)
        else if decide (cfg.max_iterations > 0) && decide (iterations ≥ cfg.max_iterations) then
          .ok (e1, best_node, iterations)
        else if INT_MAX ≤ iterations then .error .int_overflow
        else run_loop W fl o cfg fuel e1 (iterations + 1)

/-- `UCT::run(current_state, seed, explored_states)`; the `seed` argument is not
read by the source.  `fuel` bounds the number of passes of the main loop. -/
def run (W : World F S A G) (fl : FloatOps F) (o : Oracle A) (cfg : UCT F) (fuel : Nat)
    (current_state : S) (rng : G) (explored_states : Option (List S)) :
    Except Err (RunResult F S A G) :=
  let root_node := TreeNode.create W fl current_state none
  match run_loop W fl o cfg fuel
      { nodes := [root_node], rd := 0, rng := rng, explored_states := explored_states } 0 with
  | .error err => .error err
  | .ok (e, best_node, iterations) =>
    match best_node with
    | none => .ok { action := W.default_action, iterations := iterations,
                    best_node := none, final := e }
    | some b =>
      match e.nodes[b]? with
      | none => .error .null_deref
      | some n => .ok { action := n.action, iterations := iterations,
                        best_node := some b, final := e }

/-! ### Specification vocabulary -/

/-- The comparison `>` of `fl` is a strict weak order on the values that satisfy
`X` (the values a loop compares).  For `float` this holds of every set of values
without a NaN; it fails as soon as `X` holds of a NaN. -/
structure GtOrder (fl : FloatOps F) (X : F → Prop) : Prop where
  irrefl : ∀ a, X a → fl.gt a a = false
  trans : ∀ a b c, X a → X b → X c → fl.gt a b = true → fl.gt b c = true → fl.gt a c = true
  neg_trans : ∀ a b c, X a → X b → X c → fl.gt a c = true →
    fl.gt a b = true ∨ fl.gt b c = true

/-- `Rollout W j s g s1 g1`: from state `s` and generator `g`, `j` actions, each
drawn by `get_random_action` from the non-terminal state it is applied to, lead to
`s1` and `g1`. -/
inductive Rollout (W : World F S A G) : Nat → S → G → S → G → Prop
  | done (s : S) (g : G) : Rollout W 0 s g s g
  | step {j : Nat} {s s1 : S} {g g1 g2 : G} {a : A} :
      W.is_terminal s = false → W.get_random_action s g = (some a, g1) →
      Rollout W j (W.apply_action s a) g1 s1 g2 → Rollout W (j + 1) s g s1 g2

/-- `OnPath nodes p i`: node `i` lies on the chain of parent pointers that starts at
pointer `p` (the node `p` itself included). -/
inductive OnPath (nodes : List (TreeNode F S A)) : Option Nat → Nat → Prop
  | here (i : Nat) : OnPath nodes (some i) i
  | up {i j : Nat} {n : TreeNode F S A} :
      nodes[i]? = some n → OnPath nodes n.parent j → OnPath nodes (some i) j

/-- Two node values that differ at most in the statistics `num_visits` and `value`. -/
def SameShape (n m : TreeNode F S A) : Prop :=
  m.state = n.state ∧ m.action = n.action ∧ m.parent = n.parent ∧ m.agent_id = n.agent_id ∧
  m.depth = n.depth ∧ m.children = n.children ∧ m.actions = n.actions

/-- Two node values with the same state, action, parent, cached agent and depth. -/
def SameId (n m : TreeNode F S A) : Prop :=
  m.state = n.state ∧ m.action = n.action ∧ m.parent = n.parent ∧ m.agent_id = n.agent_id ∧
  m.depth = n.depth

/-- The engine states that occur at the start or end of a pass of the loop of
`run` started on `s0`: the tree is "built by run". -/
inductive Built (W : World F S A G) (fl : FloatOps F) (o : Oracle A) (cfg : UCT F) (s0 : S) :
    Engine F S A G → Prop
  | init (rng : G) (explored_states : Option (List S)) :
      Built W fl o cfg s0 { nodes := [TreeNode.create W fl s0 none], rd := 0, rng := rng,
                            explored_states := explored_states }
  | cycle {e e1 : Engine F S A G} :
      Built W fl o cfg s0 e → cycle W fl o cfg e = .ok e1 → Built W fl o cfg s0 e1

/-- Structural invariant of the arena: it holds for every tree built by `run`. -/
structure TreeInv (W : World F S A G) (nodes : List (TreeNode F S A)) : Prop where
  root : ∃ r, nodes[0]? = some r ∧ r.parent = none ∧ r.depth = 0
  parent_lt : ∀ (i : Nat) (n : TreeNode F S A) (p : Nat),
    nodes[i]? = some n → n.parent = some p → p < i
  parent_none : ∀ (i : Nat) (n : TreeNode F S A),
    nodes[i]? = some n → n.parent = none → i = 0
  parent_child : ∀ (i : Nat) (n : TreeNode F S A) (p : Nat),
    nodes[i]? = some n → n.parent = some p → ∃ pn, nodes[p]? = some pn ∧ i ∈ pn.children
  children_le : ∀ (i : Nat) (n : TreeNode F S A),
    nodes[i]? = some n → n.children.length ≤ n.actions.length
  terminal_leaf : ∀ (i : Nat) (n : TreeNode F S A),
    nodes[i]? = some n → W.is_terminal n.state = true → n.actions = []
  child : ∀ (i : Nat) (n : TreeNode F S A) (j c : Nat),
    nodes[i]? = some n → n.children[j]? = some c →
    ∃ cn a, nodes[c]? = some cn ∧ n.actions[j]? = some a ∧ cn.action = a ∧
      cn.parent = some i ∧ cn.state = W.apply_action n.state a ∧
      cn.depth = n.depth + 1 ∧ cn.agent_id = W.agent_id n.state

/-- Assumptions on the world model, the shuffle and the arithmetic under which `run`
has no undefined behaviour.  `P` is an invariant of the states the search meets,
`Good` an invariant of the accumulated values. -/
structure Sane (W : World F S A G) (fl : FloatOps F) (o : Oracle A) (uct_k : F)
    (P : S → Prop) (Good : F → Prop) : Prop where
  /-- `std::shuffle` permutes its argument -/
  shuffle_perm : ∀ (k : Nat) (l : List A), (o.shuffle k l).Perm l
  /-- legal moves keep the state invariant -/
  step : ∀ (s : S) (a : A), P s → W.is_terminal s = false → a ∈ W.get_actions s →
    P (W.apply_action s a)
  /-- a randomly drawn action is a legal one -/
  random_legal : ∀ (s : S) (g g1 : G) (a : A), P s → W.is_terminal s = false →
    W.get_random_action s g = (some a, g1) → a ∈ W.get_actions s
  /-- a state that is not terminal has a legal action -/
  has_action : ∀ (s : S), P s → W.is_terminal s = false → W.get_actions s ≠ []
  /-- every agent id indexes every reward vector -/
  agent_index : ∀ (s s1 : S), P s → P s1 →
    0 ≤ W.agent_id s ∧ (W.agent_id s).toNat < (W.evaluate s1).length
  good_zero : Good (fl.ofInt 0)
  good_add : ∀ (v r : F) (s : S), Good v → P s → r ∈ W.evaluate s → Good (fl.add v r)
  /-- the score of a child with a good value compares greater than `-FLT_MAX` -/
  score_gt : ∀ (node child : TreeNode F S A), Good child.value →
    fl.gt (uct_score fl uct_k node child) fl.lowest = true

/-- Invariant of the arena that depends on the assumptions `Sane`; `K` bounds the
visit counts. -/
structure Sound (W : World F S A G) (P : S → Prop) (Good : F → Prop) (K : Nat)
    (nodes : List (TreeNode F S A)) : Prop where
  state : ∀ (i : Nat) (n : TreeNode F S A), nodes[i]? = some n → P n.state
  agent : ∀ (i : Nat) (n : TreeNode F S A), nodes[i]? = some n →
    ∃ s, P s ∧ n.agent_id = W.agent_id s
  acts : ∀ (i : Nat) (n : TreeNode F S A), nodes[i]? = some n →
    n.actions = [] ∨ n.actions.Perm (W.get_actions n.state)
  good : ∀ (i : Nat) (n : TreeNode F S A), nodes[i]? = some n → Good n.value
  visits : ∀ (i : Nat) (n : TreeNode F S A), nodes[i]? = some n → n.num_visits ≤ K

/-- Invariant of the arena that needs only a shuffle that permutes and a state
invariant `P` closed under legal moves: states satisfy `P`, and an action list is
either not populated yet or a permutation of the legal actions of the state. -/
structure Legal (W : World F S A G) (P : S → Prop) (nodes : List (TreeNode F S A)) : Prop where
  state : ∀ (i : Nat) (n : TreeNode F S A), nodes[i]? = some n → P n.state
  acts : ∀ (i : Nat) (n : TreeNode F S A), nodes[i]? = some n →
    n.actions = [] ∨ n.actions.Perm (W.get_actions n.state)

/-- Visit count of the node a child pointer refers to (`0` for a dangling pointer). -/
def visits_at (nodes : List (TreeNode F S A)) (c : Nat) : Nat :=
  match nodes[c]? with
  | some m => m.num_visits
  | none => 0

/-- Sum of the visit counts of the children of `n`. -/
def child_visits (nodes : List (TreeNode F S A)) (n : TreeNode F S A) : Nat :=
  (n.children.map (visits_at nodes)).sum

/-- The signature `run(current_state, seed, explored_states)` with its `seed`
argument, which the body never reads. -/
def run_seeded (W : World F S A G) (fl : FloatOps F) (o : Oracle A) (cfg : UCT F) (fuel : Nat)
    (current_state : S) (_seed : Nat) (rng : G) (explored_states : Option (List S)) :
    Except Err (RunResult F S A G) :=
  run W fl o cfg fuel current_state rng explored_states

/-- Visit conservation while the back propagation loop stands at pointer `q`: every
node with a non-terminal state has `num_visits` equal to the sum of its children's
visits, plus one unless it is the root, where the node at `q`, whose update is
still to come, counts as updated already. -/
def Owed (W : World F S A G) (nodes : List (TreeNode F S A)) (q : Option Nat) : Prop :=
  ∀ (i : Nat) (n : TreeNode F S A), nodes[i]? = some n → W.is_terminal n.state = false →
    n.num_visits + (if q = some i then 1 else 0) =
      (if i = 0 then 0 else 1) + child_visits nodes n

/-- Invariant of the visit counts: no node lists a child twice, every node but the
root has been visited, and visits are conserved (`Owed` with no update pending). -/
structure Visits (W : World F S A G) (nodes : List (TreeNode F S A)) : Prop where
  nodup : ∀ (i : Nat) (n : TreeNode F S A), nodes[i]? = some n → n.children.Nodup
  pos : ∀ (i : Nat) (n : TreeNode F S A), nodes[i]? = some n → i ≠ 0 → 1 ≤ n.num_visits
  owed : Owed W nodes none

end Engine

end MCTS

/-! ## The tic-tac-toe domain of `OXOState.h` -/

namespace oxo

/-- `struct Action`; `Action()` has `tile = 0`. -/
structure Action where
  tile : Int
  deriving DecidableEq, Repr

def kNone : Int := -1
def kPlayer1 : Int := 0
def kPlayer2 : Int := 1

/-- The anonymous struct `data` of `class State`; `board` stands for `int board[9]`. -/
structure State where
  player_turn : Int
  is_terminal : Bool
  winner : Int
  board : List Int
  deriving DecidableEq, Repr

/-- The table `win_combo`. -/
def win_combo : List (Nat × Nat × Nat) :=
  [(0, 1, 2), (3, 4, 5), (6, 7, 8), (0, 3, 6), (1, 4, 7), (2, 5, 8), (0, 4, 8), (2, 4, 6)]

/-- Read of `board[i]`. -/
def cell (board : List Int) (i : Nat) : Int := board.getD i 0

/-- The test in the loop over `win_combo`. -/
def is_win (board : List Int) (c : Nat × Nat × Nat) : Bool :=
  decide (cell board c.1 > kNone) && decide (cell board c.1 = cell board c.2.1)
    && decide (cell board c.2.1 = cell board c.2.2)

/-- `State::reset` (the constructor). -/
def reset : State :=
  { player_turn := kPlayer1, is_terminal := false, winner := kNone,
    board := List.replicate 9 kNone }

/-- `State::apply_action`. -/
def apply_action (s : State) (action : Action) : State :=
  if action.tile < 0 ∨ action.tile > 8 then s
  else
    let board := s.board.set action.tile.toNat s.player_turn
    let player_turn := 1 - s.player_turn
    match win_combo.find? (is_win board) with
    | some c =>
      { player_turn := player_turn, is_terminal := true, winner := cell board c.1,
        board := board }
    | none =>
      let num_empty := (List.range 9).countP (fun i => decide (cell board i = kNone))
      if num_empty = 0 then
        { player_turn := player_turn, is_terminal := true, winner := kNone, board := board }
      else
        { player_turn := player_turn, is_terminal := s.is_terminal, winner := s.winner,
          board := board }

/-- `State::get_actions`. -/
def get_actions (s : State) : List Action :=
  ((List.range 9).filter (fun i => decide (cell s.board i = kNone))).map
    (fun i => Action.mk (Int.ofNat i))

/-- `State::get_random_action`; the generator state is the number of `rand()`
calls made so far and `rand k` is the value of call `k`. -/
def get_random_action (rand : Nat → Nat) (s : State) (g : Nat) : Option Action × Nat :=
  let actions := get_actions s
  if actions.isEmpty then (none, g)
  else (actions[rand g % actions.length]?, g + 1)

/-- `State::evaluate`. -/
def evaluate {F : Type} (fl : MCTS.FloatOps F) (s : State) : List F :=
  if s.is_terminal then
    if s.winner = kNone then [fl.half, fl.half]
    else if s.winner = kPlayer1 then [fl.ofInt 1, fl.ofInt 0]
    else if s.winner = kPlayer2 then [fl.ofInt 0, fl.ofInt 1]
    else [fl.ofInt 0, fl.ofInt 0]
  else [fl.ofInt 0, fl.ofInt 0]

/-- The instantiation `UCT<State, Action>` of `mcts_oxo.cpp`. -/
def world {F : Type} (fl : MCTS.FloatOps F) (rand : Nat → Nat) :
    MCTS.World F State Action Nat :=
  { is_terminal := fun s => s.is_terminal
    agent_id := fun s => s.player_turn
    apply_action := apply_action
    get_actions := get_actions
    get_random_action := get_random_action rand
    evaluate := evaluate fl
    default_action := Action.mk 0 }

/-- States reachable from the initial board by legal moves (moves returned by
`get_actions` of the state they are applied to). -/
inductive Reachable : State → Prop
  | reset : Reachable reset
  | step {s : State} {a : Action} :
      Reachable s → a ∈ get_actions s → Reachable (apply_action s a)

/-- What the tic-tac-toe rewards `0`, `0.5`, `1` and the scores of
`get_best_uct_child` need from the arithmetic: adding a reward keeps a value
`Good`, and the score of a child with a `Good` value compares greater than
`-FLT_MAX`. -/
structure FloatSane {F : Type} (fl : MCTS.FloatOps F) (uct_k : F) (Good : F → Prop) : Prop where
  good_zero : Good (fl.ofInt 0)
  good_add_zero : ∀ (v : F), Good v → Good (fl.add v (fl.ofInt 0))
  good_add_half : ∀ (v : F), Good v → Good (fl.add v fl.half)
  good_add_one : ∀ (v : F), Good v → Good (fl.add v (fl.ofInt 1))
  score_gt : ∀ (node child : MCTS.TreeNode F State Action), Good child.value →
    fl.gt (MCTS.uct_score fl uct_k node child) fl.lowest = true

/-- States reachable from `reset()` by applying legal actions to states that are
not terminal: the positions of an actual game. -/
inductive Played : State → Prop
  | reset : Played reset
  | step {s : State} {a : Action} :
      Played s → s.is_terminal = false → a ∈ get_actions s → Played (apply_action s a)

/-- `Moves j s s1`: a sequence of `j` moves leads from `s` to `s1`, each move drawn
from `get_actions` of the current state, which is not terminal. -/
inductive Moves : Nat → State → State → Prop
  | done (s : State) : Moves 0 s s
  | step {j : Nat} {s s1 : State} {a : Action} :
      s.is_terminal = false → a ∈ get_actions s → Moves j (apply_action s a) s1 →
      Moves (j + 1) s s1

/-- Code side: the test in the loop of `apply_action` over the table `win_combo`
succeeds for some entry of the table. -/
def has_line (board : List Int) : Prop := ∃ c ∈ win_combo, is_win board c = true

/-- Spec side, written from the words "some row, column or diagonal holds three
equal marks of one player" and not from the table `win_combo`: every cell of some
row, of some column or of one of the two diagonals holds the mark `p`.  The cells
of the 3x3 board are numbered row by row, cell `3 * r + k` being row `r`, column
`k` (the numbering `draw` prints the board in). -/
def three_in_line (board : List Int) (p : Int) : Prop :=
  (∃ r, r < 3 ∧ ∀ k, k < 3 → cell board (3 * r + k) = p) ∨
  (∃ k, k < 3 ∧ ∀ r, r < 3 → cell board (3 * r + k) = p) ∨
  (∀ d, d < 3 → cell board (3 * d + d) = p) ∨
  (∀ d, d < 3 → cell board (3 * d + (2 - d)) = p)

/-- No cell of the board is empty. -/
def is_full (board : List Int) : Prop := ∀ i, i < 9 → cell board i ≠ kNone

end oxo

/-! ## Concrete instances used for closed statements -/

namespace Example

/-- Exact rational arithmetic with the constants of IEEE single precision;
`sqrt` and `log` are natural-number approximations.  It stands in for `float`
wherever a closed statement needs concrete arithmetic. -/
def ratFloat : MCTS.FloatOps ℚ :=
  { ofInt := fun i => (i : ℚ)
    half := 1 / 2
    add := fun a b => a + b
    mul := fun a b => a * b
    div := fun a b => a / b
    sqrt := fun q => (Nat.sqrt (q.num.toNat * q.den) : ℚ) / q.den
    log := fun q => (Nat.log 2 (q.num.toNat / q.den) : ℚ)
    eps := 1 / 2 ^ 23
    lowest := -(2 ^ 128 - 2 ^ 104)
    gt := fun a b => decide (b < a) }

/-- A fixed sequence of `rand()` values. -/
def rand0 (k : Nat) : Nat := 7 * k + 3

/-- An oracle whose shuffle reverses the list and whose clock never expires. -/
def oracle0 : MCTS.Oracle oxo.Action :=
  { shuffle := fun _ l => l.reverse
    check_duration := fun _ _ => false }

/-- The tic-tac-toe world over `ratFloat` and `rand0`. -/
def world0 : MCTS.World ℚ oxo.State oxo.Action Nat := oxo.world ratFloat rand0

/-- Configuration with `max_iterations = n`, no time limit, default depth. -/
def config (n : Nat) : MCTS.UCT ℚ :=
  { uct_k := 3 / 2, max_iterations := n, max_millis := 0, simulation_depth := 10 }

/-- Play the given tiles in order from the empty board. -/
def play (tiles : List Int) : oxo.State :=
  tiles.foldl (fun s t => oxo.apply_action s (oxo.Action.mk t)) oxo.reset

/-- A finished game: player 1 owns the top row. -/
def wonBoard : oxo.State := play [0, 3, 1, 4, 2]

/-- A running game with exactly one empty cell (tile 8). -/
def lastMoveBoard : oxo.State := play [0, 1, 2, 4, 3, 5, 7, 6]

/-- Rational arithmetic extended with a NaN (`none`): an operation with a NaN
operand yields NaN and every comparison with a NaN is false, as for IEEE 754
`float`. -/
def nanFloat : MCTS.FloatOps (Option ℚ) :=
  { ofInt := fun i => some (i : ℚ)
    half := some (1 / 2)
    add := fun a b => match a, b with
      | some x, some y => some (x + y)
      | _, _ => none
    mul := fun a b => match a, b with
      | some x, some y => some (x * y)
      | _, _ => none
    div := fun a b => match a, b with
      | some x, some y => some (x / y)
      | _, _ => none
    sqrt := fun a => a.map ratFloat.sqrt
    log := fun a => a.map ratFloat.log
    eps := some ratFloat.eps
    lowest := some ratFloat.lowest
    gt := fun a b => match a, b with
      | some x, some y => decide (y < x)
      | _, _ => false }

/-- The tic-tac-toe world over `nanFloat`. -/
def nanWorld : MCTS.World (Option ℚ) oxo.State oxo.Action Nat := oxo.world nanFloat rand0

/-- Configuration whose exploration constant is NaN. -/
def nanConfig : MCTS.UCT (Option ℚ) :=
  { uct_k := none, max_iterations := 1, max_millis := 0, simulation_depth := 10 }

/-- The engine state in which `run` starts on `s` without `explored_states`. -/
def start {F : Type} (W : MCTS.World F oxo.State oxo.Action Nat) (fl : MCTS.FloatOps F)
    (s : oxo.State) : MCTS.Engine F oxo.State oxo.Action Nat :=
  { nodes := [MCTS.TreeNode.create W fl s none], rd := 0, rng := 0, explored_states := none }

/-- The engine state after the first pass of the loop of `run` on `s` (the start
state itself if that pass fails). -/
def firstPass {F : Type} (W : MCTS.World F oxo.State oxo.Action Nat) (fl : MCTS.FloatOps F)
    (o : MCTS.Oracle oxo.Action) (cfg : MCTS.UCT F) (s : oxo.State) :
    MCTS.Engine F oxo.State oxo.Action Nat :=
  match MCTS.cycle W fl o cfg (start W fl s) with
  | .ok e => e
  | .error _ => start W fl s

/-- A running game in which player 1 wins by playing tile 8 while four cells stay
empty. -/
def nearWinBoard : oxo.State := play [6, 0, 7, 1]

/-- An oracle whose shuffle leaves the list as it is and whose clock never expires. -/
def oracle1 : MCTS.Oracle oxo.Action :=
  { shuffle := fun _ l => l
    check_duration := fun _ _ => false }

/-- A board without an empty cell and without a complete line whose `is_terminal`
flag is not set (the members of `data` are public). -/
def fullOpenBoard : oxo.State :=
  { player_turn := 0, is_terminal := false, winner := -1,
    board := [0, 1, 0, 0, 1, 1, 1, 0, 0] }

/-- Configuration over `nanFloat` whose exploration constant is the number `1.5`,
with `max_iterations = n`, no time limit and the default depth. -/
def numConfig (n : Nat) : MCTS.UCT (Option ℚ) :=
  { uct_k := some (3 / 2), max_iterations := n, max_millis := 0, simulation_depth := 10 }

/-- Configuration whose exploration constant is NaN, with `max_iterations = 2`. -/
def nanConfig2 : MCTS.UCT (Option ℚ) :=
  { uct_k := none, max_iterations := 2, max_millis := 0, simulation_depth := 10 }

/-- A running game with exactly two empty cells (tiles 6 and 8). -/
def twoLeftBoard : oxo.State := play [0, 1, 2, 4, 3, 5, 7]

/-- A drawn game: the board is full and no line is complete. -/
def drawBoard : oxo.State := play [0, 1, 2, 4, 3, 5, 7, 6, 8]

end Example

/-! ## Theorems -/

namespace MCTS

section

variable {F S A G : Type}

/-! ### Basic facts -/

theorem is_fully_expanded_false_iff (n : TreeNode F S A) :
    is_fully_expanded n = false ↔ n.children = [] ∨ n.children.length ≠ n.actions.length := by
  unfold is_fully_expanded
  cases h : n.children <;> simp

theorem is_fully_expanded_true_iff (n : TreeNode F S A) :
    is_fully_expanded n = true ↔ n.children ≠ [] ∧ n.children.length = n.actions.length := by
  unfold is_fully_expanded
  cases h : n.children <;> simp

theorem deref_ok_iff (nodes : List (TreeNode F S A)) (p : Option Nat) (n : TreeNode F S A) :
    deref nodes p = .ok n ↔ ∃ i, p = some i ∧ nodes[i]? = some n := by
  unfold deref
  cases p with
  | none => simp
  | some i =>
    cases h : nodes[i]? with
    | none => simp [h]
    | some m => simp [h]

/-- Lookup in the arena produced by `add_child_with_action`. -/
theorem getElem?_set_append (nodes : List (TreeNode F S A)) (id : Nat) (m x : TreeNode F S A)
    (hid : id < nodes.length) (i : Nat) :
    (nodes.set id m ++ [x])[i]? =
      if i = nodes.length then some x else if i = id then some m else nodes[i]? := by
  by_cases h1 : i = nodes.length
  · subst h1
    have : (nodes.set id m ++ [x])[(nodes.set id m).length]? = some x :=
      List.getElem?_concat_length _ _
    simp
  · by_cases h2 : i < nodes.length
    · rw [List.getElem?_append_left (by simpa using h2)]
      by_cases h3 : i = id
      · subst h3; simp [h1, hid]
      · simp [h1, h3, List.getElem?_set_ne (Ne.symm h3)]
    · have h4 : nodes.length < i := by omega
      have h5 : i ≠ id := by omega
      rw [List.getElem?_eq_none (by simp; omega)]
      simp [h1, h5]
      omega

theorem expand_ok_inv (W : World F S A G) (fl : FloatOps F) (o : Oracle A)
    (nodes nodes1 : List (TreeNode F S A)) (rd rd1 id : Nat) (q : Option Nat)
    (n : TreeNode F S A) (hn : nodes[id]? = some n) (hfe : is_fully_expanded n = false)
    (h : expand W fl o nodes rd id = .ok (nodes1, rd1, q)) :
    ∃ acts a,
      acts = (if n.actions.isEmpty then o.shuffle rd (W.get_actions n.state) else n.actions) ∧
      acts[n.children.length]? = some a ∧
      rd1 = (if n.actions.isEmpty then rd + 1 else rd) ∧
      q = some nodes.length ∧
      nodes1 = nodes.set id { n with actions := acts, children := n.children ++ [nodes.length] } ++
        [{ state := W.apply_action n.state a, action := a, parent := some id,
           agent_id := W.agent_id n.state, num_visits := 0, value := fl.ofInt 0,
           depth := n.depth + 1, children := [], actions := [] }] := by
  unfold expand at h
  simp only [hn, hfe] at h
  cases hempty : n.actions.isEmpty with
  | true =>
    simp only [hempty, if_true] at h
    cases hsh : (o.shuffle rd (W.get_actions n.state))[n.children.length]? with
    | none => simp [hsh] at h
    | some a =>
      simp [hsh, add_child_with_action, TreeNode.create] at h
      obtain ⟨h1, h2, h3⟩ := h
      exact ⟨_, a, rfl, by simpa using hsh, by simp [h2], h3.symm, by simp [← h1]⟩
  | false =>
    simp only [hempty] at h
    cases hsh : n.actions[n.children.length]? with
    | none => simp [hsh] at h
    | some a =>
      simp [hsh, add_child_with_action, TreeNode.create] at h
      obtain ⟨h1, h2, h3⟩ := h
      exact ⟨_, a, rfl, by simpa using hsh, by simp [h2], h3.symm, by simp [← h1]⟩

theorem update_ok_inv (fl : FloatOps F) (n n1 : TreeNode F S A) (rewards : List F)
    (h : update fl n rewards = .ok n1) :
    0 ≤ n.agent_id ∧ n.num_visits < INT_MAX ∧
    ∃ r, rewards[n.agent_id.toNat]? = some r ∧
      n1 = { n with value := fl.add n.value r, num_visits := n.num_visits + 1 } := by
  unfold update at h
  by_cases h1 : n.agent_id < 0
  · simp [h1] at h
  · simp only [h1, if_false] at h
    cases h2 : rewards[n.agent_id.toNat]? with
    | none => simp [h2] at h
    | some r =>
      simp only [h2] at h
      by_cases h3 : INT_MAX ≤ n.num_visits
      · simp [h3] at h
      · simp only [h3, if_false] at h
        refine ⟨by omega, by omega, r, rfl, ?_⟩
        cases h; rfl

theorem update_ok_of (fl : FloatOps F) (n : TreeNode F S A) (rewards : List F) (r : F)
    (h0 : 0 ≤ n.agent_id) (hr : rewards[n.agent_id.toNat]? = some r)
    (hv : n.num_visits < INT_MAX) :
    update fl n rewards =
      .ok { n with value := fl.add n.value r, num_visits := n.num_visits + 1 } := by
  unfold update
  have h1 : ¬ n.agent_id < 0 := by omega
  have h3 : ¬ INT_MAX ≤ n.num_visits := by omega
  simp [h1, hr, h3]

/-! ### Back propagation -/

theorem onPath_le (nodes : List (TreeNode F S A))
    (hpl : ∀ (i : Nat) (n : TreeNode F S A) (p : Nat),
      nodes[i]? = some n → n.parent = some p → p < i)
    (q : Option Nat) (i : Nat) (h : OnPath nodes q i) : ∀ p, q = some p → i ≤ p := by
  induction h with
  | here i => intro p hp; cases hp; exact le_refl _
  | @up i0 j n hn hpath ih =>
    intro p hp
    cases hp
    cases hpar : n.parent with
    | none =>
      rw [hpar] at hpath
      cases hpath
    | some pp =>
      have h1 := ih pp hpar
      have h2 := hpl _ n pp hn hpar
      omega

theorem onPath_parent_lt (nodes : List (TreeNode F S A))
    (hpl : ∀ (i : Nat) (n : TreeNode F S A) (p : Nat),
      nodes[i]? = some n → n.parent = some p → p < i)
    (id : Nat) (n : TreeNode F S A) (hn : nodes[id]? = some n) (i : Nat)
    (h : OnPath nodes n.parent i) : i < id := by
  cases hpar : n.parent with
  | none => rw [hpar] at h; cases h
  | some pp =>
    have h1 := onPath_le nodes hpl _ _ h pp hpar
    have h2 := hpl _ n pp hn hpar
    omega

theorem onPath_congr (nodes nodes1 : List (TreeNode F S A))
    (hc : ∀ (i : Nat) (n : TreeNode F S A), nodes[i]? = some n →
      ∃ m, nodes1[i]? = some m ∧ m.parent = n.parent)
    (q : Option Nat) (i : Nat) (h : OnPath nodes q i) : OnPath nodes1 q i := by
  induction h with
  | here i => exact OnPath.here i
  | @up i0 j n hn _ ih =>
    obtain ⟨m, hm, hpar⟩ := hc _ n hn
    exact OnPath.up hm (by rw [hpar]; exact ih)

theorem onPath_some_iff (nodes : List (TreeNode F S A)) (id i : Nat) (n : TreeNode F S A)
    (hn : nodes[id]? = some n) :
    OnPath nodes (some id) i ↔ i = id ∨ OnPath nodes n.parent i := by
  constructor
  · intro h
    cases h with
    | here => left; rfl
    | up hn1 hp =>
      rw [hn] at hn1; cases hn1
      right; exact hp
  · rintro (h | h)
    · subst h; exact OnPath.here _
    · exact OnPath.up hn h

theorem backpropagate_spec (fl : FloatOps F) (rewards : List F) (fuel : Nat) :
    ∀ (nodes nodes1 : List (TreeNode F S A)) (p : Option Nat),
    (∀ (i : Nat) (n : TreeNode F S A) (p : Nat),
      nodes[i]? = some n → n.parent = some p → p < i) →
    backpropagate fl rewards fuel nodes p = .ok nodes1 →
    nodes1.length = nodes.length ∧
    (∀ i, ¬ OnPath nodes p i → nodes1[i]? = nodes[i]?) ∧
    (∀ i, OnPath nodes p i → ∃ n r, nodes[i]? = some n ∧ 0 ≤ n.agent_id ∧
      n.num_visits < INT_MAX ∧ rewards[n.agent_id.toNat]? = some r ∧
      nodes1[i]? = some { n with value := fl.add n.value r,
                                 num_visits := n.num_visits + 1 }) := by
  induction fuel with
  | zero =>
    intro nodes nodes1 p hpl h
    cases p with
    | none =>
      simp [backpropagate] at h
      subst h
      refine ⟨rfl, fun _ _ => rfl, ?_⟩
      intro i hi; cases hi
    | some id => simp [backpropagate] at h
  | succ fuel ih =>
    intro nodes nodes1 p hpl h
    cases p with
    | none =>
      simp [backpropagate] at h
      subst h
      refine ⟨rfl, fun _ _ => rfl, ?_⟩
      intro i hi; cases hi
    | some id =>
      unfold backpropagate at h
      cases hn : nodes[id]? with
      | none => simp [hn] at h
      | some n =>
        simp only [hn] at h
        cases hu : update fl n rewards with
        | error e => simp [hu] at h
        | ok n1 =>
          simp only [hu] at h
          obtain ⟨h0, hv, r, hr, hn1⟩ := update_ok_inv fl n n1 rewards hu
          have hpar : n1.parent = n.parent := by rw [hn1]
          have hidlt : id < nodes.length := by
            rcases List.getElem?_eq_some.mp hn with ⟨hlt, _⟩
            exact hlt
          -- lookups in the updated arena
          have hget : ∀ i, (nodes.set id n1)[i]? = if i = id then some n1 else nodes[i]? := by
            intro i
            rw [List.getElem?_set]
            by_cases hi : id = i
            · subst hi; simp [hidlt]
            · have : ¬ i = id := fun hh => hi hh.symm
              simp [hi, this]
          have hpl1 : ∀ (i : Nat) (m : TreeNode F S A) (p : Nat),
              (nodes.set id n1)[i]? = some m → m.parent = some p → p < i := by
            intro i m p hm hp
            rw [hget] at hm
            by_cases hi : i = id
            · simp [hi] at hm; subst hm; subst hi
              rw [hpar] at hp
              exact hpl _ n p hn hp
            · simp [hi] at hm
              exact hpl i m p hm hp
          rw [hpar] at h
          obtain ⟨hlen, hout, hin⟩ := ih (nodes.set id n1) nodes1 n.parent hpl1 h
          have hfw : ∀ i, OnPath nodes n.parent i → OnPath (nodes.set id n1) n.parent i := by
            intro i hi
            refine onPath_congr nodes _ ?_ _ _ hi
            intro j m hm
            rw [hget]
            by_cases hj : j = id
            · subst hj; rw [hn] at hm; cases hm
              exact ⟨n1, by simp, hpar⟩
            · exact ⟨m, by simp [hj, hm], rfl⟩
          have hbw : ∀ i, OnPath (nodes.set id n1) n.parent i → OnPath nodes n.parent i := by
            intro i hi
            refine onPath_congr _ nodes ?_ _ _ hi
            intro j m hm
            rw [hget] at hm
            by_cases hj : j = id
            · subst hj; simp at hm; subst hm
              exact ⟨n, hn, hpar.symm⟩
            · simp [hj] at hm
              exact ⟨m, hm, rfl⟩
          refine ⟨by rw [hlen, List.length_set], ?_, ?_⟩
          · intro i hi
            have hne : i ≠ id := fun hh => hi (hh ▸ OnPath.here _)
            have hnp : ¬ OnPath (nodes.set id n1) n.parent i := fun hh =>
              hi (OnPath.up hn (hbw i hh))
            rw [hout i hnp, hget]
            simp [hne]
          · intro i hi
            rcases (onPath_some_iff nodes id i n hn).mp hi with h1 | h1
            · subst h1
              have hnp : ¬ OnPath (nodes.set i n1) n.parent i := by
                intro hh
                have := onPath_parent_lt nodes hpl i n hn i (hbw i hh)
                omega
              refine ⟨n, r, hn, h0, hv, hr, ?_⟩
              rw [hout i hnp, hget]
              simp [hn1]
            · have hlt := onPath_parent_lt nodes hpl id n hn i h1
              obtain ⟨m, r1, hm, hm0, hmv, hmr, hres⟩ := hin i (hfw i h1)
              rw [hget] at hm
              have hne : i ≠ id := by omega
              simp [hne] at hm
              exact ⟨m, r1, hm, hm0, hmv, hmr, hres⟩

/-! ### The two `argmax` loops -/

theorem most_visited_loop_spec (nodes : List (TreeNode F S A)) (cs : List Nat)
    (hv : ∀ c ∈ cs, ∃ cn, nodes[c]? = some cn) (mv : Int) (bn : Option Nat) :
    (most_visited_loop nodes cs mv bn = .ok bn ∧
      ∀ c cn, c ∈ cs → nodes[c]? = some cn → (cn.num_visits : Int) ≤ mv) ∨
    (∃ i c cn, cs[i]? = some c ∧ nodes[c]? = some cn ∧
      most_visited_loop nodes cs mv bn = .ok (some c) ∧ mv < (cn.num_visits : Int) ∧
      (∀ (j d : Nat) (dn : TreeNode F S A), cs[j]? = some d → nodes[d]? = some dn → dn.num_visits ≤ cn.num_visits) ∧
      (∀ (j d : Nat) (dn : TreeNode F S A), j < i → cs[j]? = some d → nodes[d]? = some dn →
        dn.num_visits < cn.num_visits)) := by
  induction cs generalizing mv bn with
  | nil => left; simp [most_visited_loop]
  | cons c cs ih =>
    obtain ⟨cn, hcn⟩ := hv c (List.mem_cons_self _ _)
    have hv' : ∀ d ∈ cs, ∃ dn, nodes[d]? = some dn := fun d hd => hv d (List.mem_cons_of_mem _ hd)
    by_cases hgt : (cn.num_visits : Int) > mv
    · have hstep : most_visited_loop nodes (c :: cs) mv bn =
          most_visited_loop nodes cs cn.num_visits (some c) := by
        simp [most_visited_loop, hcn, hgt]
      right
      rcases ih hv' cn.num_visits (some c) with ⟨hr, hall⟩ | ⟨i, d, dn, hi, hd, hr, hlt, hmax, hfirst⟩
      · refine ⟨0, c, cn, by simp, hcn, by rw [hstep, hr], hgt, ?_, ?_⟩
        · intro j d dn hj hd
          cases j with
          | zero =>
            simp at hj; subst hj; rw [hcn] at hd; cases hd; exact le_refl _
          | succ j =>
            simp at hj
            have := hall d dn (List.mem_iff_getElem?.mpr ⟨_, hj⟩) hd
            exact_mod_cast this
        · intro j d dn hj; omega
      · refine ⟨i + 1, d, dn, by simpa using hi, hd, by rw [hstep, hr], by omega, ?_, ?_⟩
        · intro j d' dn' hj hd'
          cases j with
          | zero =>
            simp at hj; subst hj; rw [hcn] at hd'; cases hd'; omega
          | succ j =>
            simp at hj
            exact hmax j d' dn' hj hd'
        · intro j d' dn' hlt' hj hd'
          cases j with
          | zero =>
            simp at hj; subst hj; rw [hcn] at hd'; cases hd'; omega
          | succ j =>
            simp at hj
            exact hfirst j d' dn' (by omega) hj hd'
    · have hstep : most_visited_loop nodes (c :: cs) mv bn =
          most_visited_loop nodes cs mv bn := by
        simp [most_visited_loop, hcn, hgt]
      rcases ih hv' mv bn with ⟨hr, hall⟩ | ⟨i, d, dn, hi, hd, hr, hlt, hmax, hfirst⟩
      · left
        refine ⟨by rw [hstep, hr], ?_⟩
        intro d dn hd hdn
        rcases List.mem_cons.mp hd with h | h
        · subst h; rw [hcn] at hdn; cases hdn; omega
        · exact hall d dn h hdn
      · right
        refine ⟨i + 1, d, dn, by simpa using hi, hd, by rw [hstep, hr], hlt, ?_, ?_⟩
        · intro j d' dn' hj hd'
          cases j with
          | zero =>
            simp at hj; subst hj; rw [hcn] at hd'; cases hd'; omega
          | succ j =>
            simp at hj
            exact hmax j d' dn' hj hd'
        · intro j d' dn' hlt' hj hd'
          cases j with
          | zero =>
            simp at hj; subst hj; rw [hcn] at hd'; cases hd'; omega
          | succ j =>
            simp at hj
            exact hfirst j d' dn' (by omega) hj hd'

theorem best_uct_loop_none (fl : FloatOps F) (nodes : List (TreeNode F S A))
    (node : TreeNode F S A) (k : F) (hvis : node.num_visits < INT_MAX) (cs : List Nat)
    (hv : ∀ c ∈ cs, ∃ cn, nodes[c]? = some cn) (bs : F) (bn : Option Nat) :
    (best_uct_loop fl nodes node k cs bs bn = .ok bn ∧
      ∀ c cn, c ∈ cs → nodes[c]? = some cn → fl.gt (uct_score fl k node cn) bs = false) ∨
    (∃ c cn, c ∈ cs ∧ nodes[c]? = some cn ∧
      best_uct_loop fl nodes node k cs bs bn = .ok (some c)) := by
  induction cs generalizing bs bn with
  | nil => left; simp [best_uct_loop]
  | cons c cs ih =>
    obtain ⟨cn, hcn⟩ := hv c (List.mem_cons_self _ _)
    have hv' : ∀ d ∈ cs, ∃ dn, nodes[d]? = some dn := fun d hd => hv d (List.mem_cons_of_mem _ hd)
    have hnv : ¬ INT_MAX ≤ node.num_visits := by omega
    by_cases hgt : fl.gt (uct_score fl k node cn) bs = true
    · have hstep : best_uct_loop fl nodes node k (c :: cs) bs bn =
          best_uct_loop fl nodes node k cs (uct_score fl k node cn) (some c) := by
        simp [best_uct_loop, hcn, hgt, hnv]
      right
      rcases ih hv' (uct_score fl k node cn) (some c) with ⟨hr, _⟩ | ⟨d, dn, hd, hdn, hr⟩
      · exact ⟨c, cn, List.mem_cons_self _ _, hcn, by rw [hstep, hr]⟩
      · exact ⟨d, dn, List.mem_cons_of_mem _ hd, hdn, by rw [hstep, hr]⟩
    · have hgt' : fl.gt (uct_score fl k node cn) bs = false := by simpa using hgt
      have hstep : best_uct_loop fl nodes node k (c :: cs) bs bn =
          best_uct_loop fl nodes node k cs bs bn := by
        simp [best_uct_loop, hcn, hgt', hnv]
      rcases ih hv' bs bn with ⟨hr, hall⟩ | ⟨d, dn, hd, hdn, hr⟩
      · left
        refine ⟨by rw [hstep, hr], ?_⟩
        intro d dn hd hdn
        rcases List.mem_cons.mp hd with h | h
        · subst h; rw [hcn] at hdn; cases hdn; exact hgt'
        · exact hall d dn h hdn
      · right
        exact ⟨d, dn, List.mem_cons_of_mem _ hd, hdn, by rw [hstep, hr]⟩

theorem frame_back (nodes nodes1 : List (TreeNode F S A))
    (hlen : nodes1.length = nodes.length)
    (hfr : ∀ (i : Nat) (n : TreeNode F S A), nodes[i]? = some n →
      ∃ m, nodes1[i]? = some m ∧ SameShape n m)
    (i : Nat) (m : TreeNode F S A) (hm : nodes1[i]? = some m) :
    ∃ n, nodes[i]? = some n ∧ SameShape n m := by
  rcases List.getElem?_eq_some.mp hm with ⟨hlt, _⟩
  have hlt' : i < nodes.length := by omega
  obtain ⟨m', hm', hs⟩ := hfr i nodes[i] (List.getElem?_eq_getElem hlt')
  rw [hm] at hm'
  cases hm'
  exact ⟨_, List.getElem?_eq_getElem hlt', hs⟩

theorem treeInv_frame (W : World F S A G) (nodes nodes1 : List (TreeNode F S A))
    (hinv : TreeInv W nodes) (hlen : nodes1.length = nodes.length)
    (hfr : ∀ (i : Nat) (n : TreeNode F S A), nodes[i]? = some n →
      ∃ m, nodes1[i]? = some m ∧ SameShape n m) :
    TreeInv W nodes1 := by
  have hb := frame_back nodes nodes1 hlen hfr
  constructor
  · obtain ⟨r, hr, hp, hd⟩ := hinv.root
    obtain ⟨m, hm, hs⟩ := hfr 0 r hr
    obtain ⟨_, _, h3, _, h5, _, _⟩ := hs
    exact ⟨m, hm, by rw [h3, hp], by rw [h5, hd]⟩
  · intro i m p hm hp
    obtain ⟨n, hn, hs⟩ := hb i m hm
    obtain ⟨_, _, h3, _, _, _, _⟩ := hs
    exact hinv.parent_lt i n p hn (by rw [← h3, hp])
  · intro i m hm hp
    obtain ⟨n, hn, hs⟩ := hb i m hm
    obtain ⟨_, _, h3, _, _, _, _⟩ := hs
    exact hinv.parent_none i n hn (by rw [← h3, hp])
  · intro i m p hm hp
    obtain ⟨n, hn, hs⟩ := hb i m hm
    obtain ⟨_, _, h3, _, _, _, _⟩ := hs
    obtain ⟨pn, hpn, hmem⟩ := hinv.parent_child i n p hn (by rw [← h3, hp])
    obtain ⟨pm, hpm, hs2⟩ := hfr p pn hpn
    obtain ⟨_, _, _, _, _, h6, _⟩ := hs2
    exact ⟨pm, hpm, by rw [h6]; exact hmem⟩
  · intro i m hm
    obtain ⟨n, hn, hs⟩ := hb i m hm
    obtain ⟨_, _, _, _, _, h6, h7⟩ := hs
    rw [h6, h7]
    exact hinv.children_le i n hn
  · intro i m hm ht
    obtain ⟨n, hn, hs⟩ := hb i m hm
    obtain ⟨h1, _, _, _, _, _, h7⟩ := hs
    rw [h7]
    exact hinv.terminal_leaf i n hn (by rw [← h1, ht])
  · intro i m j c hm hc
    obtain ⟨n, hn, hs⟩ := hb i m hm
    obtain ⟨h1, _, _, _, h5, h6, h7⟩ := hs
    rw [h6] at hc
    obtain ⟨cn, a, hcn, ha, g1, g2, g3, g4, g5⟩ := hinv.child i n j c hn hc
    obtain ⟨cm, hcm, hs2⟩ := hfr c cn hcn
    obtain ⟨k1, k2, k3, k4, k5, _, _⟩ := hs2
    refine ⟨cm, a, hcm, by rw [h7]; exact ha, by rw [k2, g1], by rw [k3, g2],
      by rw [k1, g3, h1], by rw [k5, g4, h5], by rw [k4, g5, h1]⟩

theorem treeInv_init (W : World F S A G) (fl : FloatOps F) (s0 : S) :
    TreeInv W [TreeNode.create W fl s0 none] := by
  have hget : ∀ (i : Nat) (n : TreeNode F S A),
      [TreeNode.create W fl s0 none][i]? = some n → i = 0 ∧ n = TreeNode.create W fl s0 none := by
    intro i n h
    cases i with
    | zero => simp at h; exact ⟨rfl, h.symm⟩
    | succ i => simp at h
  constructor
  · exact ⟨_, rfl, rfl, rfl⟩
  · intro i n p h hp
    obtain ⟨_, h2⟩ := hget i n h
    subst h2
    simp [TreeNode.create] at hp
  · intro i n h _
    exact (hget i n h).1
  · intro i n p h hp
    obtain ⟨_, h2⟩ := hget i n h
    subst h2
    simp [TreeNode.create] at hp
  · intro i n h
    obtain ⟨_, h2⟩ := hget i n h
    subst h2
    simp [TreeNode.create]
  · intro i n h _
    obtain ⟨_, h2⟩ := hget i n h
    subst h2
    simp [TreeNode.create]
  · intro i n j c h hc
    obtain ⟨_, h2⟩ := hget i n h
    subst h2
    simp [TreeNode.create] at hc

theorem getElem?_set_append_cases (nodes : List (TreeNode F S A)) (id : Nat)
    (m x : TreeNode F S A) (hid : id < nodes.length) (i : Nat) (y : TreeNode F S A)
    (h : (nodes.set id m ++ [x])[i]? = some y) :
    (i = nodes.length ∧ y = x) ∨ (i = id ∧ y = m) ∨
      (i ≠ id ∧ i ≠ nodes.length ∧ nodes[i]? = some y) := by
  rw [getElem?_set_append nodes id m x hid] at h
  by_cases h1 : i = nodes.length
  · left; rw [if_pos h1] at h; cases h; exact ⟨h1, rfl⟩
  · rw [if_neg h1] at h
    by_cases h2 : i = id
    · right; left; rw [if_pos h2] at h; cases h; exact ⟨h2, rfl⟩
    · right; right; rw [if_neg h2] at h; exact ⟨h2, h1, h⟩

theorem treeInv_expand (W : World F S A G) (fl : FloatOps F)
    (nodes : List (TreeNode F S A)) (hinv : TreeInv W nodes)
    (id : Nat) (n : TreeNode F S A) (hn : nodes[id]? = some n)
    (hnt : W.is_terminal n.state = false)
    (acts : List A) (a : A)
    (hacts : n.actions ≠ [] → acts = n.actions)
    (ha : acts[n.children.length]? = some a) :
    TreeInv W (nodes.set id { n with actions := acts, children := n.children ++ [nodes.length] } ++
        [{ state := W.apply_action n.state a, action := a, parent := some id,
           agent_id := W.agent_id n.state, num_visits := 0, value := fl.ofInt 0,
           depth := n.depth + 1, children := [], actions := [] }]) := by
  have hid : id < nodes.length := (List.getElem?_eq_some.mp hn).1
  have hget := getElem?_set_append nodes id
    { n with actions := acts, children := n.children ++ [nodes.length] }
    { state := W.apply_action n.state a, action := a, parent := some id,
      agent_id := W.agent_id n.state, num_visits := 0, value := fl.ofInt 0,
      depth := n.depth + 1, children := [], actions := [] } hid
  have hcases := getElem?_set_append_cases nodes id
    { n with actions := acts, children := n.children ++ [nodes.length] }
    { state := W.apply_action n.state a, action := a, parent := some id,
      agent_id := W.agent_id n.state, num_visits := 0, value := fl.ofInt 0,
      depth := n.depth + 1, children := [], actions := [] } hid
  have hactsj : ∀ (j : Nat) (b : A), n.actions[j]? = some b → acts[j]? = some b := by
    intro j b hb
    have : n.actions ≠ [] := by
      intro h0; rw [h0] at hb; simp at hb
    rw [hacts this]; exact hb
  -- old nodes keep state, action, parent, cached agent and depth
  have hold : ∀ (c : Nat) (m : TreeNode F S A), nodes[c]? = some m →
      ∃ m1, (nodes.set id { n with actions := acts, children := n.children ++ [nodes.length] } ++
        [{ state := W.apply_action n.state a, action := a, parent := some id,
           agent_id := W.agent_id n.state, num_visits := 0, value := fl.ofInt 0,
           depth := n.depth + 1, children := [], actions := [] }])[c]? = some m1 ∧
        SameId m m1 := by
    intro c m hm
    have hc : c < nodes.length := (List.getElem?_eq_some.mp hm).1
    rw [hget]
    by_cases h2 : c = id
    · subst h2
      rw [hn] at hm; cases hm
      exact ⟨{ n with actions := acts, children := n.children ++ [nodes.length] },
        by simp [Nat.ne_of_lt hc], rfl, rfl, rfl, rfl, rfl⟩
    · exact ⟨m, by simp [Nat.ne_of_lt hc, h2, hm], rfl, rfl, rfl, rfl, rfl⟩
  constructor
  · obtain ⟨r, hr, hp, hd⟩ := hinv.root
    obtain ⟨m1, hm1, hs⟩ := hold 0 r hr
    obtain ⟨_, _, h3, _, h5⟩ := hs
    exact ⟨m1, hm1, by rw [h3, hp], by rw [h5, hd]⟩
  · intro i m p hm hp
    rcases hcases i m hm with ⟨h1, h2⟩ | ⟨h1, h2⟩ | ⟨_, _, h3⟩
    · subst h2; simp at hp; omega
    · subst h2; subst h1
      exact hinv.parent_lt _ n p hn hp
    · exact hinv.parent_lt i m p h3 hp
  · intro i m hm hp
    rcases hcases i m hm with ⟨h1, h2⟩ | ⟨h1, h2⟩ | ⟨_, _, h3⟩
    · subst h2; simp at hp
    · subst h2; subst h1
      exact hinv.parent_none _ n hn hp
    · exact hinv.parent_none i m h3 hp
  · intro i m p hm hp
    have hpar : (i = nodes.length ∧ p = id) ∨ ∃ m0, nodes[i]? = some m0 ∧ m0.parent = some p := by
      rcases hcases i m hm with ⟨h1, h2⟩ | ⟨h1, h2⟩ | ⟨_, _, h3⟩
      · subst h2; simp at hp; left; exact ⟨h1, hp.symm⟩
      · subst h2; subst h1; right; exact ⟨n, hn, hp⟩
      · right; exact ⟨m, h3, hp⟩
    rcases hpar with ⟨h1, h2⟩ | ⟨m0, hm0, hp0⟩
    · subst h2
      refine ⟨{ n with actions := acts, children := n.children ++ [nodes.length] }, ?_, ?_⟩
      · rw [hget]; simp [Nat.ne_of_lt hid]
      · simp [h1]
    · obtain ⟨pn, hpn, hmem⟩ := hinv.parent_child i m0 p hm0 hp0
      have hpl : p < nodes.length := (List.getElem?_eq_some.mp hpn).1
      rw [hget]
      by_cases h3 : p = id
      · subst h3
        rw [hn] at hpn; cases hpn
        exact ⟨{ n with actions := acts, children := n.children ++ [nodes.length] },
          by simp [Nat.ne_of_lt hpl], by simp [hmem]⟩
      · exact ⟨pn, by simp [Nat.ne_of_lt hpl, h3, hpn], hmem⟩
  · intro i m hm
    rcases hcases i m hm with ⟨h1, h2⟩ | ⟨h1, h2⟩ | ⟨_, _, h3⟩
    · subst h2; simp
    · subst h2
      have := (List.getElem?_eq_some.mp ha).1
      simp; omega
    · exact hinv.children_le i m h3
  · intro i m hm ht
    rcases hcases i m hm with ⟨h1, h2⟩ | ⟨h1, h2⟩ | ⟨_, _, h3⟩
    · subst h2; rfl
    · subst h2
      simp at ht
      rw [hnt] at ht; exact Bool.noConfusion ht
    · exact hinv.terminal_leaf i m h3 ht
  · intro i m j c hm hc
    rcases hcases i m hm with ⟨h1, h2⟩ | ⟨h1, h2⟩ | ⟨_, _, h3⟩
    · subst h2; simp at hc
    · subst h2; subst h1
      simp only at hc
      by_cases hj : j < n.children.length
      · rw [List.getElem?_append_left hj] at hc
        obtain ⟨cn, b, hcn, hb, g1, g2, g3, g4, g5⟩ := hinv.child _ n j c hn hc
        obtain ⟨m1, hm1, k1, k2, k3, k4, k5⟩ := hold c cn hcn
        exact ⟨m1, b, hm1, hactsj j b hb, by rw [k2, g1], by rw [k3, g2],
          by rw [k1, g3], by rw [k5, g4], by rw [k4, g5]⟩
      · have hj2 : j = n.children.length := by
          have := (List.getElem?_eq_some.mp hc).1
          simp at this
          omega
        subst hj2
        simp at hc
        subst hc
        exact ⟨_, a, (hget nodes.length).trans (if_pos rfl), ha, rfl, rfl, rfl, rfl, rfl⟩
    · obtain ⟨cn, b, hcn, hb, g1, g2, g3, g4, g5⟩ := hinv.child i m j c h3 hc
      obtain ⟨m1, hm1, k1, k2, k3, k4, k5⟩ := hold c cn hcn
      exact ⟨m1, b, hm1, hb, by rw [k2, g1], by rw [k3, g2],
        by rw [k1, g3], by rw [k5, g4], by rw [k4, g5]⟩

/-! ### One pass of the main loop -/

theorem select_spec (W : World F S A G) (fl : FloatOps F) (nodes : List (TreeNode F S A))
    (k : F) (fuel : Nat) : ∀ (p q : Option Nat), select W fl nodes k fuel p = .ok q →
    ∃ i node, q = some i ∧ nodes[i]? = some node ∧
      (W.is_terminal node.state = true ∨ is_fully_expanded node = false) := by
  induction fuel with
  | zero => intro p q h; simp [select] at h
  | succ fuel ih =>
    intro p q h
    unfold select at h
    cases hd : deref nodes p with
    | error e => simp [hd] at h
    | ok node =>
      simp only [hd] at h
      obtain ⟨i, hp, hi⟩ := (deref_ok_iff nodes p node).mp hd
      cases hc : (!node.is_terminal W && is_fully_expanded node) with
      | true =>
        simp only [hc, if_true] at h
        cases hg : get_best_uct_child fl nodes p k with
        | error e => simp [hg] at h
        | ok r =>
          simp only [hg] at h
          exact ih r q h
      | false =>
        simp only [hc] at h
        simp at h
        subst h
        refine ⟨i, node, hp, hi, ?_⟩
        simp [TreeNode.is_terminal] at hc
        by_cases ht : W.is_terminal node.state = true
        · left; exact ht
        · right
          have : W.is_terminal node.state = false := by simpa using ht
          exact hc this

theorem select_expand_inv (W : World F S A G) (fl : FloatOps F) (o : Oracle A) (cfg : UCT F)
    (e : Engine F S A G) (nodes1 : List (TreeNode F S A)) (rd1 : Nat) (q : Option Nat)
    (h : select_expand W fl o cfg e = .ok (nodes1, rd1, q)) :
    ∃ id n, select W fl e.nodes cfg.uct_k e.nodes.length (some 0) = .ok (some id) ∧
      e.nodes[id]? = some n ∧
      ((is_fully_expanded n = false ∧ W.is_terminal n.state = false ∧
          expand W fl o e.nodes e.rd id = .ok (nodes1, rd1, q)) ∨
       (W.is_terminal n.state = true ∧ nodes1 = e.nodes ∧ rd1 = e.rd ∧ q = some id)) := by
  unfold select_expand at h
  cases hs : select W fl e.nodes cfg.uct_k e.nodes.length (some 0) with
  | error err => simp [hs] at h
  | ok p =>
    simp only [hs] at h
    obtain ⟨id, n, hp, hn, hstop⟩ := select_spec W fl e.nodes cfg.uct_k _ _ _ hs
    subst hp
    have hd : deref e.nodes (some id) = .ok n := (deref_ok_iff _ _ _).mpr ⟨id, rfl, hn⟩
    simp only [hd] at h
    refine ⟨id, n, rfl, hn, ?_⟩
    cases hc : (!is_fully_expanded n && !n.is_terminal W) with
    | true =>
      simp only [hc, if_true] at h
      simp [TreeNode.is_terminal] at hc
      left
      exact ⟨hc.1, hc.2, h⟩
    | false =>
      simp only [hc] at h
      simp at h
      obtain ⟨h1, h2, h3⟩ := h
      simp [TreeNode.is_terminal] at hc
      right
      refine ⟨?_, h1.symm, h2.symm, h3.symm⟩
      rcases hstop with ht | hf
      · exact ht
      · exact hc hf

theorem cycle_inv (W : World F S A G) (fl : FloatOps F) (o : Oracle A) (cfg : UCT F)
    (e e1 : Engine F S A G) (h : cycle W fl o cfg e = .ok e1) :
    ∃ nodes1 rd1 p node,
      select_expand W fl o cfg e = .ok (nodes1, rd1, some p) ∧ nodes1[p]? = some node ∧
      backpropagate fl
        (W.evaluate (if W.is_terminal node.state = false
          then simulate W cfg.simulation_depth node.state e.rng else (node.state, e.rng)).1)
        nodes1.length nodes1 (some p) = .ok e1.nodes ∧
      e1.rd = rd1 ∧
      e1.rng = (if W.is_terminal node.state = false
          then simulate W cfg.simulation_depth node.state e.rng else (node.state, e.rng)).2 ∧
      e1.explored_states = e.explored_states.map (fun v => v ++
        [(if W.is_terminal node.state = false
          then simulate W cfg.simulation_depth node.state e.rng else (node.state, e.rng)).1]) := by
  unfold cycle at h
  cases hs : select_expand W fl o cfg e with
  | error err => simp [hs] at h
  | ok r =>
    obtain ⟨nodes1, rd1, q⟩ := r
    simp only [hs] at h
    cases hd : deref nodes1 q with
    | error err => simp [hd] at h
    | ok node =>
      simp only [hd] at h
      obtain ⟨p, hq, hp⟩ := (deref_ok_iff _ _ _).mp hd
      subst hq
      have hsim : (if (!node.is_terminal W) = true
          then simulate W cfg.simulation_depth node.state e.rng else (node.state, e.rng)) =
          (if W.is_terminal node.state = false
          then simulate W cfg.simulation_depth node.state e.rng else (node.state, e.rng)) := by
        simp [TreeNode.is_terminal]
      rw [hsim] at h
      cases hb : backpropagate fl
        (W.evaluate (if W.is_terminal node.state = false
          then simulate W cfg.simulation_depth node.state e.rng else (node.state, e.rng)).1)
        nodes1.length nodes1 (some p) with
      | error err => simp [hb] at h
      | ok nodes2 =>
        simp only [hb] at h
        simp at h
        subst h
        exact ⟨nodes1, rd1, p, node, rfl, hp, hb, rfl, rfl, rfl⟩

theorem treeInv_select_expand (W : World F S A G) (fl : FloatOps F) (o : Oracle A) (cfg : UCT F)
    (e : Engine F S A G) (hinv : TreeInv W e.nodes) (nodes1 : List (TreeNode F S A))
    (rd1 : Nat) (q : Option Nat)
    (h : select_expand W fl o cfg e = .ok (nodes1, rd1, q)) : TreeInv W nodes1 := by
  obtain ⟨id, n, _, hn, hcase⟩ := select_expand_inv W fl o cfg e nodes1 rd1 q h
  rcases hcase with ⟨hfe, hnt, hex⟩ | ⟨_, h1, _, _⟩
  · obtain ⟨acts, a, hacts, ha, _, _, hnodes⟩ :=
      expand_ok_inv W fl o e.nodes nodes1 e.rd rd1 id q n hn hfe hex
    rw [hnodes]
    refine treeInv_expand W fl e.nodes hinv id n hn hnt acts a ?_ ha
    intro hne
    rw [hacts]
    cases hh : n.actions with
    | nil => exact absurd hh hne
    | cons _ _ => rfl
  · rw [h1]; exact hinv

theorem backpropagate_frame (fl : FloatOps F) (rewards : List F) (fuel : Nat)
    (nodes nodes1 : List (TreeNode F S A)) (p : Option Nat)
    (hpl : ∀ (i : Nat) (n : TreeNode F S A) (p : Nat),
      nodes[i]? = some n → n.parent = some p → p < i)
    (h : backpropagate fl rewards fuel nodes p = .ok nodes1) :
    nodes1.length = nodes.length ∧
    ∀ (i : Nat) (n : TreeNode F S A), nodes[i]? = some n →
      ∃ m, nodes1[i]? = some m ∧ SameShape n m := by
  obtain ⟨hlen, hout, hin⟩ := backpropagate_spec fl rewards fuel nodes nodes1 p hpl h
  refine ⟨hlen, ?_⟩
  intro i n hn
  by_cases hp : OnPath nodes p i
  · obtain ⟨n', r, hn', _, _, _, hres⟩ := hin i hp
    rw [hn] at hn'; cases hn'
    exact ⟨_, hres, rfl, rfl, rfl, rfl, rfl, rfl, rfl⟩
  · exact ⟨n, by rw [hout i hp, hn], rfl, rfl, rfl, rfl, rfl, rfl, rfl⟩

theorem treeInv_cycle (W : World F S A G) (fl : FloatOps F) (o : Oracle A) (cfg : UCT F)
    (e e1 : Engine F S A G) (hinv : TreeInv W e.nodes) (h : cycle W fl o cfg e = .ok e1) :
    TreeInv W e1.nodes := by
  obtain ⟨nodes1, rd1, p, node, hse, _, hb, _, _, _⟩ := cycle_inv W fl o cfg e e1 h
  have hinv1 := treeInv_select_expand W fl o cfg e hinv nodes1 rd1 (some p) hse
  obtain ⟨hlen, hfr⟩ := backpropagate_frame fl _ _ nodes1 e1.nodes (some p) hinv1.parent_lt hb
  exact treeInv_frame W nodes1 e1.nodes hinv1 hlen hfr

theorem built_treeInv (W : World F S A G) (fl : FloatOps F) (o : Oracle A) (cfg : UCT F)
    (s0 : S) (e : Engine F S A G) (h : Built W fl o cfg s0 e) : TreeInv W e.nodes := by
  induction h with
  | init rng ex => exact treeInv_init W fl s0
  | cycle _ hc ih => exact treeInv_cycle W fl o cfg _ _ ih hc

theorem simulate_spec (W : World F S A G) (t : Nat) : ∀ (s : S) (g : G),
    ∃ j g1, j ≤ t ∧ Rollout W j s g (simulate W t s g).1 g1 ∧
      ((j = t ∧ (simulate W t s g).2 = g1) ∨
       (W.is_terminal (simulate W t s g).1 = true ∧ (simulate W t s g).2 = g1) ∨
       (W.is_terminal (simulate W t s g).1 = false ∧
         W.get_random_action (simulate W t s g).1 g1 = (none, (simulate W t s g).2))) := by
  induction t with
  | zero =>
    intro s g
    exact ⟨0, g, le_refl _, Rollout.done s g, Or.inl ⟨rfl, rfl⟩⟩
  | succ t ih =>
    intro s g
    cases ht : W.is_terminal s with
    | true =>
      have hs : simulate W (t + 1) s g = (s, g) := by simp [simulate, ht]
      rw [hs]
      exact ⟨0, g, Nat.zero_le _, Rollout.done s g, Or.inr (Or.inl ⟨ht, rfl⟩)⟩
    | false =>
      cases hr : W.get_random_action s g with
      | mk oa g1 =>
        cases oa with
        | none =>
          have hs : simulate W (t + 1) s g = (s, g1) := by simp [simulate, ht, hr]
          rw [hs]
          exact ⟨0, g, Nat.zero_le _, Rollout.done s g, Or.inr (Or.inr ⟨ht, hr⟩)⟩
        | some a =>
          have hs : simulate W (t + 1) s g = simulate W t (W.apply_action s a) g1 := by
            simp [simulate, ht, hr]
          rw [hs]
          obtain ⟨j, g2, hj, hroll, hstop⟩ := ih (W.apply_action s a) g1
          refine ⟨j + 1, g2, by omega, Rollout.step ht hr hroll, ?_⟩
          rcases hstop with ⟨h1, h2⟩ | h | h
          · exact Or.inl ⟨by omega, h2⟩
          · exact Or.inr (Or.inl h)
          · exact Or.inr (Or.inr h)

theorem backpropagate_shape (fl : FloatOps F) (rewards : List F) (fuel : Nat) :
    ∀ (nodes nodes1 : List (TreeNode F S A)) (p : Option Nat),
    backpropagate fl rewards fuel nodes p = .ok nodes1 →
    nodes1.length = nodes.length ∧
    ∀ (i : Nat) (n : TreeNode F S A), nodes[i]? = some n →
      ∃ m, nodes1[i]? = some m ∧ SameShape n m ∧ n.num_visits ≤ m.num_visits := by
  induction fuel with
  | zero =>
    intro nodes nodes1 p h
    cases p with
    | none =>
      simp [backpropagate] at h
      subst h
      exact ⟨rfl, fun i n hn => ⟨n, hn, ⟨rfl, rfl, rfl, rfl, rfl, rfl, rfl⟩, le_refl _⟩⟩
    | some id => simp [backpropagate] at h
  | succ fuel ih =>
    intro nodes nodes1 p h
    cases p with
    | none =>
      simp [backpropagate] at h
      subst h
      exact ⟨rfl, fun i n hn => ⟨n, hn, ⟨rfl, rfl, rfl, rfl, rfl, rfl, rfl⟩, le_refl _⟩⟩
    | some id =>
      unfold backpropagate at h
      cases hn : nodes[id]? with
      | none => simp [hn] at h
      | some n =>
        simp only [hn] at h
        cases hu : update fl n rewards with
        | error e => simp [hu] at h
        | ok n1 =>
          simp only [hu] at h
          obtain ⟨_, _, r, _, hn1⟩ := update_ok_inv fl n n1 rewards hu
          have hidlt : id < nodes.length := (List.getElem?_eq_some.mp hn).1
          obtain ⟨hlen, hfr⟩ := ih (nodes.set id n1) nodes1 n1.parent h
          refine ⟨by rw [hlen, List.length_set], ?_⟩
          intro i m hm
          by_cases hi : i = id
          · subst hi
            rw [hn] at hm; cases hm
            obtain ⟨m1, hm1, hs, hle⟩ := hfr i n1 (by simp [hidlt])
            obtain ⟨k1, k2, k3, k4, k5, k6, k7⟩ := hs
            refine ⟨m1, hm1, ⟨?_, ?_, ?_, ?_, ?_, ?_, ?_⟩, ?_⟩
            · rw [k1, hn1]
            · rw [k2, hn1]
            · rw [k3, hn1]
            · rw [k4, hn1]
            · rw [k5, hn1]
            · rw [k6, hn1]
            · rw [k7, hn1]
            · have : n1.num_visits = n.num_visits + 1 := by rw [hn1]
              omega
          · exact hfr i m (by rw [List.getElem?_set_ne (Ne.symm hi)]; exact hm)

/-- Phases 1 and 2 leave every node that existed at the start of the pass with the
same state, action, parent, cached agent, depth and statistics. -/
theorem select_expand_old (W : World F S A G) (fl : FloatOps F) (o : Oracle A) (cfg : UCT F)
    (e : Engine F S A G) (nodes1 : List (TreeNode F S A)) (rd1 : Nat) (q : Option Nat)
    (h : select_expand W fl o cfg e = .ok (nodes1, rd1, q)) :
    ∀ (i : Nat) (n : TreeNode F S A), e.nodes[i]? = some n →
      ∃ m, nodes1[i]? = some m ∧ SameId n m ∧ m.num_visits = n.num_visits ∧
        m.value = n.value := by
  obtain ⟨id, n, _, hn, hcase⟩ := select_expand_inv W fl o cfg e nodes1 rd1 q h
  rcases hcase with ⟨hfe, hnt, hex⟩ | ⟨_, h1, _, _⟩
  · obtain ⟨acts, a, hacts, ha, _, _, hnodes⟩ :=
      expand_ok_inv W fl o e.nodes nodes1 e.rd rd1 id q n hn hfe hex
    have hid : id < e.nodes.length := (List.getElem?_eq_some.mp hn).1
    intro i m hm
    have hi : i < e.nodes.length := (List.getElem?_eq_some.mp hm).1
    rw [hnodes, getElem?_set_append _ _ _ _ hid]
    by_cases h2 : i = id
    · subst h2
      rw [hn] at hm; cases hm
      exact ⟨{ n with actions := acts, children := n.children ++ [e.nodes.length] },
        by simp [Nat.ne_of_lt hi], ⟨rfl, rfl, rfl, rfl, rfl⟩, rfl, rfl⟩
    · exact ⟨m, by simp [Nat.ne_of_lt hi, h2, hm], ⟨rfl, rfl, rfl, rfl, rfl⟩, rfl, rfl⟩
  · intro i m hm
    rw [h1]
    exact ⟨m, hm, ⟨rfl, rfl, rfl, rfl, rfl⟩, rfl, rfl⟩

/-! ### Absence of undefined behaviour -/

theorem expand_ok (W : World F S A G) (fl : FloatOps F) (o : Oracle A)
    (nodes : List (TreeNode F S A)) (rd id : Nat) (n : TreeNode F S A)
    (hn : nodes[id]? = some n)
    (hfe : is_fully_expanded n = false)
    (hle : n.children.length ≤ n.actions.length)
    (hact : W.get_actions n.state ≠ [])
    (hperm : ∀ (k : Nat) (l : List A), (o.shuffle k l).Perm l) :
    ∃ acts a rd1,
      (n.actions = [] → acts.Perm (W.get_actions n.state)) ∧
      (n.actions ≠ [] → acts = n.actions) ∧
      acts[n.children.length]? = some a ∧
      expand W fl o nodes rd id =
        .ok (nodes.set id { n with actions := acts, children := n.children ++ [nodes.length] } ++
              [{ state := W.apply_action n.state a, action := a, parent := some id,
                 agent_id := W.agent_id n.state, num_visits := 0, value := fl.ofInt 0,
                 depth := n.depth + 1, children := [], actions := [] }],
             rd1, some nodes.length) := by
  by_cases hempty : n.actions = []
  · have hch : n.children = [] := by
      have : n.children.length = 0 := by simpa [hempty] using hle
      exact List.length_eq_zero.mp this
    have hp := hperm rd (W.get_actions n.state)
    have hne : o.shuffle rd (W.get_actions n.state) ≠ [] := by
      intro h0
      rw [h0] at hp
      exact hact (List.Perm.nil_eq hp).symm
    obtain ⟨a, tl, hsh⟩ := List.exists_cons_of_ne_nil hne
    refine ⟨o.shuffle rd (W.get_actions n.state), a, rd + 1, fun _ => hp,
      fun h => absurd hempty h, ?_, ?_⟩
    · simp [hch, hsh]
    · simp [expand, hn, hfe, hempty, hch, hsh, add_child_with_action, TreeNode.create]
  · have hlt : n.children.length < n.actions.length := by
      rcases (is_fully_expanded_false_iff n).mp hfe with h | h
      · rw [h]; exact List.length_pos.mpr hempty
      · omega
    refine ⟨n.actions, n.actions[n.children.length], rd, fun h => absurd h hempty,
      fun _ => rfl, ?_, ?_⟩
    · exact List.getElem?_eq_getElem hlt
    · simp [expand, hn, hfe, hempty, List.getElem?_eq_getElem hlt, add_child_with_action,
        TreeNode.create]

theorem get_best_uct_child_some (W : World F S A G) (fl : FloatOps F) (o : Oracle A) (k : F)
    (P : S → Prop) (Good : F → Prop) (K : Nat) (hs : Sane W fl o k P Good)
    (nodes : List (TreeNode F S A)) (hinv : TreeInv W nodes) (hsd : Sound W P Good K nodes)
    (hK : K < INT_MAX) (p : Nat) (n : TreeNode F S A) (hn : nodes[p]? = some n)
    (hfe : is_fully_expanded n = true) :
    ∃ c cn, c ∈ n.children ∧ nodes[c]? = some cn ∧
      get_best_uct_child fl nodes (some p) k = .ok (some c) := by
  have hvalid : ∀ c ∈ n.children, ∃ cn, nodes[c]? = some cn := by
    intro c hc
    obtain ⟨j, hj⟩ := List.mem_iff_getElem?.mp hc
    obtain ⟨cn, _, hcn, _⟩ := hinv.child p n j c hn hj
    exact ⟨cn, hcn⟩
  have hvis : n.num_visits < INT_MAX := lt_of_le_of_lt (hsd.visits p n hn) hK
  have hd : deref nodes (some p) = .ok n := (deref_ok_iff _ _ _).mpr ⟨p, rfl, hn⟩
  have hg : get_best_uct_child fl nodes (some p) k =
      best_uct_loop fl nodes n k n.children fl.lowest none := by
    simp [get_best_uct_child, hd, hfe]
  rw [hg]
  rcases best_uct_loop_none fl nodes n k hvis n.children hvalid fl.lowest none with
    ⟨_, hall⟩ | ⟨c, cn, hc, hcn, hr⟩
  · exfalso
    obtain ⟨hne, _⟩ := (is_fully_expanded_true_iff n).mp hfe
    obtain ⟨c, tl, hctl⟩ := List.exists_cons_of_ne_nil hne
    have hc : c ∈ n.children := by rw [hctl]; exact List.mem_cons_self _ _
    obtain ⟨cn, hcn⟩ := hvalid c hc
    have h1 := hall c cn hc hcn
    have h2 := hs.score_gt n cn (hsd.good c cn hcn)
    rw [h1] at h2
    exact Bool.noConfusion h2
  · exact ⟨c, cn, hc, hcn, hr⟩

theorem select_total (W : World F S A G) (fl : FloatOps F) (o : Oracle A) (k : F)
    (P : S → Prop) (Good : F → Prop) (K : Nat) (hs : Sane W fl o k P Good)
    (nodes : List (TreeNode F S A)) (hinv : TreeInv W nodes) (hsd : Sound W P Good K nodes)
    (hK : K < INT_MAX) (fuel : Nat) :
    ∀ (p : Nat), p < nodes.length → nodes.length - p ≤ fuel →
      ∃ q, select W fl nodes k fuel (some p) = .ok (some q) := by
  induction fuel with
  | zero => intro p hp hf; omega
  | succ fuel ih =>
    intro p hp hf
    have hn : nodes[p]? = some nodes[p] := List.getElem?_eq_getElem hp
    have hd : deref nodes (some p) = .ok nodes[p] := (deref_ok_iff _ _ _).mpr ⟨p, rfl, hn⟩
    unfold select
    simp only [hd]
    cases hc : (!(nodes[p]).is_terminal W && is_fully_expanded nodes[p]) with
    | false => exact ⟨p, by simp⟩
    | true =>
      simp only [if_true]
      have hfe : is_fully_expanded nodes[p] = true := by
        simp at hc; exact hc.2
      obtain ⟨c, cn, hcm, hcn, hg⟩ :=
        get_best_uct_child_some W fl o k P Good K hs nodes hinv hsd hK p _ hn hfe
      simp only [hg]
      obtain ⟨j, hj⟩ := List.mem_iff_getElem?.mp hcm
      obtain ⟨cn', _, hcn', _, _, hpar, _⟩ := hinv.child p _ j c hn hj
      have hlt : p < c := hinv.parent_lt c cn' p hcn' hpar
      have hcl : c < nodes.length := (List.getElem?_eq_some.mp hcn).1
      exact ih c hcl (by omega)

theorem backpropagate_none (fl : FloatOps F) (rewards : List F) (fuel : Nat)
    (nodes : List (TreeNode F S A)) : backpropagate fl rewards fuel nodes none = .ok nodes := by
  cases fuel <;> simp [backpropagate]

theorem backpropagate_total (fl : FloatOps F) (rewards : List F) (fuel : Nat) :
    ∀ (nodes : List (TreeNode F S A)) (p : Nat),
    (∀ (i : Nat) (n : TreeNode F S A), i ≤ p → nodes[i]? = some n →
      (0 ≤ n.agent_id ∧ n.agent_id.toNat < rewards.length ∧ n.num_visits < INT_MAX) ∧
      ∀ pp, n.parent = some pp → pp < i) →
    p < nodes.length → p + 1 ≤ fuel →
    ∃ nodes1, backpropagate fl rewards fuel nodes (some p) = .ok nodes1 := by
  induction fuel with
  | zero => intro nodes p _ _ hf; omega
  | succ fuel ih =>
    intro nodes p hall hp hf
    have hn : nodes[p]? = some nodes[p] := List.getElem?_eq_getElem hp
    obtain ⟨⟨h0, hidx, hv⟩, hpar⟩ := hall p _ (le_refl _) hn
    have hu := update_ok_of fl nodes[p] rewards rewards[(nodes[p]).agent_id.toNat] h0
      (List.getElem?_eq_getElem hidx) hv
    unfold backpropagate
    simp only [hn, hu]
    cases hpp : (nodes[p]).parent with
    | none => exact ⟨_, backpropagate_none fl rewards fuel _⟩
    | some pp =>
      have hlt := hpar pp hpp
      refine ih _ pp ?_ (by simp; omega) (by omega)
      intro i m hi hm
      have hne : p ≠ i := by omega
      rw [List.getElem?_set_ne hne] at hm
      exact hall i m (by omega) hm

theorem simulate_P (W : World F S A G) (fl : FloatOps F) (o : Oracle A) (k : F)
    (P : S → Prop) (Good : F → Prop) (hs : Sane W fl o k P Good) (t : Nat) :
    ∀ (s : S) (g : G), P s → P (simulate W t s g).1 := by
  induction t with
  | zero => intro s g h; exact h
  | succ t ih =>
    intro s g h
    cases ht : W.is_terminal s with
    | true => simpa [simulate, ht] using h
    | false =>
      cases hr : W.get_random_action s g with
      | mk oa g1 =>
        cases oa with
        | none => simpa [simulate, ht, hr] using h
        | some a =>
          have hstep : simulate W (t + 1) s g = simulate W t (W.apply_action s a) g1 := by
            simp [simulate, ht, hr]
          rw [hstep]
          exact ih _ g1 (hs.step s a h ht (hs.random_legal s g g1 a h ht hr))

theorem sound_select_expand (W : World F S A G) (fl : FloatOps F) (o : Oracle A) (cfg : UCT F)
    (P : S → Prop) (Good : F → Prop) (K : Nat) (hs : Sane W fl o cfg.uct_k P Good)
    (e : Engine F S A G) (hsd : Sound W P Good K e.nodes)
    (nodes1 : List (TreeNode F S A)) (rd1 : Nat) (q : Option Nat)
    (h : select_expand W fl o cfg e = .ok (nodes1, rd1, q)) : Sound W P Good K nodes1 := by
  obtain ⟨id, n, _, hn, hcase⟩ := select_expand_inv W fl o cfg e nodes1 rd1 q h
  rcases hcase with ⟨hfe, hnt, hex⟩ | ⟨_, h1, _, _⟩
  · obtain ⟨acts, a, hacts, ha, _, _, hnodes⟩ :=
      expand_ok_inv W fl o e.nodes nodes1 e.rd rd1 id q n hn hfe hex
    have hid : id < e.nodes.length := (List.getElem?_eq_some.mp hn).1
    have hperm : acts.Perm (W.get_actions n.state) := by
      rw [hacts]
      cases hemp : n.actions.isEmpty with
      | true => simp only [if_true]; exact hs.shuffle_perm _ _
      | false =>
        simp only [Bool.false_eq_true, if_false]
        rcases hsd.acts id n hn with h0 | h0
        · rw [h0] at hemp; simp at hemp
        · exact h0
    have hamem : a ∈ W.get_actions n.state :=
      hperm.mem_iff.mp (List.mem_iff_getElem?.mpr ⟨_, ha⟩)
    have hcases := getElem?_set_append_cases e.nodes id
      { n with actions := acts, children := n.children ++ [e.nodes.length] }
      { state := W.apply_action n.state a, action := a, parent := some id,
        agent_id := W.agent_id n.state, num_visits := 0, value := fl.ofInt 0,
        depth := n.depth + 1, children := [], actions := [] } hid
    rw [hnodes]
    constructor
    · intro i m hm
      rcases hcases i m hm with ⟨_, h2⟩ | ⟨_, h2⟩ | ⟨_, _, h3⟩
      · subst h2; exact hs.step n.state a (hsd.state id n hn) hnt hamem
      · subst h2; exact hsd.state id n hn
      · exact hsd.state i m h3
    · intro i m hm
      rcases hcases i m hm with ⟨_, h2⟩ | ⟨_, h2⟩ | ⟨_, _, h3⟩
      · subst h2; exact ⟨n.state, hsd.state id n hn, rfl⟩
      · subst h2; exact hsd.agent id n hn
      · exact hsd.agent i m h3
    · intro i m hm
      rcases hcases i m hm with ⟨_, h2⟩ | ⟨_, h2⟩ | ⟨_, _, h3⟩
      · subst h2; left; rfl
      · subst h2; right; exact hperm
      · exact hsd.acts i m h3
    · intro i m hm
      rcases hcases i m hm with ⟨_, h2⟩ | ⟨_, h2⟩ | ⟨_, _, h3⟩
      · subst h2; exact hs.good_zero
      · subst h2; exact hsd.good id n hn
      · exact hsd.good i m h3
    · intro i m hm
      rcases hcases i m hm with ⟨_, h2⟩ | ⟨_, h2⟩ | ⟨_, _, h3⟩
      · subst h2; exact Nat.zero_le _
      · subst h2; exact hsd.visits id n hn
      · exact hsd.visits i m h3
  · rw [h1]; exact hsd

theorem select_expand_total (W : World F S A G) (fl : FloatOps F) (o : Oracle A) (cfg : UCT F)
    (P : S → Prop) (Good : F → Prop) (K : Nat) (hs : Sane W fl o cfg.uct_k P Good)
    (e : Engine F S A G) (hinv : TreeInv W e.nodes) (hsd : Sound W P Good K e.nodes)
    (hK : K < INT_MAX) :
    ∃ nodes1 rd1 q, select_expand W fl o cfg e = .ok (nodes1, rd1, some q) := by
  obtain ⟨r, hr, _, _⟩ := hinv.root
  have h0 : 0 < e.nodes.length := (List.getElem?_eq_some.mp hr).1
  obtain ⟨id, hsel⟩ := select_total W fl o cfg.uct_k P Good K hs e.nodes hinv hsd hK
    e.nodes.length 0 h0 (by omega)
  obtain ⟨id', n, hid', hn, _⟩ := select_spec W fl e.nodes cfg.uct_k _ _ _ hsel
  cases hid'
  have hd : deref e.nodes (some id) = .ok n := (deref_ok_iff _ _ _).mpr ⟨id, rfl, hn⟩
  unfold select_expand
  simp only [hsel, hd]
  cases hc : (!is_fully_expanded n && !n.is_terminal W) with
  | false => exact ⟨e.nodes, e.rd, id, by simp⟩
  | true =>
    simp only [if_true]
    simp [TreeNode.is_terminal] at hc
    obtain ⟨acts, a, rd1, _, _, _, hex⟩ := expand_ok W fl o e.nodes e.rd id n hn hc.1
      (hinv.children_le id n hn) (hs.has_action n.state (hsd.state id n hn) hc.2)
      hs.shuffle_perm
    exact ⟨_, _, _, hex⟩

theorem sound_backpropagate (W : World F S A G) (fl : FloatOps F) (o : Oracle A) (k : F)
    (P : S → Prop) (Good : F → Prop) (K : Nat) (hs : Sane W fl o k P Good)
    (nodes nodes1 : List (TreeNode F S A)) (hinv : TreeInv W nodes)
    (hsd : Sound W P Good K nodes) (final : S) (hfin : P final) (fuel : Nat) (p : Option Nat)
    (h : backpropagate fl (W.evaluate final) fuel nodes p = .ok nodes1) :
    Sound W P Good (K + 1) nodes1 := by
  obtain ⟨hlen, hout, hin⟩ :=
    backpropagate_spec fl (W.evaluate final) fuel nodes nodes1 p hinv.parent_lt h
  have hback : ∀ (i : Nat) (m : TreeNode F S A), nodes1[i]? = some m →
      ∃ n, nodes[i]? = some n ∧ m.state = n.state ∧ m.agent_id = n.agent_id ∧
        m.actions = n.actions ∧ Good m.value ∧ m.num_visits ≤ K + 1 := by
    intro i m hm
    by_cases hp : OnPath nodes p i
    · obtain ⟨n, r, hn, _, _, hr, hres⟩ := hin i hp
      rw [hm] at hres; cases hres
      refine ⟨n, hn, rfl, rfl, rfl, ?_, ?_⟩
      · exact hs.good_add n.value r final (hsd.good i n hn) hfin
          (List.mem_iff_getElem?.mpr ⟨_, hr⟩)
      · have := hsd.visits i n hn
        simp; omega
    · rw [hout i hp] at hm
      exact ⟨m, hm, rfl, rfl, rfl, hsd.good i m hm,
        Nat.le_succ_of_le (hsd.visits i m hm)⟩
  constructor
  · intro i m hm
    obtain ⟨n, hn, h1, _, _, _, _⟩ := hback i m hm
    rw [h1]; exact hsd.state i n hn
  · intro i m hm
    obtain ⟨n, hn, _, h2, _, _, _⟩ := hback i m hm
    rw [h2]; exact hsd.agent i n hn
  · intro i m hm
    obtain ⟨n, hn, h1, _, h3, _, _⟩ := hback i m hm
    rw [h1, h3]; exact hsd.acts i n hn
  · intro i m hm
    obtain ⟨n, hn, _, _, _, h4, _⟩ := hback i m hm
    exact h4
  · intro i m hm
    obtain ⟨n, hn, _, _, _, _, h5⟩ := hback i m hm
    exact h5

theorem cycle_total (W : World F S A G) (fl : FloatOps F) (o : Oracle A) (cfg : UCT F)
    (P : S → Prop) (Good : F → Prop) (K : Nat) (hs : Sane W fl o cfg.uct_k P Good)
    (e : Engine F S A G) (hinv : TreeInv W e.nodes) (hsd : Sound W P Good K e.nodes)
    (hK : K < INT_MAX) :
    ∃ e1, cycle W fl o cfg e = .ok e1 ∧ TreeInv W e1.nodes ∧
      Sound W P Good (K + 1) e1.nodes := by
  obtain ⟨nodes1, rd1, q, hse⟩ := select_expand_total W fl o cfg P Good K hs e hinv hsd hK
  have hinv1 := treeInv_select_expand W fl o cfg e hinv nodes1 rd1 (some q) hse
  have hsd1 := sound_select_expand W fl o cfg P Good K hs e hsd nodes1 rd1 (some q) hse
  -- the active node
  have hq : ∃ node, nodes1[q]? = some node := by
    obtain ⟨id, n, _, hn, hcase⟩ := select_expand_inv W fl o cfg e nodes1 rd1 (some q) hse
    rcases hcase with ⟨hfe, hnt, hex⟩ | ⟨_, h1, _, h3⟩
    · obtain ⟨acts, a, _, _, _, hq, hnodes⟩ :=
        expand_ok_inv W fl o e.nodes nodes1 e.rd rd1 id (some q) n hn hfe hex
      cases hq
      rw [hnodes]
      have hid : id < e.nodes.length := (List.getElem?_eq_some.mp hn).1
      exact ⟨_, (getElem?_set_append _ _ _ _ hid _).trans (if_pos rfl)⟩
    · cases h3; rw [h1]; exact ⟨n, hn⟩
  obtain ⟨node, hnode⟩ := hq
  have hd : deref nodes1 (some q) = .ok node := (deref_ok_iff _ _ _).mpr ⟨q, rfl, hnode⟩
  have hql : q < nodes1.length := (List.getElem?_eq_some.mp hnode).1
  -- the evaluated state satisfies the state invariant
  have hfin : P (if (!node.is_terminal W) = true
      then simulate W cfg.simulation_depth node.state e.rng else (node.state, e.rng)).1 := by
    cases hterm : (!node.is_terminal W) with
    | true => simp only [if_true]
              exact simulate_P W fl o cfg.uct_k P Good hs _ _ _ (hsd1.state q node hnode)
    | false => simp only [Bool.false_eq_true, if_false]; exact hsd1.state q node hnode
  obtain ⟨nodes2, hb⟩ := backpropagate_total fl
    (W.evaluate (if (!node.is_terminal W) = true
      then simulate W cfg.simulation_depth node.state e.rng else (node.state, e.rng)).1)
    nodes1.length nodes1 q (by
      intro i m _ hm
      obtain ⟨s, hsP, hag⟩ := hsd1.agent i m hm
      obtain ⟨h0, h1⟩ := hs.agent_index s _ hsP hfin
      refine ⟨⟨by rw [hag]; exact h0, by rw [hag]; exact h1, ?_⟩, fun pp hpp =>
        hinv1.parent_lt i m pp hm hpp⟩
      exact lt_of_le_of_lt (hsd1.visits i m hm) hK) hql (by omega)
  have hcyc : cycle W fl o cfg e = .ok
      { nodes := nodes2, rd := rd1
        rng := (if (!node.is_terminal W) = true
          then simulate W cfg.simulation_depth node.state e.rng else (node.state, e.rng)).2
        explored_states := e.explored_states.map (fun v => v ++
          [(if (!node.is_terminal W) = true
            then simulate W cfg.simulation_depth node.state e.rng
            else (node.state, e.rng)).1]) } := by
    unfold cycle
    simp only [hse, hd, hb]
  refine ⟨_, hcyc, ?_, ?_⟩
  · obtain ⟨hlen, hfr⟩ := backpropagate_frame fl _ _ nodes1 nodes2 (some q) hinv1.parent_lt hb
    exact treeInv_frame W nodes1 nodes2 hinv1 hlen hfr
  · exact sound_backpropagate W fl o cfg.uct_k P Good K hs nodes1 nodes2 hinv1 hsd1 _ hfin _ _ hb

/-- Phases 1 and 2 only ever append to the child list of an existing node and never
change an action list that is already populated. -/
theorem select_expand_grow (W : World F S A G) (fl : FloatOps F) (o : Oracle A) (cfg : UCT F)
    (e : Engine F S A G) (nodes1 : List (TreeNode F S A)) (rd1 : Nat) (q : Option Nat)
    (h : select_expand W fl o cfg e = .ok (nodes1, rd1, q)) :
    ∀ (i : Nat) (n : TreeNode F S A), e.nodes[i]? = some n →
      ∃ m, nodes1[i]? = some m ∧ (∃ l, m.children = n.children ++ l) ∧
        (n.actions ≠ [] → m.actions = n.actions) := by
  obtain ⟨id, n, _, hn, hcase⟩ := select_expand_inv W fl o cfg e nodes1 rd1 q h
  rcases hcase with ⟨hfe, hnt, hex⟩ | ⟨_, h1, _, _⟩
  · obtain ⟨acts, a, hacts, ha, _, _, hnodes⟩ :=
      expand_ok_inv W fl o e.nodes nodes1 e.rd rd1 id q n hn hfe hex
    have hid : id < e.nodes.length := (List.getElem?_eq_some.mp hn).1
    intro i m hm
    have hi : i < e.nodes.length := (List.getElem?_eq_some.mp hm).1
    rw [hnodes, getElem?_set_append _ _ _ _ hid]
    by_cases h2 : i = id
    · subst h2
      rw [hn] at hm; cases hm
      refine ⟨{ n with actions := acts, children := n.children ++ [e.nodes.length] },
        by simp [Nat.ne_of_lt hi], ⟨[e.nodes.length], rfl⟩, ?_⟩
      intro hne
      show acts = n.actions
      rw [hacts]
      cases hh : n.actions with
      | nil => exact absurd hh hne
      | cons _ _ => rfl
    · exact ⟨m, by simp [Nat.ne_of_lt hi, h2, hm], ⟨[], by simp⟩, fun _ => rfl⟩
  · intro i m hm
    rw [h1]
    exact ⟨m, hm, ⟨[], by simp⟩, fun _ => rfl⟩

/-- What one pass of the loop does to a node that existed before it. -/
theorem cycle_old (W : World F S A G) (fl : FloatOps F) (o : Oracle A) (cfg : UCT F)
    (e e1 : Engine F S A G) (h : cycle W fl o cfg e = .ok e1) :
    ∀ (i : Nat) (n : TreeNode F S A), e.nodes[i]? = some n →
      ∃ m, e1.nodes[i]? = some m ∧ SameId n m ∧ n.num_visits ≤ m.num_visits ∧
        (∃ l, m.children = n.children ++ l) ∧ (n.actions ≠ [] → m.actions = n.actions) := by
  obtain ⟨nodes1, rd1, p, node, hse, _, hb, _, _, _⟩ := cycle_inv W fl o cfg e e1 h
  intro i n hn
  obtain ⟨m1, hm1, hid1, hv1, _⟩ := select_expand_old W fl o cfg e nodes1 rd1 _ hse i n hn
  obtain ⟨m1', hm1', hch, hac⟩ := select_expand_grow W fl o cfg e nodes1 rd1 _ hse i n hn
  rw [hm1] at hm1'; cases hm1'
  obtain ⟨_, hfr⟩ := backpropagate_shape fl _ _ nodes1 e1.nodes (some p) hb
  obtain ⟨m2, hm2, hs, hle⟩ := hfr i m1 hm1
  obtain ⟨k1, k2, k3, k4, k5, k6, k7⟩ := hs
  obtain ⟨j1, j2, j3, j4, j5⟩ := hid1
  refine ⟨m2, hm2, ⟨by rw [k1, j1], by rw [k2, j2], by rw [k3, j3], by rw [k4, j4],
    by rw [k5, j5]⟩, by omega, ?_, ?_⟩
  · rw [k6]; exact hch
  · intro hne; rw [k7]; exact hac hne

theorem built_root_state (W : World F S A G) (fl : FloatOps F) (o : Oracle A) (cfg : UCT F)
    (s0 : S) (e : Engine F S A G) (h : Built W fl o cfg s0 e) :
    ∃ r, e.nodes[0]? = some r ∧ r.state = s0 := by
  induction h with
  | init rng ex => exact ⟨_, rfl, rfl⟩
  | cycle _ hc ih =>
    obtain ⟨r, hr, hst⟩ := ih
    obtain ⟨m, hm, hid, _⟩ := cycle_old W fl o cfg _ _ hc 0 r hr
    exact ⟨m, hm, by rw [hid.1, hst]⟩

theorem select_first (W : World F S A G) (fl : FloatOps F) (nodes : List (TreeNode F S A))
    (k : F) (fuel p q : Nat) (n : TreeNode F S A) (hn : nodes[p]? = some n)
    (h : select W fl nodes k fuel (some p) = .ok (some q)) :
    q = p ∨ (W.is_terminal n.state = false ∧ is_fully_expanded n = true) := by
  cases fuel with
  | zero => simp [select] at h
  | succ fuel =>
    have hd : deref nodes (some p) = .ok n := (deref_ok_iff _ _ _).mpr ⟨p, rfl, hn⟩
    unfold select at h
    simp only [hd] at h
    cases hc : (!n.is_terminal W && is_fully_expanded n) with
    | false =>
      simp only [hc] at h
      simp at h
      left; exact h.symm
    | true =>
      right
      simpa [TreeNode.is_terminal] using hc

/-- After any pass of the loop a root that is not terminal has a child. -/
theorem cycle_root_children (W : World F S A G) (fl : FloatOps F) (o : Oracle A) (cfg : UCT F)
    (e e1 : Engine F S A G) (h : cycle W fl o cfg e = .ok e1)
    (r : TreeNode F S A) (hr : e.nodes[0]? = some r) (hnt : W.is_terminal r.state = false) :
    ∃ m, e1.nodes[0]? = some m ∧ m.children ≠ [] := by
  obtain ⟨m, hm, _, _, ⟨l, hl⟩, _⟩ := cycle_old W fl o cfg e e1 h 0 r hr
  refine ⟨m, hm, ?_⟩
  by_cases hch : r.children = []
  · -- the root is not fully expanded, so selection stops at it and it is expanded
    obtain ⟨nodes1, rd1, p, node, hse, _, hb, _, _, _⟩ := cycle_inv W fl o cfg e e1 h
    obtain ⟨id, n, hsel, hn, hcase⟩ := select_expand_inv W fl o cfg e nodes1 rd1 _ hse
    have hid : id = 0 := by
      rcases select_first W fl e.nodes cfg.uct_k _ 0 id r hr hsel with h0 | ⟨_, hfe⟩
      · exact h0
      · have := ((is_fully_expanded_true_iff r).mp hfe).1
        exact absurd hch this
    subst hid
    rw [hr] at hn; cases hn
    rcases hcase with ⟨hfe, _, hex⟩ | ⟨ht, _, _, _⟩
    · obtain ⟨acts, a, _, _, _, _, hnodes⟩ :=
        expand_ok_inv W fl o e.nodes nodes1 e.rd rd1 0 _ r hr hfe hex
      have h0 : 0 < e.nodes.length := (List.getElem?_eq_some.mp hr).1
      have hroot1 : nodes1[0]? =
          some { r with actions := acts, children := r.children ++ [e.nodes.length] } := by
        rw [hnodes, getElem?_set_append _ _ _ _ h0]
        simp [Nat.ne_of_lt h0]
      obtain ⟨_, hfr⟩ := backpropagate_shape fl _ _ nodes1 e1.nodes (some p) hb
      obtain ⟨m2, hm2, hs, _⟩ := hfr 0 _ hroot1
      rw [hm] at hm2; cases hm2
      obtain ⟨_, _, _, _, _, k6, _⟩ := hs
      rw [k6]
      simp
    · rw [hnt] at ht; exact Bool.noConfusion ht
  · rw [hl]
    intro h0
    have := List.append_eq_nil.mp h0
    exact hch this.1

/-! ### The main loop -/

theorem get_most_visited_child_char (nodes : List (TreeNode F S A)) (id : Nat)
    (n : TreeNode F S A) (hn : nodes[id]? = some n)
    (hvalid : ∀ c ∈ n.children, ∃ cn, nodes[c]? = some cn) :
    (n.children = [] ∧ get_most_visited_child nodes (some id) = .ok none) ∨
    (∃ i c cn, n.children[i]? = some c ∧ nodes[c]? = some cn ∧
      get_most_visited_child nodes (some id) = .ok (some c) ∧
      (∀ (j d : Nat) (dn : TreeNode F S A), n.children[j]? = some d → nodes[d]? = some dn →
        dn.num_visits ≤ cn.num_visits) ∧
      (∀ (j d : Nat) (dn : TreeNode F S A), j < i → n.children[j]? = some d →
        nodes[d]? = some dn → dn.num_visits < cn.num_visits)) := by
  have hd : deref nodes (some id) = .ok n := (deref_ok_iff _ _ _).mpr ⟨id, rfl, hn⟩
  have hg : get_most_visited_child nodes (some id) =
      most_visited_loop nodes n.children (-1) none := by
    simp [get_most_visited_child, hd]
  rw [hg]
  rcases most_visited_loop_spec nodes n.children hvalid (-1) none with
    ⟨hr, hall⟩ | ⟨i, c, cn, hi, hc, hr, _, hmax, hfirst⟩
  · left
    refine ⟨?_, hr⟩
    cases hch : n.children with
    | nil => rfl
    | cons c tl =>
      exfalso
      have hcm : c ∈ n.children := by rw [hch]; exact List.mem_cons_self _ _
      obtain ⟨cn, hcn⟩ := hvalid c hcm
      have := hall c cn hcm hcn
      omega
  · right
    exact ⟨i, c, cn, hi, hc, hr, hmax, hfirst⟩

theorem run_loop_inv (W : World F S A G) (fl : FloatOps F) (o : Oracle A) (cfg : UCT F)
    (s0 : S) (fuel : Nat) : ∀ (e e1 : Engine F S A G) (it it1 : Nat) (best : Option Nat),
    Built W fl o cfg s0 e → run_loop W fl o cfg fuel e it = .ok (e1, best, it1) →
    (∃ e0, Built W fl o cfg s0 e0 ∧ cycle W fl o cfg e0 = .ok e1) ∧
      get_most_visited_child e1.nodes (some 0) = .ok best := by
  induction fuel with
  | zero => intro e e1 it it1 best _ h; simp [run_loop] at h
  | succ fuel ih =>
    intro e e1 it it1 best hb h
    unfold run_loop at h
    cases hc : cycle W fl o cfg e with
    | error err => simp [hc] at h
    | ok e2 =>
      simp only [hc] at h
      cases hg : get_most_visited_child e2.nodes (some 0) with
      | error err => simp [hg] at h
      | ok b =>
        simp only [hg] at h
        split at h
        · simp at h
          obtain ⟨h1, h2, _⟩ := h
          subst h1; subst h2
          exact ⟨⟨e, hb, hc⟩, hg⟩
        · split at h
          · simp at h
            obtain ⟨h1, h2, _⟩ := h
            subst h1; subst h2
            exact ⟨⟨e, hb, hc⟩, hg⟩
          · split at h
            · simp at h
            · exact ih e2 e1 _ it1 best (Built.cycle hb hc) h

theorem run_loop_total (W : World F S A G) (fl : FloatOps F) (o : Oracle A) (cfg : UCT F)
    (P : S → Prop) (Good : F → Prop) (hs : Sane W fl o cfg.uct_k P Good)
    (hmillis : cfg.max_millis = 0) (hN : 0 < cfg.max_iterations)
    (hmax : cfg.max_iterations < INT_MAX) (fuel : Nat) :
    ∀ (e : Engine F S A G) (it : Nat), it ≤ cfg.max_iterations →
      cfg.max_iterations - it + 1 ≤ fuel → TreeInv W e.nodes → Sound W P Good it e.nodes →
      ∃ e1 best, run_loop W fl o cfg fuel e it = .ok (e1, best, cfg.max_iterations) ∧
        Sound W P Good (cfg.max_iterations + 1) e1.nodes := by
  induction fuel with
  | zero => intro e it _ hf; omega
  | succ fuel ih =>
    intro e it hit hf hinv hsd
    obtain ⟨e2, hc, hinv2, hsd2⟩ :=
      cycle_total W fl o cfg P Good it hs e hinv hsd (by omega)
    obtain ⟨r, hr, _, _⟩ := hinv2.root
    have hvalid : ∀ c ∈ r.children, ∃ cn, e2.nodes[c]? = some cn := by
      intro c hcm
      obtain ⟨j, hj⟩ := List.mem_iff_getElem?.mp hcm
      obtain ⟨cn, _, hcn, _⟩ := hinv2.child 0 r j c hr hj
      exact ⟨cn, hcn⟩
    have hg : ∃ b, get_most_visited_child e2.nodes (some 0) = .ok b := by
      rcases get_most_visited_child_char e2.nodes 0 r hr hvalid with
        ⟨_, h1⟩ | ⟨_, c, _, _, _, h1, _⟩
      · exact ⟨_, h1⟩
      · exact ⟨_, h1⟩
    obtain ⟨b, hg⟩ := hg
    unfold run_loop
    simp only [hc, hg, hmillis]
    by_cases hlast : it = cfg.max_iterations
    · subst hlast
      refine ⟨e2, b, ?_, hsd2⟩
      simp [hN]
    · have hlt : it < cfg.max_iterations := by omega
      have h1 : ¬ (cfg.max_iterations ≤ it) := by omega
      have h2 : ¬ (INT_MAX ≤ it) := by omega
      obtain ⟨e1, best, hrun, hsd1⟩ := ih e2 (it + 1) (by omega) (by omega) hinv2 hsd2
      refine ⟨e1, best, ?_, hsd1⟩
      simp [h1, h2, hrun]

theorem sound_init (W : World F S A G) (fl : FloatOps F) (o : Oracle A) (k : F)
    (P : S → Prop) (Good : F → Prop) (hs : Sane W fl o k P Good) (s0 : S) (hP : P s0) :
    Sound W P Good 0 [TreeNode.create W fl s0 none] := by
  have hget : ∀ (i : Nat) (n : TreeNode F S A),
      [TreeNode.create W fl s0 none][i]? = some n → n = TreeNode.create W fl s0 none := by
    intro i n h
    cases i with
    | zero => simp at h; exact h.symm
    | succ i => simp at h
  constructor
  · intro i n h; rw [hget i n h]; exact hP
  · intro i n h; rw [hget i n h]; exact ⟨s0, hP, rfl⟩
  · intro i n h; rw [hget i n h]; left; rfl
  · intro i n h; rw [hget i n h]; exact hs.good_zero
  · intro i n h; rw [hget i n h]; exact le_refl _

theorem run_inv (W : World F S A G) (fl : FloatOps F) (o : Oracle A) (cfg : UCT F)
    (fuel : Nat) (s0 : S) (rng : G) (ex : Option (List S)) (r : RunResult F S A G)
    (h : run W fl o cfg fuel s0 rng ex = .ok r) :
    (∃ e0, Built W fl o cfg s0 e0 ∧ cycle W fl o cfg e0 = .ok r.final) ∧
    get_most_visited_child r.final.nodes (some 0) = .ok r.best_node ∧
    (r.best_node = none → r.action = W.default_action) ∧
    (∀ b, r.best_node = some b → ∃ n, r.final.nodes[b]? = some n ∧ r.action = n.action) ∧
    run_loop W fl o cfg fuel
      { nodes := [TreeNode.create W fl s0 none], rd := 0, rng := rng, explored_states := ex } 0
      = .ok (r.final, r.best_node, r.iterations) := by
  unfold run at h
  simp only at h
  cases hl : run_loop W fl o cfg fuel
      { nodes := [TreeNode.create W fl s0 none], rd := 0, rng := rng, explored_states := ex } 0 with
  | error err => simp [hl] at h
  | ok res =>
    obtain ⟨e1, best, it1⟩ := res
    simp only [hl] at h
    obtain ⟨hb, hg⟩ := run_loop_inv W fl o cfg s0 fuel _ e1 0 it1 best (Built.init rng ex) hl
    cases best with
    | none =>
      simp at h
      subst h
      exact ⟨hb, hg, fun _ => rfl, fun b hb' => (by cases hb'), rfl⟩
    | some b =>
      simp only at h
      cases hn : e1.nodes[b]? with
      | none => simp [hn] at h
      | some n =>
        simp [hn] at h
        subst h
        refine ⟨hb, hg, fun h0 => (by cases h0), ?_, rfl⟩
        intro b' hb'
        cases hb'
        exact ⟨n, hn, rfl⟩

theorem sound_cycle (W : World F S A G) (fl : FloatOps F) (o : Oracle A) (cfg : UCT F)
    (P : S → Prop) (Good : F → Prop) (K : Nat) (hs : Sane W fl o cfg.uct_k P Good)
    (e e1 : Engine F S A G) (hinv : TreeInv W e.nodes) (hsd : Sound W P Good K e.nodes)
    (h : cycle W fl o cfg e = .ok e1) : Sound W P Good (K + 1) e1.nodes := by
  obtain ⟨nodes1, rd1, p, node, hse, hnode, hb, _, _, _⟩ := cycle_inv W fl o cfg e e1 h
  have hinv1 := treeInv_select_expand W fl o cfg e hinv nodes1 rd1 (some p) hse
  have hsd1 := sound_select_expand W fl o cfg P Good K hs e hsd nodes1 rd1 (some p) hse
  have hfin : P (if W.is_terminal node.state = false
      then simulate W cfg.simulation_depth node.state e.rng else (node.state, e.rng)).1 := by
    cases hterm : W.is_terminal node.state with
    | false => simp only [if_true]
               exact simulate_P W fl o cfg.uct_k P Good hs _ _ _ (hsd1.state p node hnode)
    | true => simp only [Bool.true_eq_false, if_false]; exact hsd1.state p node hnode
  exact sound_backpropagate W fl o cfg.uct_k P Good K hs nodes1 e1.nodes hinv1 hsd1 _ hfin _ _ hb

theorem built_sound (W : World F S A G) (fl : FloatOps F) (o : Oracle A) (cfg : UCT F)
    (P : S → Prop) (Good : F → Prop) (hs : Sane W fl o cfg.uct_k P Good)
    (s0 : S) (hP : P s0) (e : Engine F S A G) (h : Built W fl o cfg s0 e) :
    ∃ K, Sound W P Good K e.nodes := by
  induction h with
  | init rng ex => exact ⟨0, sound_init W fl o cfg.uct_k P Good hs s0 hP⟩
  | cycle hb hc ih =>
    obtain ⟨K, hK⟩ := ih
    exact ⟨K + 1, sound_cycle W fl o cfg P Good K hs _ _
      (built_treeInv W fl o cfg s0 _ hb) hK hc⟩

theorem run_total (W : World F S A G) (fl : FloatOps F) (o : Oracle A) (cfg : UCT F)
    (P : S → Prop) (Good : F → Prop) (hs : Sane W fl o cfg.uct_k P Good)
    (hmillis : cfg.max_millis = 0) (hN : 0 < cfg.max_iterations)
    (hmax : cfg.max_iterations < INT_MAX) (s0 : S) (hP : P s0) (rng : G)
    (ex : Option (List S)) (fuel : Nat) (hfuel : cfg.max_iterations + 1 ≤ fuel) :
    ∃ r, run W fl o cfg fuel s0 rng ex = .ok r ∧ r.iterations = cfg.max_iterations := by
  obtain ⟨e1, best, hrun, _⟩ := run_loop_total W fl o cfg P Good hs hmillis hN hmax fuel
    { nodes := [TreeNode.create W fl s0 none], rd := 0, rng := rng, explored_states := ex } 0
    (Nat.zero_le _) (by simpa using hfuel) (treeInv_init W fl s0)
    (sound_init W fl o cfg.uct_k P Good hs s0 hP)
  obtain ⟨⟨e0, hb0, hc0⟩, hg⟩ := run_loop_inv W fl o cfg s0 fuel _ e1 0 _ best
    (Built.init rng ex) hrun
  have hinv1 : TreeInv W e1.nodes := built_treeInv W fl o cfg s0 e1 (Built.cycle hb0 hc0)
  unfold run
  simp only [hrun]
  cases best with
  | none => exact ⟨_, rfl, rfl⟩
  | some b =>
    obtain ⟨r, hr, _, _⟩ := hinv1.root
    have hvalid : ∀ c ∈ r.children, ∃ cn, e1.nodes[c]? = some cn := by
      intro c hcm
      obtain ⟨j, hj⟩ := List.mem_iff_getElem?.mp hcm
      obtain ⟨cn, _, hcn, _⟩ := hinv1.child 0 r j c hr hj
      exact ⟨cn, hcn⟩
    have hb : ∃ n, e1.nodes[b]? = some n := by
      rcases get_most_visited_child_char e1.nodes 0 r hr hvalid with
        ⟨_, h1⟩ | ⟨_, c, cn, _, hcn, h1, _⟩
      · rw [hg] at h1; cases h1
      · rw [hg] at h1; cases h1; exact ⟨cn, hcn⟩
    obtain ⟨n, hn⟩ := hb
    simp only [hn]
    exact ⟨_, rfl, rfl⟩

/-- Whenever `run` returns on a state that is not terminal, the action it returns is
one of the legal actions of that state. -/
theorem run_action_mem (W : World F S A G) (fl : FloatOps F) (o : Oracle A) (cfg : UCT F)
    (P : S → Prop) (Good : F → Prop) (hs : Sane W fl o cfg.uct_k P Good)
    (s0 : S) (hP : P s0) (hnt : W.is_terminal s0 = false) (rng : G)
    (ex : Option (List S)) (fuel : Nat) (r : RunResult F S A G)
    (h : run W fl o cfg fuel s0 rng ex = .ok r) :
    r.action ∈ W.get_actions s0 ∧
    ∃ (root : TreeNode F S A) (i c : Nat), r.final.nodes[0]? = some root ∧
      root.children[i]? = some c ∧
      r.best_node = some c := by
  obtain ⟨⟨e0, hb0, hc0⟩, hg, _, hact, _⟩ := run_inv W fl o cfg fuel s0 rng ex r h
  have hb1 : Built W fl o cfg s0 r.final := Built.cycle hb0 hc0
  have hinv1 := built_treeInv W fl o cfg s0 _ hb1
  obtain ⟨K, hsd1⟩ := built_sound W fl o cfg P Good hs s0 hP _ hb1
  obtain ⟨r0, hr0, hst0⟩ := built_root_state W fl o cfg s0 e0 hb0
  obtain ⟨root, hroot, hch⟩ := cycle_root_children W fl o cfg e0 r.final hc0 r0 hr0
    (by rw [hst0]; exact hnt)
  obtain ⟨root', hroot', hst⟩ := built_root_state W fl o cfg s0 _ hb1
  rw [hroot] at hroot'; cases hroot'
  have hvalid : ∀ c ∈ root.children, ∃ cn, r.final.nodes[c]? = some cn := by
    intro c hcm
    obtain ⟨j, hj⟩ := List.mem_iff_getElem?.mp hcm
    obtain ⟨cn, _, hcn, _⟩ := hinv1.child 0 root j c hroot hj
    exact ⟨cn, hcn⟩
  rcases get_most_visited_child_char r.final.nodes 0 root hroot hvalid with
    ⟨h0, _⟩ | ⟨i, c, cn, hi, hcn, h1, _⟩
  · exact absurd h0 hch
  · rw [hg] at h1
    have hbest : r.best_node = some c := Except.ok.inj h1
    obtain ⟨n, hn, hra⟩ := hact c hbest
    rw [hcn] at hn; cases hn
    obtain ⟨cn', a, hcn', ha, hca, _⟩ := hinv1.child 0 root i c hroot hi
    rw [hcn] at hcn'; cases hcn'
    refine ⟨?_, root, i, c, hroot, hi, hbest⟩
    have hmem : a ∈ root.actions := List.mem_iff_getElem?.mpr ⟨_, ha⟩
    rcases hsd1.acts 0 root hroot with h0 | hperm
    · rw [h0] at hmem; simp at hmem
    · rw [hra, hca, ← hst]
      exact hperm.mem_iff.mp hmem

theorem onPath_root (W : World F S A G) (nodes : List (TreeNode F S A)) (hinv : TreeInv W nodes) :
    ∀ (p : Nat) (n : TreeNode F S A), nodes[p]? = some n → OnPath nodes (some p) 0 := by
  intro p
  induction p using Nat.strong_induction_on with
  | _ p ih =>
    intro n hn
    cases hpar : n.parent with
    | none =>
      have := hinv.parent_none p n hn hpar
      subst this
      exact OnPath.here 0
    | some pp =>
      have hlt := hinv.parent_lt p n pp hn hpar
      obtain ⟨pn, hpn, _⟩ := hinv.parent_child p n pp hn hpar
      exact OnPath.up hn (by rw [hpar]; exact ih pp hlt pn hpn)

/-- The cached agent of the root is the agent to move in the root state. -/
theorem built_root_agent (W : World F S A G) (fl : FloatOps F) (o : Oracle A) (cfg : UCT F)
    (s0 : S) (e : Engine F S A G) (h : Built W fl o cfg s0 e) :
    ∃ r, e.nodes[0]? = some r ∧ r.agent_id = W.agent_id r.state := by
  induction h with
  | init rng ex => exact ⟨_, rfl, rfl⟩
  | cycle _ hc ih =>
    obtain ⟨r, hr, hag⟩ := ih
    obtain ⟨m, hm, hid, _⟩ := cycle_old W fl o cfg _ _ hc 0 r hr
    obtain ⟨k1, _, _, k4, _⟩ := hid
    exact ⟨m, hm, by rw [k4, k1, hag]⟩

/-- A node that phases 1 and 2 add to the arena is the active node, and it starts
without visits and with value `0`. -/
theorem select_expand_new (W : World F S A G) (fl : FloatOps F) (o : Oracle A) (cfg : UCT F)
    (e : Engine F S A G) (nodes1 : List (TreeNode F S A)) (rd1 : Nat) (q : Option Nat)
    (h : select_expand W fl o cfg e = .ok (nodes1, rd1, q)) :
    ∀ (i : Nat) (m : TreeNode F S A), nodes1[i]? = some m → e.nodes.length ≤ i →
      q = some i ∧ m.num_visits = 0 ∧ m.value = fl.ofInt 0 := by
  obtain ⟨id, n, _, hn, hcase⟩ := select_expand_inv W fl o cfg e nodes1 rd1 q h
  rcases hcase with ⟨hfe, hnt, hex⟩ | ⟨_, h1, _, _⟩
  · obtain ⟨acts, a, _, _, _, hq, hnodes⟩ :=
      expand_ok_inv W fl o e.nodes nodes1 e.rd rd1 id q n hn hfe hex
    have hid : id < e.nodes.length := (List.getElem?_eq_some.mp hn).1
    intro i m hm hi
    rw [hnodes] at hm
    rcases getElem?_set_append_cases e.nodes id _ _ hid i m hm with
      ⟨h1, h2⟩ | ⟨h1, _⟩ | ⟨_, _, h3⟩
    · subst h2; exact ⟨by rw [hq, h1], rfl, rfl⟩
    · omega
    · have := (List.getElem?_eq_some.mp h3).1
      omega
  · intro i m hm hi
    rw [h1] at hm
    have := (List.getElem?_eq_some.mp hm).1
    omega

theorem treeInv_valid_children (W : World F S A G) (nodes : List (TreeNode F S A))
    (hinv : TreeInv W nodes) (i : Nat) (n : TreeNode F S A) (hn : nodes[i]? = some n) :
    ∀ c ∈ n.children, ∃ cn, nodes[c]? = some cn := by
  intro c hcm
  obtain ⟨j, hj⟩ := List.mem_iff_getElem?.mp hcm
  obtain ⟨cn, _, hcn, _⟩ := hinv.child i n j c hn hj
  exact ⟨cn, hcn⟩

/-- Every pass of the loop adds exactly one visit to the root. -/
theorem cycle_root_visits (W : World F S A G) (fl : FloatOps F) (o : Oracle A) (cfg : UCT F)
    (e e1 : Engine F S A G) (hinv : TreeInv W e.nodes) (hc : cycle W fl o cfg e = .ok e1)
    (r : TreeNode F S A) (hr : e.nodes[0]? = some r) :
    ∃ r1, e1.nodes[0]? = some r1 ∧ r1.num_visits = r.num_visits + 1 := by
  obtain ⟨nodes1, rd1, p, node, hse, hnode, hbp, _, _, _⟩ := cycle_inv W fl o cfg e e1 hc
  have hinv1 := treeInv_select_expand W fl o cfg e hinv nodes1 rd1 (some p) hse
  obtain ⟨_, _, hin⟩ := backpropagate_spec fl _ _ nodes1 e1.nodes (some p)
    hinv1.parent_lt hbp
  obtain ⟨m, hm, _, hv, _⟩ := select_expand_old W fl o cfg e nodes1 rd1 _ hse 0 r hr
  obtain ⟨n, _, hn, _, _, _, hres⟩ := hin 0 (onPath_root W nodes1 hinv1 p node hnode)
  rw [hm] at hn; cases hn
  exact ⟨_, hres, by simp [hv]⟩

theorem run_loop_root_visits (W : World F S A G) (fl : FloatOps F) (o : Oracle A)
    (cfg : UCT F) (fuel : Nat) :
    ∀ (e e1 : Engine F S A G) (it it1 : Nat) (best : Option Nat) (r : TreeNode F S A),
    TreeInv W e.nodes → e.nodes[0]? = some r → r.num_visits = it →
    run_loop W fl o cfg fuel e it = .ok (e1, best, it1) →
    ∃ r1, e1.nodes[0]? = some r1 ∧ r1.num_visits = it1 + 1 := by
  induction fuel with
  | zero => intro e e1 it it1 best r _ _ _ h; simp [run_loop] at h
  | succ fuel ih =>
    intro e e1 it it1 best r hinv hr hv h
    unfold run_loop at h
    cases hc : cycle W fl o cfg e with
    | error err => simp [hc] at h
    | ok e2 =>
      simp only [hc] at h
      obtain ⟨r2, hr2, hv2⟩ := cycle_root_visits W fl o cfg e e2 hinv hc r hr
      have hinv2 := treeInv_cycle W fl o cfg e e2 hinv hc
      cases hg : get_most_visited_child e2.nodes (some 0) with
      | error err => simp [hg] at h
      | ok b =>
        simp only [hg] at h
        split at h
        · simp at h
          obtain ⟨h1, _, h3⟩ := h
          subst h1; subst h3
          exact ⟨r2, hr2, by omega⟩
        · split at h
          · simp at h
            obtain ⟨h1, _, h3⟩ := h
            subst h1; subst h3
            exact ⟨r2, hr2, by omega⟩
          · split at h
            · simp at h
            · exact ih e2 e1 _ it1 best r2 hinv2 hr2 (by omega) h

/-- Whenever `run` returns, the root has been visited once more than
`get_iterations()` reports. -/
theorem run_root_visits (W : World F S A G) (fl : FloatOps F) (o : Oracle A) (cfg : UCT F)
    (fuel : Nat) (s0 : S) (rng : G) (ex : Option (List S)) (r : RunResult F S A G)
    (h : run W fl o cfg fuel s0 rng ex = .ok r) :
    ∃ root, r.final.nodes[0]? = some root ∧ root.num_visits = r.iterations + 1 := by
  obtain ⟨_, _, _, _, hl⟩ := run_inv W fl o cfg fuel s0 rng ex r h
  exact run_loop_root_visits W fl o cfg fuel
    { nodes := [TreeNode.create W fl s0 none], rd := 0, rng := rng, explored_states := ex }
    r.final 0 r.iterations r.best_node
    (TreeNode.create W fl s0 none) (treeInv_init W fl s0) rfl rfl hl

theorem legal_init (W : World F S A G) (fl : FloatOps F) (P : S → Prop) (s0 : S) (hP : P s0) :
    Legal W P [TreeNode.create W fl s0 none] := by
  have hget : ∀ (i : Nat) (n : TreeNode F S A),
      [TreeNode.create W fl s0 none][i]? = some n → n = TreeNode.create W fl s0 none := by
    intro i n h
    cases i with
    | zero => simp at h; exact h.symm
    | succ i => simp at h
  constructor
  · intro i n h; rw [hget i n h]; exact hP
  · intro i n h; rw [hget i n h]; left; rfl

theorem legal_select_expand (W : World F S A G) (fl : FloatOps F) (o : Oracle A) (cfg : UCT F)
    (P : S → Prop)
    (hperm : ∀ (k : Nat) (l : List A), (o.shuffle k l).Perm l)
    (hstep : ∀ (s : S) (a : A), P s → W.is_terminal s = false → a ∈ W.get_actions s →
      P (W.apply_action s a))
    (e : Engine F S A G) (hl : Legal W P e.nodes)
    (nodes1 : List (TreeNode F S A)) (rd1 : Nat) (q : Option Nat)
    (h : select_expand W fl o cfg e = .ok (nodes1, rd1, q)) : Legal W P nodes1 := by
  obtain ⟨id, n, _, hn, hcase⟩ := select_expand_inv W fl o cfg e nodes1 rd1 q h
  rcases hcase with ⟨hfe, hnt, hex⟩ | ⟨_, h1, _, _⟩
  · obtain ⟨acts, a, hacts, ha, _, _, hnodes⟩ :=
      expand_ok_inv W fl o e.nodes nodes1 e.rd rd1 id q n hn hfe hex
    have hid : id < e.nodes.length := (List.getElem?_eq_some.mp hn).1
    have hp : acts.Perm (W.get_actions n.state) := by
      rw [hacts]
      cases hemp : n.actions.isEmpty with
      | true => simp only [if_true]; exact hperm _ _
      | false =>
        simp only [Bool.false_eq_true, if_false]
        rcases hl.acts id n hn with h0 | h0
        · rw [h0] at hemp; simp at hemp
        · exact h0
    have hamem : a ∈ W.get_actions n.state :=
      hp.mem_iff.mp (List.mem_iff_getElem?.mpr ⟨_, ha⟩)
    have hcases := getElem?_set_append_cases e.nodes id
      { n with actions := acts, children := n.children ++ [e.nodes.length] }
      { state := W.apply_action n.state a, action := a, parent := some id,
        agent_id := W.agent_id n.state, num_visits := 0, value := fl.ofInt 0,
        depth := n.depth + 1, children := [], actions := [] } hid
    rw [hnodes]
    constructor
    · intro i m hm
      rcases hcases i m hm with ⟨_, h2⟩ | ⟨_, h2⟩ | ⟨_, _, h3⟩
      · subst h2; exact hstep n.state a (hl.state id n hn) hnt hamem
      · subst h2; exact hl.state id n hn
      · exact hl.state i m h3
    · intro i m hm
      rcases hcases i m hm with ⟨_, h2⟩ | ⟨_, h2⟩ | ⟨_, _, h3⟩
      · subst h2; left; rfl
      · subst h2; right; exact hp
      · exact hl.acts i m h3
  · rw [h1]; exact hl

theorem legal_frame (W : World F S A G) (P : S → Prop) (nodes nodes1 : List (TreeNode F S A))
    (hl : Legal W P nodes) (hlen : nodes1.length = nodes.length)
    (hfr : ∀ (i : Nat) (n : TreeNode F S A), nodes[i]? = some n →
      ∃ m, nodes1[i]? = some m ∧ SameShape n m) : Legal W P nodes1 := by
  have hb := frame_back nodes nodes1 hlen hfr
  constructor
  · intro i m hm
    obtain ⟨n, hn, hs⟩ := hb i m hm
    rw [hs.1]; exact hl.state i n hn
  · intro i m hm
    obtain ⟨n, hn, hs⟩ := hb i m hm
    obtain ⟨h1, _, _, _, _, _, h7⟩ := hs
    rw [h1, h7]; exact hl.acts i n hn

theorem legal_cycle (W : World F S A G) (fl : FloatOps F) (o : Oracle A) (cfg : UCT F)
    (P : S → Prop)
    (hperm : ∀ (k : Nat) (l : List A), (o.shuffle k l).Perm l)
    (hstep : ∀ (s : S) (a : A), P s → W.is_terminal s = false → a ∈ W.get_actions s →
      P (W.apply_action s a))
    (e e1 : Engine F S A G) (hl : Legal W P e.nodes) (h : cycle W fl o cfg e = .ok e1) :
    Legal W P e1.nodes := by
  obtain ⟨nodes1, rd1, p, node, hse, _, hb, _, _, _⟩ := cycle_inv W fl o cfg e e1 h
  have hl1 := legal_select_expand W fl o cfg P hperm hstep e hl nodes1 rd1 (some p) hse
  obtain ⟨hlen, hfr⟩ := backpropagate_shape fl _ _ nodes1 e1.nodes (some p) hb
  exact legal_frame W P nodes1 e1.nodes hl1 hlen
    (fun i n hn => by
      obtain ⟨m, hm, hs, _⟩ := hfr i n hn
      exact ⟨m, hm, hs⟩)

theorem built_legal (W : World F S A G) (fl : FloatOps F) (o : Oracle A) (cfg : UCT F)
    (P : S → Prop)
    (hperm : ∀ (k : Nat) (l : List A), (o.shuffle k l).Perm l)
    (hstep : ∀ (s : S) (a : A), P s → W.is_terminal s = false → a ∈ W.get_actions s →
      P (W.apply_action s a))
    (s0 : S) (hP : P s0) (e : Engine F S A G) (h : Built W fl o cfg s0 e) :
    Legal W P e.nodes := by
  induction h with
  | init rng ex => exact legal_init W fl P s0 hP
  | cycle _ hc ih => exact legal_cycle W fl o cfg P hperm hstep _ _ ih hc

theorem visits_at_set (nodes : List (TreeNode F S A)) (id : Nat) (n n1 : TreeNode F S A)
    (hn : nodes[id]? = some n) (hv : n1.num_visits = n.num_visits + 1) (c : Nat) :
    visits_at (nodes.set id n1) c = visits_at nodes c + (if c = id then 1 else 0) := by
  have hid : id < nodes.length := (List.getElem?_eq_some.mp hn).1
  unfold visits_at
  by_cases hc : c = id
  · subst hc
    simp [hn, hv, hid]
  · rw [List.getElem?_set_ne (Ne.symm hc)]
    simp [hc]

theorem sum_map_bump (l : List Nat) (hnd : l.Nodup) (f g : Nat → Nat) (id : Nat)
    (hg : ∀ c, g c = f c + (if c = id then 1 else 0)) :
    (l.map g).sum = (l.map f).sum + (if id ∈ l then 1 else 0) := by
  induction l with
  | nil => simp
  | cons c l ih =>
    obtain ⟨hc, hl⟩ := List.nodup_cons.mp hnd
    simp only [List.map_cons, List.sum_cons, ih hl, hg c, List.mem_cons]
    by_cases h1 : c = id
    · subst h1
      simp [hc]
      omega
    · have h2 : ¬ id = c := fun h => h1 h.symm
      simp [h1, h2]
      omega

theorem sum_map_ge_length (l : List Nat) (f : Nat → Nat) (h : ∀ c ∈ l, 1 ≤ f c) :
    l.length ≤ (l.map f).sum := by
  induction l with
  | nil => simp
  | cons c l ih =>
    have h1 := h c (List.mem_cons_self c l)
    have h2 := ih (fun x hx => h x (List.mem_cons_of_mem c hx))
    simp only [List.map_cons, List.sum_cons, List.length_cons]
    omega

theorem treeInv_child_parent (W : World F S A G) (nodes : List (TreeNode F S A))
    (hinv : TreeInv W nodes) (i : Nat) (n : TreeNode F S A) (hn : nodes[i]? = some n)
    (c : Nat) (hc : c ∈ n.children) :
    ∃ cn, nodes[c]? = some cn ∧ cn.parent = some i := by
  obtain ⟨j, hj⟩ := List.mem_iff_getElem?.mp hc
  obtain ⟨cn, _, hcn, _, _, hp, _⟩ := hinv.child i n j c hn hj
  exact ⟨cn, hcn, hp⟩

theorem owed_step (W : World F S A G) (nodes : List (TreeNode F S A)) (hinv : TreeInv W nodes)
    (hnd : ∀ (i : Nat) (n : TreeNode F S A), nodes[i]? = some n → n.children.Nodup)
    (id : Nat) (n n1 : TreeNode F S A) (hn : nodes[id]? = some n)
    (hs : SameShape n n1) (hv : n1.num_visits = n.num_visits + 1)
    (ho : Owed W nodes (some id)) : Owed W (nodes.set id n1) n.parent := by
  have hid : id < nodes.length := (List.getElem?_eq_some.mp hn).1
  obtain ⟨k1, _, _, _, _, k6, _⟩ := hs
  intro i m hm hnt
  have hsum : ∀ (l : List Nat), l.Nodup →
      (l.map (visits_at (nodes.set id n1))).sum =
        (l.map (visits_at nodes)).sum + (if id ∈ l then 1 else 0) :=
    fun l hl => sum_map_bump l hl _ _ id (visits_at_set nodes id n n1 hn hv)
  by_cases hi : i = id
  · subst hi
    have hm1 : m = n1 := by
      rw [List.getElem?_set_eq_of_lt _ hid] at hm
      exact (Option.some.inj hm).symm
    subst hm1
    have hnotin : i ∉ n.children := by
      intro hc
      obtain ⟨cn, hcn, hp⟩ := treeInv_child_parent W nodes hinv i n hn i hc
      rw [hn] at hcn; cases hcn
      exact absurd (hinv.parent_lt i n i hn hp) (lt_irrefl _)
    have hpar : ¬ n.parent = some i := by
      intro hp
      exact absurd (hinv.parent_lt i n i hn hp) (lt_irrefl _)
    have h0 := ho i n hn (by rw [← k1]; exact hnt)
    simp only [if_true] at h0
    unfold child_visits at h0 ⊢
    rw [k6, hsum n.children (hnd i n hn), hv]
    simp only [hpar, hnotin, if_false]
    omega
  · rw [List.getElem?_set_ne (Ne.symm hi)] at hm
    have h0 := ho i m hm hnt
    have hne : ¬ (some id = some i) := fun h => hi (Option.some.inj h).symm
    simp only [hne, if_false] at h0
    have hiff : id ∈ m.children ↔ n.parent = some i := by
      constructor
      · intro hc
        obtain ⟨cn, hcn, hp⟩ := treeInv_child_parent W nodes hinv i m hm id hc
        rw [hn] at hcn; cases hcn
        exact hp
      · intro hp
        obtain ⟨pn, hpn, hmem⟩ := hinv.parent_child id n i hn hp
        rw [hm] at hpn; cases hpn
        exact hmem
    unfold child_visits at h0 ⊢
    rw [hsum m.children (hnd i m hm)]
    by_cases hp : n.parent = some i
    · simp only [hp, hiff.mpr hp, if_true]
      omega
    · have hnm : id ∉ m.children := fun hc => hp (hiff.mp hc)
      simp only [hp, hnm, if_false]
      omega

theorem owed_backpropagate (W : World F S A G) (fl : FloatOps F) (rewards : List F)
    (fuel : Nat) : ∀ (nodes nodes1 : List (TreeNode F S A)) (p : Option Nat),
    TreeInv W nodes →
    (∀ (i : Nat) (n : TreeNode F S A), nodes[i]? = some n → n.children.Nodup) →
    Owed W nodes p → backpropagate fl rewards fuel nodes p = .ok nodes1 →
    Owed W nodes1 none := by
  induction fuel with
  | zero =>
    intro nodes nodes1 p _ _ ho h
    cases p with
    | none =>
      simp [backpropagate] at h
      subst h
      exact ho
    | some id => simp [backpropagate] at h
  | succ fuel ih =>
    intro nodes nodes1 p hinv hnd ho h
    cases p with
    | none =>
      simp [backpropagate] at h
      subst h
      exact ho
    | some id =>
      unfold backpropagate at h
      cases hn : nodes[id]? with
      | none => simp [hn] at h
      | some n =>
        simp only [hn] at h
        cases hu : update fl n rewards with
        | error e => simp [hu] at h
        | ok n1 =>
          simp only [hu] at h
          obtain ⟨_, _, r, _, hn1⟩ := update_ok_inv fl n n1 rewards hu
          have hidlt : id < nodes.length := (List.getElem?_eq_some.mp hn).1
          have hs : SameShape n n1 := by
            rw [hn1]; exact ⟨rfl, rfl, rfl, rfl, rfl, rfl, rfl⟩
          have hv : n1.num_visits = n.num_visits + 1 := by rw [hn1]
          have hpar : n1.parent = n.parent := hs.2.2.1
          have hfr : ∀ (i : Nat) (m : TreeNode F S A), nodes[i]? = some m →
              ∃ m1, (nodes.set id n1)[i]? = some m1 ∧ SameShape m m1 := by
            intro i m hm
            by_cases hi : i = id
            · subst hi
              rw [hn] at hm; cases hm
              exact ⟨n1, by simp [hidlt], hs⟩
            · exact ⟨m, by rw [List.getElem?_set_ne (Ne.symm hi)]; exact hm,
                ⟨rfl, rfl, rfl, rfl, rfl, rfl, rfl⟩⟩
          have hinv1 := treeInv_frame W nodes (nodes.set id n1) hinv (List.length_set _ _ _) hfr
          have hnd1 : ∀ (i : Nat) (m : TreeNode F S A), (nodes.set id n1)[i]? = some m →
              m.children.Nodup := by
            intro i m hm
            obtain ⟨m0, hm0, hs0⟩ := frame_back nodes (nodes.set id n1)
              (List.length_set _ _ _) hfr i m hm
            rw [hs0.2.2.2.2.2.1]
            exact hnd i m0 hm0
          rw [hpar] at h
          exact ih (nodes.set id n1) nodes1 n.parent hinv1 hnd1
            (owed_step W nodes hinv hnd id n n1 hn hs hv ho) h

theorem visits_select_expand (W : World F S A G) (fl : FloatOps F) (o : Oracle A) (cfg : UCT F)
    (e : Engine F S A G) (hinv : TreeInv W e.nodes)
    (hnd : ∀ (i : Nat) (n : TreeNode F S A), e.nodes[i]? = some n → n.children.Nodup)
    (ho : Owed W e.nodes none)
    (nodes1 : List (TreeNode F S A)) (rd1 : Nat) (q : Option Nat)
    (h : select_expand W fl o cfg e = .ok (nodes1, rd1, q)) :
    (∀ (i : Nat) (n : TreeNode F S A), nodes1[i]? = some n → n.children.Nodup) ∧
    Owed W nodes1 q := by
  obtain ⟨id, n, _, hn, hcase⟩ := select_expand_inv W fl o cfg e nodes1 rd1 q h
  rcases hcase with ⟨hfe, hnt, hex⟩ | ⟨hterm, h1, _, hq⟩
  · obtain ⟨acts, a, _, _, _, hq, hnodes⟩ :=
      expand_ok_inv W fl o e.nodes nodes1 e.rd rd1 id q n hn hfe hex
    have hid : id < e.nodes.length := (List.getElem?_eq_some.mp hn).1
    have hcases := getElem?_set_append_cases e.nodes id
      { n with actions := acts, children := n.children ++ [e.nodes.length] }
      { state := W.apply_action n.state a, action := a, parent := some id,
        agent_id := W.agent_id n.state, num_visits := 0, value := fl.ofInt 0,
        depth := n.depth + 1, children := [], actions := [] } hid
    have hva : ∀ c, visits_at nodes1 c = visits_at e.nodes c := by
      intro c
      unfold visits_at
      rw [hnodes, getElem?_set_append e.nodes id _ _ hid c]
      by_cases h1 : c = e.nodes.length
      · rw [if_pos h1, h1, List.getElem?_eq_none (le_refl _)]
      · rw [if_neg h1]
        by_cases h2 : c = id
        · rw [if_pos h2, h2, hn]
        · rw [if_neg h2]
    have hcv : ∀ (m : TreeNode F S A), child_visits nodes1 m = child_visits e.nodes m := by
      intro m
      unfold child_visits
      congr 1
      exact List.map_congr_left (fun c _ => hva c)
    have hnew : visits_at e.nodes e.nodes.length = 0 := by
      unfold visits_at
      rw [List.getElem?_eq_none (le_refl _)]
    subst hq
    rw [hnodes] at hcv ⊢
    constructor
    · intro i m hm
      rcases hcases i m hm with ⟨_, h2⟩ | ⟨_, h2⟩ | ⟨_, _, h3⟩
      · subst h2; exact List.nodup_nil
      · subst h2
        show (n.children ++ [e.nodes.length]).Nodup
        rw [List.nodup_append]
        refine ⟨hnd id n hn, List.nodup_singleton _, ?_⟩
        intro c hc hc2
        obtain ⟨cn, hcn⟩ := treeInv_valid_children W e.nodes hinv id n hn c hc
        have hlt : c < e.nodes.length := (List.getElem?_eq_some.mp hcn).1
        simp only [List.mem_singleton] at hc2
        omega
      · exact hnd i m h3
    · intro i m hm hmt
      rw [hcv m]
      rcases hcases i m hm with ⟨h1, h2⟩ | ⟨h1, h2⟩ | ⟨h1, h1b, h3⟩
      · subst h2
        have hi0 : i ≠ 0 := by omega
        rw [if_neg hi0, if_pos (by rw [h1])]
        simp [child_visits]
      · subst h2
        have h0 := ho id n hn hmt
        have hne : ¬ (some e.nodes.length = some i) := by
          intro hh; have := Option.some.inj hh; omega
        simp only [hne, if_false]
        simp only [reduceCtorEq, if_false] at h0
        rw [h1]
        show n.num_visits + 0 = _ + ((n.children ++ [e.nodes.length]).map (visits_at e.nodes)).sum
        rw [List.map_append, List.sum_append]
        simp only [List.map_cons, List.map_nil, List.sum_cons, List.sum_nil, hnew]
        unfold child_visits at h0
        omega
      · have h0 := ho i m h3 hmt
        have hne : ¬ (some e.nodes.length = some i) := by
          intro hh; exact h1b (Option.some.inj hh).symm
        simp only [hne, if_false]
        simp only [reduceCtorEq, if_false] at h0
        exact h0
  · subst h1
    refine ⟨hnd, ?_⟩
    intro i m hm hmt
    have h0 := ho i m hm hmt
    simp only [reduceCtorEq, if_false] at h0
    have hne : ¬ (q = some i) := by
      intro hh
      rw [hq] at hh
      have := Option.some.inj hh
      subst this
      rw [hn] at hm; cases hm
      rw [hterm] at hmt
      exact Bool.noConfusion hmt
    simp only [hne, if_false]
    exact h0

theorem visits_init (W : World F S A G) (fl : FloatOps F) (s0 : S) :
    Visits W [TreeNode.create W fl s0 none] := by
  have hget : ∀ (i : Nat) (n : TreeNode F S A),
      [TreeNode.create W fl s0 none][i]? = some n →
      i = 0 ∧ n = TreeNode.create W fl s0 none := by
    intro i n h
    cases i with
    | zero => simp at h; exact ⟨rfl, h.symm⟩
    | succ i => simp at h
  constructor
  · intro i n h
    rw [(hget i n h).2]
    exact List.nodup_nil
  · intro i n h hi
    exact absurd (hget i n h).1 hi
  · intro i n h _
    obtain ⟨h1, h2⟩ := hget i n h
    subst h1 h2
    simp [child_visits, TreeNode.create]

theorem visits_cycle (W : World F S A G) (fl : FloatOps F) (o : Oracle A) (cfg : UCT F)
    (e e1 : Engine F S A G) (hinv : TreeInv W e.nodes) (hv : Visits W e.nodes)
    (hc : cycle W fl o cfg e = .ok e1) : Visits W e1.nodes := by
  obtain ⟨nodes1, rd1, p, node, hse, hnode, hbp, _, _, _⟩ := cycle_inv W fl o cfg e e1 hc
  have hinv1 := treeInv_select_expand W fl o cfg e hinv nodes1 rd1 (some p) hse
  obtain ⟨hnd1, ho1⟩ := visits_select_expand W fl o cfg e hinv hv.nodup hv.owed nodes1 rd1
    (some p) hse
  obtain ⟨hlen, hfr⟩ := backpropagate_shape fl _ _ nodes1 e1.nodes (some p) hbp
  have hfr2 : ∀ (i : Nat) (n : TreeNode F S A), nodes1[i]? = some n →
      ∃ m, e1.nodes[i]? = some m ∧ SameShape n m := by
    intro i n hn
    obtain ⟨m, hm, hs, _⟩ := hfr i n hn
    exact ⟨m, hm, hs⟩
  constructor
  · intro i m hm
    obtain ⟨m0, hm0, hs0⟩ := frame_back nodes1 e1.nodes hlen hfr2 i m hm
    rw [hs0.2.2.2.2.2.1]
    exact hnd1 i m0 hm0
  · intro i m hm hi
    obtain ⟨m0, hm0, _⟩ := frame_back nodes1 e1.nodes hlen hfr2 i m hm
    by_cases hlt : i < e.nodes.length
    · obtain ⟨n, hn⟩ : ∃ n, e.nodes[i]? = some n := ⟨_, List.getElem?_eq_getElem hlt⟩
      obtain ⟨m2, hm2, _, hle, _⟩ := cycle_old W fl o cfg e e1 hc i n hn
      rw [hm] at hm2; cases hm2
      exact le_trans (hv.pos i n hn hi) hle
    · obtain ⟨hq, hz, _⟩ := select_expand_new W fl o cfg e nodes1 rd1 (some p) hse i m0 hm0
        (by omega)
      have hpi : p = i := Option.some.inj hq
      subst hpi
      obtain ⟨_, _, hin⟩ := backpropagate_spec fl _ _ nodes1 e1.nodes (some p)
        hinv1.parent_lt hbp
      obtain ⟨n2, _, hn2, _, _, _, hres⟩ := hin p (OnPath.here p)
      rw [hm] at hres; cases hres
      show 1 ≤ n2.num_visits + 1
      omega
  · exact owed_backpropagate W fl _ _ nodes1 e1.nodes (some p) hinv1 hnd1 ho1 hbp

theorem built_visits (W : World F S A G) (fl : FloatOps F) (o : Oracle A) (cfg : UCT F)
    (s0 : S) (e : Engine F S A G) (h : Built W fl o cfg s0 e) : Visits W e.nodes := by
  induction h with
  | init rng ex => exact visits_init W fl s0
  | @cycle e0 e1 hb hc ih =>
    exact visits_cycle W fl o cfg e0 e1 (built_treeInv W fl o cfg s0 e0 hb) ih hc

/-! ### What a returning `run` has done -/

/-- Whenever `run` returns on a state that is not terminal, the action it returns is
one of the legal actions of that state: this needs a shuffle that permutes and
nothing of the arithmetic. -/
theorem run_action_legal (W : World F S A G) (fl : FloatOps F) (o : Oracle A) (cfg : UCT F)
    (hperm : ∀ (k : Nat) (l : List A), (o.shuffle k l).Perm l)
    (s0 : S) (hnt : W.is_terminal s0 = false) (rng : G)
    (ex : Option (List S)) (fuel : Nat) (r : RunResult F S A G)
    (h : run W fl o cfg fuel s0 rng ex = .ok r) :
    r.action ∈ W.get_actions s0 := by
  obtain ⟨⟨e0, hb0, hc0⟩, hg, _, hact, _⟩ := run_inv W fl o cfg fuel s0 rng ex r h
  have hb1 : Built W fl o cfg s0 r.final := Built.cycle hb0 hc0
  have hinv1 := built_treeInv W fl o cfg s0 _ hb1
  have hleg := built_legal W fl o cfg (fun _ => True) hperm (fun _ _ _ _ _ => trivial) s0
    trivial _ hb1
  obtain ⟨r0, hr0, hst0⟩ := built_root_state W fl o cfg s0 e0 hb0
  obtain ⟨root, hroot, hch⟩ := cycle_root_children W fl o cfg e0 r.final hc0 r0 hr0
    (by rw [hst0]; exact hnt)
  obtain ⟨root', hroot', hst⟩ := built_root_state W fl o cfg s0 _ hb1
  rw [hroot] at hroot'; cases hroot'
  have hvalid := treeInv_valid_children W _ hinv1 0 root hroot
  rcases get_most_visited_child_char r.final.nodes 0 root hroot hvalid with
    ⟨h0, _⟩ | ⟨i, c, cn, hi, hcn, h1, _⟩
  · exact absurd h0 hch
  · rw [hg] at h1
    have hbest : r.best_node = some c := Except.ok.inj h1
    obtain ⟨n, hn, hra⟩ := hact c hbest
    rw [hcn] at hn; cases hn
    obtain ⟨cn', a, hcn', ha, hca, _⟩ := hinv1.child 0 root i c hroot hi
    rw [hcn] at hcn'; cases hcn'
    have hmem : a ∈ root.actions := List.mem_iff_getElem?.mpr ⟨_, ha⟩
    rcases hleg.acts 0 root hroot with h0 | hp
    · rw [h0] at hmem; simp at hmem
    · rw [hra, hca, ← hst]
      exact hp.mem_iff.mp hmem

theorem cycle_root_visits_le (W : World F S A G) (fl : FloatOps F) (o : Oracle A) (cfg : UCT F)
    (e e1 : Engine F S A G) (hinv : TreeInv W e.nodes) (hc : cycle W fl o cfg e = .ok e1) :
    ∃ r1, e1.nodes[0]? = some r1 ∧ r1.num_visits ≤ INT_MAX := by
  obtain ⟨nodes1, rd1, p, node, hse, hnode, hbp, _, _, _⟩ := cycle_inv W fl o cfg e e1 hc
  have hinv1 := treeInv_select_expand W fl o cfg e hinv nodes1 rd1 (some p) hse
  obtain ⟨_, _, hin⟩ := backpropagate_spec fl _ _ nodes1 e1.nodes (some p)
    hinv1.parent_lt hbp
  obtain ⟨n, _, _, _, hlt, _, hres⟩ := hin 0 (onPath_root W nodes1 hinv1 p node hnode)
  exact ⟨_, hres, by show n.num_visits + 1 ≤ INT_MAX; omega⟩

theorem run_loop_budget (W : World F S A G) (fl : FloatOps F) (o : Oracle A) (cfg : UCT F)
    (hmillis : cfg.max_millis = 0) (fuel : Nat) :
    ∀ (e e1 : Engine F S A G) (it it1 : Nat) (best : Option Nat),
    run_loop W fl o cfg fuel e it = .ok (e1, best, it1) →
    0 < cfg.max_iterations ∧ cfg.max_iterations ≤ it1 := by
  induction fuel with
  | zero => intro e e1 it it1 best h; simp [run_loop] at h
  | succ fuel ih =>
    intro e e1 it it1 best h
    unfold run_loop at h
    cases hc : cycle W fl o cfg e with
    | error err => simp [hc] at h
    | ok e2 =>
      simp only [hc] at h
      cases hg : get_most_visited_child e2.nodes (some 0) with
      | error err => simp [hg] at h
      | ok b =>
        simp only [hg, hmillis] at h
        split at h
        · rename_i hcond
          simp at hcond
        · split at h
          · rename_i hcond
            simp at h
            obtain ⟨_, _, h3⟩ := h
            subst h3
            simp at hcond
            exact hcond
          · split at h
            · simp at h
            · exact ih e2 e1 _ it1 best h

/-- A call of `run` without time limit returns only if `max_iterations` is positive
and below `INT_MAX`: the root is visited `iterations + 1` times and its visit
counter is an `int`. -/
theorem run_ok_budget (W : World F S A G) (fl : FloatOps F) (o : Oracle A) (cfg : UCT F)
    (hmillis : cfg.max_millis = 0)
    (fuel : Nat) (s0 : S) (rng : G) (ex : Option (List S)) (r : RunResult F S A G)
    (h : run W fl o cfg fuel s0 rng ex = .ok r) :
    0 < cfg.max_iterations ∧ cfg.max_iterations ≤ r.iterations ∧ r.iterations < INT_MAX := by
  obtain ⟨⟨e0, hb0, hc0⟩, _, _, _, hl⟩ := run_inv W fl o cfg fuel s0 rng ex r h
  obtain ⟨h1, h2⟩ := run_loop_budget W fl o cfg hmillis fuel _ _ _ _ _ hl
  obtain ⟨root, hroot, hv⟩ := run_root_visits W fl o cfg fuel s0 rng ex r h
  obtain ⟨r1, hr1, hle⟩ := cycle_root_visits_le W fl o cfg e0 r.final
    (built_treeInv W fl o cfg s0 e0 hb0) hc0
  rw [hroot] at hr1; cases hr1
  exact ⟨h1, h2, by omega⟩

/-- On a node without children whose state has no legal action, `expand` reads
index 0 of an empty action list. -/
theorem expand_no_action (W : World F S A G) (fl : FloatOps F) (o : Oracle A)
    (hperm : ∀ (k : Nat) (l : List A), (o.shuffle k l).Perm l)
    (nodes : List (TreeNode F S A)) (rd id : Nat) (n : TreeNode F S A)
    (hn : nodes[id]? = some n) (hact : n.actions = []) (hch : n.children = [])
    (h0 : W.get_actions n.state = []) :
    expand W fl o nodes rd id = .error .out_of_bounds := by
  have hsh : o.shuffle rd [] = [] := List.Perm.eq_nil (hperm rd [])
  unfold expand
  simp [hn, is_fully_expanded, hch, hact, h0, hsh]

end

end MCTS

/-! ## Tic-tac-toe -/

namespace oxo

open MCTS

theorem mem_get_actions (s : State) (a : Action) :
    a ∈ get_actions s ↔ ∃ i : Nat, i < 9 ∧ cell s.board i = kNone ∧ a = Action.mk (i : Int) := by
  unfold get_actions
  simp only [List.mem_map, List.mem_filter, List.mem_range, decide_eq_true_eq,
    Int.ofNat_eq_coe]
  constructor
  · rintro ⟨i, ⟨h1, h2⟩, h3⟩
    exact ⟨i, h1, h2, h3.symm⟩
  · rintro ⟨i, h1, h2, h3⟩
    exact ⟨i, ⟨h1, h2⟩, h3.symm⟩

theorem apply_action_turn (s : State) (a : Action) (h0 : 0 ≤ a.tile) (h8 : a.tile ≤ 8) :
    (apply_action s a).player_turn = 1 - s.player_turn := by
  unfold apply_action
  have hr : ¬ (a.tile < 0 ∨ a.tile > 8) := by omega
  simp only [hr, if_false]
  split
  · rfl
  · split <;> rfl

theorem apply_action_nonterminal (s : State) (a : Action) (h0 : 0 ≤ a.tile) (h8 : a.tile ≤ 8)
    (hnt : (apply_action s a).is_terminal = false) :
    get_actions (apply_action s a) ≠ [] := by
  unfold apply_action at hnt ⊢
  have hr : ¬ (a.tile < 0 ∨ a.tile > 8) := by omega
  simp only [hr, if_false] at hnt ⊢
  split at hnt
  · exact Bool.noConfusion hnt
  · split at hnt
    · exact Bool.noConfusion hnt
    · rename_i hne
      rw [if_neg hne]
      intro hempty
      apply hne
      unfold get_actions at hempty
      simp only [List.map_eq_nil_iff] at hempty
      rw [List.countP_eq_length_filter, hempty]
      rfl

theorem reachable_turn (s : State) (h : Reachable s) :
    s.player_turn = 0 ∨ s.player_turn = 1 := by
  induction h with
  | reset => left; rfl
  | @step s a _ ha ih =>
    obtain ⟨i, hi, _, hai⟩ := (mem_get_actions s a).mp ha
    have h0 : 0 ≤ a.tile := by rw [hai]; show (0 : Int) ≤ (i : Int); omega
    have h8 : a.tile ≤ 8 := by rw [hai]; show (i : Int) ≤ 8; omega
    rw [apply_action_turn s a h0 h8]
    omega

theorem reachable_has_action (s : State) (h : Reachable s) (hnt : s.is_terminal = false) :
    get_actions s ≠ [] := by
  cases h with
  | reset => decide
  | @step s a _ ha =>
    obtain ⟨i, hi, _, hai⟩ := (mem_get_actions s a).mp ha
    have h0 : 0 ≤ a.tile := by rw [hai]; show (0 : Int) ≤ (i : Int); omega
    have h8 : a.tile ≤ 8 := by rw [hai]; show (i : Int) ≤ 8; omega
    exact apply_action_nonterminal s a h0 h8 hnt

theorem evaluate_length {F : Type} (fl : FloatOps F) (s : State) :
    (evaluate fl s).length = 2 := by
  unfold evaluate
  split
  · split
    · rfl
    · split
      · rfl
      · split <;> rfl
  · rfl

theorem mem_evaluate {F : Type} (fl : FloatOps F) (s : State) (r : F)
    (h : r ∈ evaluate fl s) : r = fl.ofInt 0 ∨ r = fl.half ∨ r = fl.ofInt 1 := by
  unfold evaluate at h
  split at h
  · split at h
    · simp at h; right; left; exact h
    · split at h
      · simp at h; rcases h with h | h
        · right; right; exact h
        · left; exact h
      · split at h
        · simp at h; rcases h with h | h
          · left; exact h
          · right; right; exact h
        · simp at h; left; exact h
  · simp at h; left; exact h

theorem get_random_action_mem (rand : Nat → Nat) (s : State) (g g1 : Nat) (a : Action)
    (h : get_random_action rand s g = (some a, g1)) : a ∈ get_actions s := by
  unfold get_random_action at h
  simp only at h
  split at h
  · simp at h
  · simp at h
    exact List.mem_iff_getElem?.mpr ⟨_, h.1⟩

theorem world_sane {F : Type} (fl : FloatOps F) (rand : Nat → Nat) (o : Oracle Action)
    (uct_k : F) (Good : F → Prop) (hfl : FloatSane fl uct_k Good)
    (hsh : ∀ (k : Nat) (l : List Action), (o.shuffle k l).Perm l) :
    Sane (world fl rand) fl o uct_k Reachable Good := by
  constructor
  · exact hsh
  · intro s a hs _ ha
    exact Reachable.step hs ha
  · intro s g g1 a _ _ h
    exact get_random_action_mem rand s g g1 a h
  · intro s hs hnt
    exact reachable_has_action s hs hnt
  · intro s s1 hs _
    have hlen : ((world fl rand).evaluate s1).length = 2 := evaluate_length fl s1
    have ht : (world fl rand).agent_id s = s.player_turn := rfl
    rw [hlen, ht]
    rcases reachable_turn s hs with h | h <;> rw [h] <;> decide
  · exact hfl.good_zero
  · intro v r s hv _ hr
    rcases mem_evaluate fl s r hr with h | h | h <;> rw [h]
    · exact hfl.good_add_zero v hv
    · exact hfl.good_add_half v hv
    · exact hfl.good_add_one v hv
  · exact hfl.score_gt

theorem cell_set (board : List Int) (t : Nat) (v : Int) (ht : t < board.length) (i : Nat) :
    cell (board.set t v) i = if i = t then v else cell board i := by
  unfold cell
  by_cases h : i = t
  · subst h
    simp [List.getD_eq_getElem?_getD, ht]
  · have h' : t ≠ i := fun hh => h hh.symm
    simp [List.getD_eq_getElem?_getD, List.getElem?_set_ne h', h]

theorem apply_action_board (s : State) (a : Action) (h0 : 0 ≤ a.tile) (h8 : a.tile ≤ 8) :
    (apply_action s a).board = s.board.set a.tile.toNat s.player_turn := by
  unfold apply_action
  have hr : ¬ (a.tile < 0 ∨ a.tile > 8) := by omega
  simp only [hr, if_false]
  split
  · rfl
  · split <;> rfl

theorem reachable_length (s : State) (h : Reachable s) : s.board.length = 9 := by
  induction h with
  | reset => rfl
  | @step s a _ ha ih =>
    obtain ⟨i, hi, _, hai⟩ := (mem_get_actions s a).mp ha
    have h0 : 0 ≤ a.tile := by rw [hai]; show (0 : Int) ≤ (i : Int); omega
    have h8 : a.tile ≤ 8 := by rw [hai]; show (i : Int) ≤ 8; omega
    rw [apply_action_board s a h0 h8, List.length_set]
    exact ih

theorem countP_change (l : List Nat) (hnd : l.Nodup) (t : Nat) (ht : t ∈ l)
    (p q : Nat → Bool) (hp : p t = true) (hq : q t = false)
    (hother : ∀ i, i ≠ t → q i = p i) : l.countP p = l.countP q + 1 := by
  induction l with
  | nil => cases ht
  | cons x xs ih =>
    obtain ⟨hx, hxs⟩ := List.nodup_cons.mp hnd
    by_cases hxt : x = t
    · subst hxt
      have hagree : xs.countP p = xs.countP q := by
        apply List.countP_congr
        intro i hi
        have : i ≠ x := fun hh => hx (hh ▸ hi)
        rw [hother i this]
      simp [List.countP_cons, hp, hq, hagree]
    · have ht' : t ∈ xs := by
        rcases List.mem_cons.mp ht with h | h
        · exact absurd h.symm hxt
        · exact h
      have := ih hxs ht'
      rw [List.countP_cons, List.countP_cons, hother x hxt, this]
      omega

/-- Effect of a legal move on the list of legal actions. -/
theorem get_actions_apply (s : State) (hlen : s.board.length = 9)
    (hturn : s.player_turn = 0 ∨ s.player_turn = 1) (t : Nat) (ht : t < 9)
    (hcell : cell s.board t = kNone) :
    (∀ b : Action, b ∈ get_actions (apply_action s (Action.mk (t : Int))) ↔
      (b ∈ get_actions s ∧ b ≠ Action.mk (t : Int))) ∧
    (get_actions (apply_action s (Action.mk (t : Int)))).length + 1 = (get_actions s).length := by
  have h0 : (0 : Int) ≤ (Action.mk (t : Int)).tile := by show (0 : Int) ≤ (t : Int); omega
  have h8 : (Action.mk (t : Int)).tile ≤ 8 := by show (t : Int) ≤ 8; omega
  have hb := apply_action_board s (Action.mk (t : Int)) h0 h8
  have htn : (Action.mk (t : Int)).tile.toNat = t := by simp
  rw [htn] at hb
  have hcs : ∀ i, cell (apply_action s (Action.mk (t : Int))).board i =
      if i = t then s.player_turn else cell s.board i := by
    intro i
    rw [hb]
    exact cell_set s.board t s.player_turn (by omega) i
  have hpt : s.player_turn ≠ kNone := by
    rcases hturn with h | h <;> rw [h] <;> decide
  constructor
  · intro b
    rw [mem_get_actions, mem_get_actions]
    constructor
    · rintro ⟨i, hi, hc, hbi⟩
      rw [hcs] at hc
      by_cases hit : i = t
      · rw [if_pos hit] at hc; exact absurd hc hpt
      · rw [if_neg hit] at hc
        refine ⟨⟨i, hi, hc, hbi⟩, ?_⟩
        rw [hbi]
        intro heq
        have : (i : Int) = (t : Int) := congrArg Action.tile heq
        exact hit (by exact_mod_cast this)
    · rintro ⟨⟨i, hi, hc, hbi⟩, hne⟩
      have hit : i ≠ t := by
        intro hh; apply hne; rw [hbi, hh]
      exact ⟨i, hi, by rw [hcs, if_neg hit]; exact hc, hbi⟩
  · unfold get_actions
    simp only [List.length_map]
    rw [← List.countP_eq_length_filter, ← List.countP_eq_length_filter]
    symm
    apply countP_change (List.range 9) (List.nodup_range 9) t (List.mem_range.mpr ht)
    · simpa using hcell
    · rw [hcs, if_pos rfl]
      simpa using hpt
    · intro i hi
      rw [hcs, if_neg hi]

theorem played_reachable (s : State) (h : Played s) : Reachable s := by
  induction h with
  | reset => exact Reachable.reset
  | step _ _ ha ih => exact Reachable.step ih ha

theorem mem_get_actions_range (s : State) (a : Action) (ha : a ∈ get_actions s) :
    0 ≤ a.tile ∧ a.tile ≤ 8 ∧ a.tile.toNat < 9 ∧ cell s.board a.tile.toNat = kNone ∧
    a = Action.mk (a.tile.toNat : Int) := by
  obtain ⟨i, hi, hc, hai⟩ := (mem_get_actions s a).mp ha
  subst hai
  refine ⟨?_, ?_, ?_, ?_, ?_⟩
  · show (0 : Int) ≤ (i : Int); omega
  · show (i : Int) ≤ 8; omega
  · simpa using hi
  · simpa using hc
  · simp

theorem reachable_cells (s : State) (h : Reachable s) (i : Nat) :
    cell s.board i = -1 ∨ cell s.board i = 0 ∨ cell s.board i = 1 := by
  induction h generalizing i with
  | reset =>
    by_cases hi : i < 9
    · left
      have : i = 0 ∨ i = 1 ∨ i = 2 ∨ i = 3 ∨ i = 4 ∨ i = 5 ∨ i = 6 ∨ i = 7 ∨ i = 8 := by omega
      rcases this with h | h | h | h | h | h | h | h | h <;> subst h <;> rfl
    · right; left
      unfold cell
      rw [List.getD_eq_getElem?_getD, List.getElem?_eq_none]
      · rfl
      · show (List.replicate 9 kNone).length ≤ i
        simp; omega
  | @step s a hs ha ih =>
    obtain ⟨h0, h8, ht, _, _⟩ := mem_get_actions_range s a ha
    rw [apply_action_board s a h0 h8,
      cell_set s.board a.tile.toNat s.player_turn (by rw [reachable_length s hs]; exact ht) i]
    by_cases hi : i = a.tile.toNat
    · rw [if_pos hi]
      rcases reachable_turn s hs with h | h <;> rw [h] <;> simp
    · rw [if_neg hi]; exact ih i

/-- A line that is complete after a mark is placed on an empty cell, but was not
complete before, belongs to the mark just placed. -/
theorem new_line_owner (board : List Int) (t : Nat) (v : Int) (ht : t < board.length)
    (c : Nat × Nat × Nat) (hnew : is_win (board.set t v) c = true)
    (hold : is_win board c = false) : cell (board.set t v) c.1 = v := by
  unfold is_win at hnew
  simp only [Bool.and_eq_true, decide_eq_true_eq] at hnew
  obtain ⟨⟨h1, h2⟩, h3⟩ := hnew
  have hc := cell_set board t v ht
  by_cases a1 : c.1 = t
  · rw [hc, if_pos a1]
  · by_cases a2 : c.2.1 = t
    · rw [h2, hc c.2.1, if_pos a2]
    · by_cases a3 : c.2.2 = t
      · rw [h2, h3, hc c.2.2, if_pos a3]
      · exfalso
        rw [hc c.1, if_neg a1] at h1 h2
        rw [hc c.2.1, if_neg a2] at h2 h3
        rw [hc c.2.2, if_neg a3] at h3
        unfold is_win at hold
        simp only [Bool.and_eq_false_iff, decide_eq_false_iff_not] at hold
        rcases hold with (h | h) | h
        · exact h h1
        · exact h h2
        · exact h h3

theorem apply_action_cases (s : State) (a : Action) (h0 : 0 ≤ a.tile) (h8 : a.tile ≤ 8) :
    (apply_action s a).board = s.board.set a.tile.toNat s.player_turn ∧
    (apply_action s a).player_turn = 1 - s.player_turn ∧
    ((∃ c ∈ win_combo, is_win (apply_action s a).board c = true ∧
        (apply_action s a).is_terminal = true ∧
        (apply_action s a).winner = cell (apply_action s a).board c.1) ∨
     ((∀ c ∈ win_combo, is_win (apply_action s a).board c = false) ∧
      (get_actions (apply_action s a) = [] ∧ (apply_action s a).is_terminal = true ∧
          (apply_action s a).winner = kNone ∨
       get_actions (apply_action s a) ≠ [] ∧
          (apply_action s a).is_terminal = s.is_terminal ∧
          (apply_action s a).winner = s.winner))) := by
  have hr : ¬ (a.tile < 0 ∨ a.tile > 8) := by omega
  refine ⟨apply_action_board s a h0 h8, apply_action_turn s a h0 h8, ?_⟩
  rw [apply_action_board s a h0 h8]
  cases hfind : win_combo.find? (is_win (s.board.set a.tile.toNat s.player_turn)) with
  | some c =>
    left
    refine ⟨c, List.mem_of_find?_eq_some hfind, List.find?_some hfind, ?_, ?_⟩
    · unfold apply_action
      simp only [hr, if_false, hfind]
    · unfold apply_action
      simp only [hr, if_false, hfind]
  | none =>
    right
    refine ⟨?_, ?_⟩
    · intro c hc
      have := List.find?_eq_none.mp hfind c hc
      simpa using this
    · by_cases hne : (List.range 9).countP
          (fun i => decide (cell (s.board.set a.tile.toNat s.player_turn) i = kNone)) = 0
      · left
        have hga : get_actions (apply_action s a) = [] := by
          unfold get_actions
          rw [apply_action_board s a h0 h8]
          simp only [List.map_eq_nil_iff]
          rw [List.countP_eq_length_filter] at hne
          exact List.length_eq_zero.mp hne
        refine ⟨hga, ?_, ?_⟩
        · unfold apply_action
          simp only [hr, if_false, hfind, hne, if_true]
        · unfold apply_action
          simp only [hr, if_false, hfind, hne, if_true]
      · right
        have hga : get_actions (apply_action s a) ≠ [] := by
          unfold get_actions
          rw [apply_action_board s a h0 h8]
          simp only [ne_eq, List.map_eq_nil_iff]
          intro h
          apply hne
          rw [List.countP_eq_length_filter, h]
          rfl
        refine ⟨hga, ?_, ?_⟩
        · unfold apply_action
          simp only [hr, if_false, hfind, hne]
        · unfold apply_action
          simp only [hr, if_false, hfind, hne]

theorem get_actions_nil_iff (s : State) : get_actions s = [] ↔ is_full s.board := by
  unfold get_actions is_full
  simp only [List.map_eq_nil_iff, List.filter_eq_nil_iff, List.mem_range, decide_eq_true_eq]

theorem get_actions_length_le (s : State) : (get_actions s).length ≤ 9 := by
  unfold get_actions
  simp only [List.length_map]
  exact le_trans (List.length_filter_le _ _) (by simp)

theorem played_inv (s : State) (h : Played s) :
    (s.is_terminal = false →
      (∀ c ∈ win_combo, is_win s.board c = false) ∧ s.winner = kNone) ∧
    (s.is_terminal = true →
      (has_line s.board ∨ get_actions s = []) ∧
      (∀ c ∈ win_combo, is_win s.board c = true →
        s.winner = cell s.board c.1 ∧ s.winner = 1 - s.player_turn) ∧
      ((∀ c ∈ win_combo, is_win s.board c = false) → s.winner = kNone)) := by
  induction h with
  | reset =>
    refine ⟨fun _ => ⟨by decide, rfl⟩, fun h => ?_⟩
    exact absurd h (by decide)
  | @step s a hs hnt ha ih =>
    obtain ⟨hnoline, hwin⟩ := ih.1 hnt
    obtain ⟨h0, h8, ht, _, _⟩ := mem_get_actions_range s a ha
    have hlen := reachable_length s (played_reachable s hs)
    obtain ⟨hb, hpt, hcase⟩ := apply_action_cases s a h0 h8
    have howner : ∀ c ∈ win_combo, is_win (apply_action s a).board c = true →
        cell (apply_action s a).board c.1 = s.player_turn := by
      intro c hc hw
      rw [hb] at hw ⊢
      exact new_line_owner s.board a.tile.toNat s.player_turn (by rw [hlen]; exact ht) c hw
        (hnoline c hc)
    rcases hcase with ⟨c, hc, hw, hterm, hwinner⟩ | ⟨hno, hrest⟩
    · refine ⟨fun h => ?_, fun _ => ⟨Or.inl ⟨c, hc, hw⟩, ?_, ?_⟩⟩
      · rw [hterm] at h; exact Bool.noConfusion h
      · intro c' hc' hw'
        rw [hwinner, howner c hc hw, howner c' hc' hw', hpt]
        exact ⟨rfl, by omega⟩
      · intro hnone
        rw [hnone c hc] at hw
        exact Bool.noConfusion hw
    · rcases hrest with ⟨hga, hterm, hwinner⟩ | ⟨hga, hterm, hwinner⟩
      · refine ⟨fun h => ?_, fun _ => ⟨Or.inr hga, ?_, fun _ => hwinner⟩⟩
        · rw [hterm] at h; exact Bool.noConfusion h
        · intro c' hc' hw'
          rw [hno c' hc'] at hw'
          exact Bool.noConfusion hw'
      · refine ⟨fun _ => ⟨hno, by rw [hwinner, hwin]⟩, fun h => ?_⟩
        rw [hterm, hnt] at h
        exact Bool.noConfusion h

theorem reachable_terminal_of_no_action (s : State) (h : Reachable s)
    (hga : get_actions s = []) : s.is_terminal = true := by
  cases ht : s.is_terminal with
  | true => rfl
  | false => exact absurd hga (reachable_has_action s h ht)

theorem moves_bound (j : Nat) (s s1 : State) (hm : Moves j s s1) (h : Reachable s) :
    Reachable s1 ∧ (get_actions s1).length + j = (get_actions s).length := by
  induction hm with
  | done s => exact ⟨h, rfl⟩
  | @step j s s1 a hnt ha _ ih =>
    obtain ⟨_, _, ht, hcell, hai⟩ := mem_get_actions_range s a ha
    obtain ⟨hr1, hlen1⟩ := ih (Reachable.step h ha)
    refine ⟨hr1, ?_⟩
    have := (get_actions_apply s (reachable_length s h) (reachable_turn s h) a.tile.toNat ht
      hcell).2
    rw [← hai] at this
    omega

theorem rollout_moves {F : Type} (fl : FloatOps F) (rand : Nat → Nat) (j : Nat)
    (s s1 : State) (g g1 : Nat) (h : Rollout (world fl rand) j s g s1 g1) : Moves j s s1 := by
  induction h with
  | done s g => exact Moves.done s
  | @step j s s1 g g1 g2 a hnt hr _ ih =>
    exact Moves.step hnt (get_random_action_mem rand s g g1 a hr) ih

theorem reachable_winner (s : State) (h : Reachable s) (ht : s.is_terminal = true) :
    s.winner = kNone ∨ s.winner = kPlayer1 ∨ s.winner = kPlayer2 := by
  induction h with
  | reset => exact absurd ht (by decide)
  | @step s a hs ha ih =>
    obtain ⟨h0, h8, _, _, _⟩ := mem_get_actions_range s a ha
    obtain ⟨_, _, hcase⟩ := apply_action_cases s a h0 h8
    rcases hcase with ⟨c, _, hw, _, hwinner⟩ | ⟨_, hrest⟩
    · rw [hwinner]
      have hgt : cell (apply_action s a).board c.1 > kNone := by
        unfold is_win at hw
        simp only [Bool.and_eq_true, decide_eq_true_eq] at hw
        exact hw.1.1
      rcases reachable_cells _ (Reachable.step hs ha) c.1 with h | h | h
      · rw [h] at hgt; exact absurd hgt (by decide)
      · right; left; exact h
      · right; right; exact h
    · rcases hrest with ⟨_, _, hwinner⟩ | ⟨_, hterm, hwinner⟩
      · left; exact hwinner
      · rw [hwinner]
        exact ih (by rw [← hterm]; exact ht)

theorem evaluate_terminal {F : Type} (fl : FloatOps F) (s : State) (ht : s.is_terminal = true)
    (hw : s.winner = kNone ∨ s.winner = kPlayer1 ∨ s.winner = kPlayer2) :
    evaluate fl s = [fl.half, fl.half] ∨ evaluate fl s = [fl.ofInt 1, fl.ofInt 0] ∨
      evaluate fl s = [fl.ofInt 0, fl.ofInt 1] := by
  unfold evaluate
  simp only [ht, if_true]
  rcases hw with h | h | h
  · left; simp [h]
  · right; left; rw [h]; simp [kPlayer1, kNone]
  · right; right; rw [h]; simp [kPlayer2, kPlayer1, kNone]

theorem get_random_action_none (rand : Nat → Nat) (s : State) (g g1 : Nat)
    (h : get_random_action rand s g = (none, g1)) : get_actions s = [] := by
  unfold get_random_action at h
  cases hl : get_actions s with
  | nil => rfl
  | cons a l =>
    simp only [hl, List.isEmpty_cons, Bool.false_eq_true, if_false, Prod.mk.injEq] at h
    have hlt : rand g % (a :: l).length < (a :: l).length := Nat.mod_lt _ (by simp)
    rw [List.getElem?_eq_getElem hlt] at h
    exact absurd h.1 (by simp)

theorem simulate_terminal {F : Type} (fl : FloatOps F) (rand : Nat → Nat) (t : Nat)
    (s : State) (g : Nat) (hs : Reachable s) (ht : 9 ≤ t) :
    Reachable (simulate (world fl rand) t s g).1 ∧
    (simulate (world fl rand) t s g).1.is_terminal = true := by
  obtain ⟨j, g1, hj, hroll, hstop⟩ := simulate_spec (world fl rand) t s g
  have hm := rollout_moves fl rand j s _ g g1 hroll
  obtain ⟨hr, hlen⟩ := moves_bound j s _ hm hs
  refine ⟨hr, ?_⟩
  rcases hstop with ⟨hjt, _⟩ | ⟨hterm, _⟩ | ⟨_, hnone⟩
  · have h9 := get_actions_length_le s
    apply reachable_terminal_of_no_action _ hr
    apply List.length_eq_zero.mp
    omega
  · exact hterm
  · exact reachable_terminal_of_no_action _ hr (get_random_action_none rand _ _ _ hnone)

theorem built_reachable {F : Type} (fl : FloatOps F) (rand : Nat → Nat) (o : Oracle Action)
    (cfg : UCT F) (hperm : ∀ (k : Nat) (l : List Action), (o.shuffle k l).Perm l)
    (s0 : State) (hs0 : Reachable s0) (e : Engine F State Action Nat)
    (h : Built (world fl rand) fl o cfg s0 e) : Legal (world fl rand) Reachable e.nodes :=
  built_legal (world fl rand) fl o cfg Reachable hperm
    (fun _ _ hs _ ha => Reachable.step hs ha) s0 hs0 e h

/-- The table `win_combo` lists exactly the three rows, the three columns and the
two diagonals: the test of `apply_action` succeeds for some entry if and only if
some player's mark fills a row, a column or a diagonal. -/
theorem has_line_iff (board : List Int) :
    has_line board ↔ ∃ p, kNone < p ∧ three_in_line board p := by
  constructor
  · rintro ⟨c, hc, hw⟩
    unfold is_win at hw
    simp only [Bool.and_eq_true, decide_eq_true_eq] at hw
    obtain ⟨⟨h1, h2⟩, h3⟩ := hw
    refine ⟨cell board c.1, h1, ?_⟩
    simp only [win_combo, List.mem_cons, List.mem_singleton, List.not_mem_nil, or_false]
      at hc
    rcases hc with rfl | rfl | rfl | rfl | rfl | rfl | rfl | rfl
    · left; refine ⟨0, by omega, ?_⟩
      intro k hk; interval_cases k
      · rfl
      · exact h2.symm
      · exact (h2.trans h3).symm
    · left; refine ⟨1, by omega, ?_⟩
      intro k hk; interval_cases k
      · rfl
      · exact h2.symm
      · exact (h2.trans h3).symm
    · left; refine ⟨2, by omega, ?_⟩
      intro k hk; interval_cases k
      · rfl
      · exact h2.symm
      · exact (h2.trans h3).symm
    · right; left; refine ⟨0, by omega, ?_⟩
      intro r hr; interval_cases r
      · rfl
      · exact h2.symm
      · exact (h2.trans h3).symm
    · right; left; refine ⟨1, by omega, ?_⟩
      intro r hr; interval_cases r
      · rfl
      · exact h2.symm
      · exact (h2.trans h3).symm
    · right; left; refine ⟨2, by omega, ?_⟩
      intro r hr; interval_cases r
      · rfl
      · exact h2.symm
      · exact (h2.trans h3).symm
    · right; right; left
      intro d hd; interval_cases d
      · rfl
      · exact h2.symm
      · exact (h2.trans h3).symm
    · right; right; right
      intro d hd; interval_cases d
      · rfl
      · exact h2.symm
      · exact (h2.trans h3).symm
  · rintro ⟨p, hp, hl⟩
    have key : ∀ (a b c : Nat), (a, b, c) ∈ win_combo → cell board a = p → cell board b = p →
        cell board c = p → has_line board := by
      intro a b c hmem ha hb hc
      refine ⟨(a, b, c), hmem, ?_⟩
      unfold is_win
      simp only [Bool.and_eq_true, decide_eq_true_eq]
      exact ⟨⟨by rw [ha]; exact hp, by rw [ha, hb]⟩, by rw [hb, hc]⟩
    rcases hl with ⟨r, hr, h⟩ | ⟨k, hk, h⟩ | h | h
    · interval_cases r
      · exact key 0 1 2 (by decide) (h 0 (by omega)) (h 1 (by omega)) (h 2 (by omega))
      · exact key 3 4 5 (by decide) (h 0 (by omega)) (h 1 (by omega)) (h 2 (by omega))
      · exact key 6 7 8 (by decide) (h 0 (by omega)) (h 1 (by omega)) (h 2 (by omega))
    · interval_cases k
      · exact key 0 3 6 (by decide) (h 0 (by omega)) (h 1 (by omega)) (h 2 (by omega))
      · exact key 1 4 7 (by decide) (h 0 (by omega)) (h 1 (by omega)) (h 2 (by omega))
      · exact key 2 5 8 (by decide) (h 0 (by omega)) (h 1 (by omega)) (h 2 (by omega))
    · exact key 0 4 8 (by decide) (h 0 (by omega)) (h 1 (by omega)) (h 2 (by omega))
    · exact key 2 4 6 (by decide) (h 0 (by omega)) (h 1 (by omega)) (h 2 (by omega))

/-- On a reachable board a mark greater than `kNone` is the mark of a player. -/
theorem three_in_line_player (s : State) (h : Reachable s) (p : Int) (hp : kNone < p)
    (hl : three_in_line s.board p) : p = kPlayer1 ∨ p = kPlayer2 := by
  have hc : ∃ i, cell s.board i = p := by
    rcases hl with ⟨r, _, h⟩ | ⟨k, _, h⟩ | h | h
    · exact ⟨_, h 0 (by omega)⟩
    · exact ⟨_, h 0 (by omega)⟩
    · exact ⟨_, h 0 (by omega)⟩
    · exact ⟨_, h 0 (by omega)⟩
  obtain ⟨i, hi⟩ := hc
  rcases reachable_cells s h i with h1 | h1 | h1
  · rw [hi] at h1; rw [h1] at hp; exact absurd hp (by decide)
  · left; rw [← hi, h1]; rfl
  · right; rw [← hi, h1]; rfl

/-- A line filled by a player's mark `p` is an entry of `win_combo` on which the
test of `apply_action` succeeds, and its first cell holds `p`. -/
theorem three_in_line_win (board : List Int) (p : Int) (hp : kNone < p)
    (hl : three_in_line board p) :
    ∃ c ∈ win_combo, is_win board c = true ∧ cell board c.1 = p := by
  have key : ∀ (a b d : Nat), (a, b, d) ∈ win_combo → cell board a = p →
      cell board b = p → cell board d = p →
      ∃ c ∈ win_combo, is_win board c = true ∧ cell board c.1 = p := by
    intro a b d hmem ha hb hd
    refine ⟨(a, b, d), hmem, ?_, ha⟩
    unfold is_win
    simp only [Bool.and_eq_true, decide_eq_true_eq]
    exact ⟨⟨by rw [ha]; exact hp, by rw [ha, hb]⟩, by rw [hb, hd]⟩
  rcases hl with ⟨r, hr3, h⟩ | ⟨k, hk3, h⟩ | h | h
  · interval_cases r
    · exact key 0 1 2 (by decide) (h 0 (by omega)) (h 1 (by omega)) (h 2 (by omega))
    · exact key 3 4 5 (by decide) (h 0 (by omega)) (h 1 (by omega)) (h 2 (by omega))
    · exact key 6 7 8 (by decide) (h 0 (by omega)) (h 1 (by omega)) (h 2 (by omega))
  · interval_cases k
    · exact key 0 3 6 (by decide) (h 0 (by omega)) (h 1 (by omega)) (h 2 (by omega))
    · exact key 1 4 7 (by decide) (h 0 (by omega)) (h 1 (by omega)) (h 2 (by omega))
    · exact key 2 5 8 (by decide) (h 0 (by omega)) (h 1 (by omega)) (h 2 (by omega))
  · exact key 0 4 8 (by decide) (h 0 (by omega)) (h 1 (by omega)) (h 2 (by omega))
  · exact key 2 4 6 (by decide) (h 0 (by omega)) (h 1 (by omega)) (h 2 (by omega))

end oxo

/-! ## Facts about the concrete instances -/

namespace Example

open MCTS

theorem ratFloat_sane (k : ℚ) (hk : 0 ≤ k) :
    oxo.FloatSane ratFloat k (fun v => 0 ≤ v) := by
  constructor
  · show (0 : ℚ) ≤ ((0 : Int) : ℚ)
    simp
  · intro v hv
    show (0 : ℚ) ≤ v + ((0 : Int) : ℚ)
    simpa using hv
  · intro v hv
    show (0 : ℚ) ≤ v + 1 / 2
    positivity
  · intro v hv
    show (0 : ℚ) ≤ v + ((1 : Int) : ℚ)
    have : (0 : ℚ) ≤ ((1 : Int) : ℚ) := by simp
    linarith
  · intro node child hv
    have hv' : (0 : ℚ) ≤ child.value := hv
    have h1 : (0 : ℚ) ≤ child.value / (((child.num_visits : Int) : ℚ) + 1 / 2 ^ 23) := by
      apply div_nonneg hv'
      have : (0 : ℚ) ≤ ((child.num_visits : Int) : ℚ) := by exact_mod_cast Nat.zero_le _
      positivity
    have h2 : ∀ q : ℚ, (0 : ℚ) ≤ (Nat.sqrt (q.num.toNat * q.den) : ℚ) / q.den := by
      intro q
      positivity
    have h3 : (0 : ℚ) ≤ uct_score ratFloat k node child := by
      show (0 : ℚ) ≤ child.value / (((child.num_visits : Int) : ℚ) + 1 / 2 ^ 23) + k * _
      exact add_nonneg h1 (mul_nonneg hk (h2 _))
    show decide (-(2 ^ 128 - 2 ^ 104 : ℚ) < uct_score ratFloat k node child) = true
    rw [decide_eq_true_eq]
    have : (-(2 ^ 128 - 2 ^ 104 : ℚ)) < 0 := by norm_num
    linarith

theorem config_k_nonneg (n : Nat) : (0 : ℚ) ≤ (config n).uct_k := by
  show (0 : ℚ) ≤ 3 / 2
  norm_num

theorem reverse_shuffle_perm (k : Nat) (l : List oxo.Action) :
    (oracle0.shuffle k l).Perm l := List.reverse_perm l

theorem reachable_play_append (l : List Int) (t : Int) (h : oxo.Reachable (play l))
    (hm : oxo.Action.mk t ∈ oxo.get_actions (play l)) : oxo.Reachable (play (l ++ [t])) := by
  unfold play
  rw [List.foldl_append]
  exact oxo.Reachable.step h hm

theorem reachable_lastMoveBoard : oxo.Reachable lastMoveBoard := by
  have h0 : oxo.Reachable (play []) := oxo.Reachable.reset
  have h1 := reachable_play_append [] 0 h0 (by decide)
  have h2 := reachable_play_append _ 1 h1 (by decide)
  have h3 := reachable_play_append _ 2 h2 (by decide)
  have h4 := reachable_play_append _ 4 h3 (by decide)
  have h5 := reachable_play_append _ 3 h4 (by decide)
  have h6 := reachable_play_append _ 5 h5 (by decide)
  have h7 := reachable_play_append _ 7 h6 (by decide)
  exact reachable_play_append _ 6 h7 (by decide)

theorem firstPass_spec {F : Type} (W : World F oxo.State oxo.Action Nat) (fl : FloatOps F)
    (o : Oracle oxo.Action) (cfg : UCT F) (s : oxo.State)
    (h : (cycle W fl o cfg (start W fl s)).toOption.isSome = true) :
    cycle W fl o cfg (start W fl s) = .ok (firstPass W fl o cfg s) := by
  unfold firstPass
  cases hc : cycle W fl o cfg (start W fl s) with
  | ok e => rfl
  | error err => rw [hc] at h; exact Bool.noConfusion h

theorem built_firstPass {F : Type} (W : World F oxo.State oxo.Action Nat) (fl : FloatOps F)
    (o : Oracle oxo.Action) (cfg : UCT F) (s : oxo.State)
    (h : (cycle W fl o cfg (start W fl s)).toOption.isSome = true) :
    Built W fl o cfg s (firstPass W fl o cfg s) :=
  Built.cycle (Built.init 0 none) (firstPass_spec W fl o cfg s h)

theorem ratFloat_gtOrder (X : ℚ → Prop) : GtOrder ratFloat X := by
  constructor
  · intro a _
    show decide (a < a) = false
    simp
  · intro a b c _ _ _ hab hbc
    have h1 : b < a := by simpa [ratFloat] using hab
    have h2 : c < b := by simpa [ratFloat] using hbc
    show decide (c < a) = true
    simpa using lt_trans h2 h1
  · intro a b c _ _ _ hac
    have h1 : c < a := by simpa [ratFloat] using hac
    rcases lt_or_le b a with h | h
    · left
      show decide (b < a) = true
      simpa using h
    · right
      show decide (c < b) = true
      simpa using lt_of_lt_of_le h1 h

theorem played_play_append (l : List Int) (t : Int) (h : oxo.Played (play l))
    (hnt : (play l).is_terminal = false)
    (hm : oxo.Action.mk t ∈ oxo.get_actions (play l)) : oxo.Played (play (l ++ [t])) := by
  unfold play
  rw [List.foldl_append]
  exact oxo.Played.step h hnt hm

theorem played_wonBoard : oxo.Played wonBoard := by
  have h0 : oxo.Played (play []) := oxo.Played.reset
  have h1 := played_play_append [] 0 h0 (by decide) (by decide)
  have h2 := played_play_append _ 3 h1 (by decide) (by decide)
  have h3 := played_play_append _ 1 h2 (by decide) (by decide)
  have h4 := played_play_append _ 4 h3 (by decide) (by decide)
  exact played_play_append _ 2 h4 (by decide) (by decide)

theorem identity_shuffle_perm (k : Nat) (l : List oxo.Action) :
    (oracle1.shuffle k l).Perm l := List.Perm.refl l

theorem nanFloat_score (k : ℚ) (node child : TreeNode (Option ℚ) oxo.State oxo.Action)
    (q : ℚ) (hq : child.value = some q) :
    uct_score nanFloat (some k) node child =
      some (uct_score ratFloat k { node with value := 0 } { child with value := q }) := by
  unfold uct_score
  simp only [nanFloat, hq, Option.map_some']
  rfl

theorem nanFloat_sane (k : ℚ) (hk : 0 ≤ k) :
    oxo.FloatSane nanFloat (some k) (fun v => ∃ q : ℚ, v = some q ∧ 0 ≤ q) := by
  have hr := ratFloat_sane k hk
  constructor
  · exact ⟨_, rfl, hr.good_zero⟩
  · rintro v ⟨q, rfl, hq⟩
    exact ⟨_, rfl, hr.good_add_zero q hq⟩
  · rintro v ⟨q, rfl, hq⟩
    exact ⟨_, rfl, hr.good_add_half q hq⟩
  · rintro v ⟨q, rfl, hq⟩
    exact ⟨_, rfl, hr.good_add_one q hq⟩
  · rintro node child ⟨q, hv, hq⟩
    rw [nanFloat_score k node child q hv]
    exact hr.score_gt { node with value := 0 } { child with value := q } hq

theorem reachable_twoLeftBoard : oxo.Reachable twoLeftBoard := by
  have h0 : oxo.Reachable (play []) := oxo.Reachable.reset
  have h1 := reachable_play_append [] 0 h0 (by decide)
  have h2 := reachable_play_append _ 1 h1 (by decide)
  have h3 := reachable_play_append _ 2 h2 (by decide)
  have h4 := reachable_play_append _ 4 h3 (by decide)
  have h5 := reachable_play_append _ 3 h4 (by decide)
  have h6 := reachable_play_append _ 5 h5 (by decide)
  exact reachable_play_append _ 7 h6 (by decide)

theorem played_drawBoard : oxo.Played drawBoard := by
  have h0 : oxo.Played (play []) := oxo.Played.reset
  have h1 := played_play_append [] 0 h0 (by decide) (by decide)
  have h2 := played_play_append _ 1 h1 (by decide) (by decide)
  have h3 := played_play_append _ 2 h2 (by decide) (by decide)
  have h4 := played_play_append _ 4 h3 (by decide) (by decide)
  have h5 := played_play_append _ 3 h4 (by decide) (by decide)
  have h6 := played_play_append _ 5 h5 (by decide) (by decide)
  have h7 := played_play_append _ 7 h6 (by decide) (by decide)
  have h8 := played_play_append _ 6 h7 (by decide) (by decide)
  exact played_play_append _ 8 h8 (by decide) (by decide)

end Example

/-! ## The claims -/

namespace Claims

open MCTS Example

/-- C1 (evaluated at the failing input): on the empty tic-tac-toe board with
`max_iterations = 1` and `max_millis = 0`, one pass of the loop does not end `run`
(fuel for one pass is exhausted), and with two passes `run` returns with
`get_iterations() = 1` while the root has `visit_count = 2` and two children. -/
theorem run_budget_one_takes_two_cycles :
    (match run world0 ratFloat oracle0 (config 1) 1 oxo.reset 0 (some []) with
      | .error .out_of_fuel => true
      | _ => false) = true ∧
    (run world0 ratFloat oracle0 (config 1) 2 oxo.reset 0 (some [])).toOption.map
      (fun r => (r.iterations,
        r.final.nodes.head?.map (fun n => (n.num_visits, n.children.length)),
        r.final.explored_states.map List.length)) = some (1, some (2, 2), some 2) := by
  constructor
  · rfl
  · rfl

/-- C2: `get_most_visited_child` returns no node exactly when the node has no
children, and otherwise the child of smallest index among the children with the
maximum visit count.  When `run` returns, its result was computed right after the
last executed pass of the loop: `best_node` is `get_most_visited_child` of the root
of the tree as that pass left it, and if the root has a child the returned action
is the action recorded on that child.  Under the assumptions `Sane` and an
iteration budget, `run` does return. -/
theorem most_visited_child_is_returned {F S A G : Type}
    (W : World F S A G) (fl : FloatOps F) (o : Oracle A) (cfg : UCT F)
    (nodes : List (TreeNode F S A)) (id : Nat) (n : TreeNode F S A)
    (hn : nodes[id]? = some n)
    (hvalid : ∀ c ∈ n.children, ∃ cn, nodes[c]? = some cn)
    (fuel : Nat) (s0 : S) (rng : G) (ex : Option (List S)) (r : RunResult F S A G)
    (hrun : run W fl o cfg fuel s0 rng ex = .ok r) :
    (get_most_visited_child nodes (some id) = .ok none ↔ n.children = []) ∧
    (n.children ≠ [] → ∃ i c cn, n.children[i]? = some c ∧ nodes[c]? = some cn ∧
      get_most_visited_child nodes (some id) = .ok (some c) ∧
      (∀ (j d : Nat) (dn : TreeNode F S A), n.children[j]? = some d → nodes[d]? = some dn →
        dn.num_visits ≤ cn.num_visits) ∧
      (∀ (j d : Nat) (dn : TreeNode F S A), j < i → n.children[j]? = some d →
        nodes[d]? = some dn → dn.num_visits < cn.num_visits)) ∧
    (∃ e0, Built W fl o cfg s0 e0 ∧ cycle W fl o cfg e0 = .ok r.final) ∧
    get_most_visited_child r.final.nodes (some 0) = .ok r.best_node ∧
    (∀ root, r.final.nodes[0]? = some root → root.children ≠ [] →
      ∃ b bn, r.best_node = some b ∧ b ∈ root.children ∧ r.final.nodes[b]? = some bn ∧
        r.action = bn.action) ∧
    (∀ (P : S → Prop) (Good : F → Prop), Sane W fl o cfg.uct_k P Good → P s0 →
      cfg.max_millis = 0 → 0 < cfg.max_iterations → cfg.max_iterations < INT_MAX →
      ∃ r1, run W fl o cfg (cfg.max_iterations + 1) s0 rng ex = .ok r1) := by
  have hchar := get_most_visited_child_char nodes id n hn hvalid
  obtain ⟨⟨e0, hb0, hc0⟩, hg, _, hact, _⟩ := run_inv W fl o cfg fuel s0 rng ex r hrun
  refine ⟨?_, ?_, ⟨e0, hb0, hc0⟩, hg, ?_, ?_⟩
  · constructor
    · intro h
      rcases hchar with ⟨h0, _⟩ | ⟨_, c, _, _, _, h1, _⟩
      · exact h0
      · rw [h] at h1; cases h1
    · intro h
      rcases hchar with ⟨_, h1⟩ | ⟨i, c, _, hi, _⟩
      · exact h1
      · rw [h] at hi; simp at hi
  · intro hne
    rcases hchar with ⟨h0, _⟩ | h1
    · exact absurd h0 hne
    · exact h1
  · intro root hroot hne
    have hinv := built_treeInv W fl o cfg s0 _ (Built.cycle hb0 hc0)
    have hv : ∀ c ∈ root.children, ∃ cn, r.final.nodes[c]? = some cn := by
      intro c hcm
      obtain ⟨j, hj⟩ := List.mem_iff_getElem?.mp hcm
      obtain ⟨cn, _, hcn, _⟩ := hinv.child 0 root j c hroot hj
      exact ⟨cn, hcn⟩
    rcases get_most_visited_child_char r.final.nodes 0 root hroot hv with
      ⟨h0, _⟩ | ⟨i, c, cn, hi, hcn, h1, _⟩
    · exact absurd h0 hne
    · rw [hg] at h1
      have hbest : r.best_node = some c := Except.ok.inj h1
      obtain ⟨bn, hbn, hra⟩ := hact c hbest
      exact ⟨c, bn, hbest, List.mem_iff_getElem?.mpr ⟨i, hi⟩, hbn, hra⟩
  · intro P Good hs hP hmillis hN hmax
    obtain ⟨r1, hr1, _⟩ := run_total W fl o cfg P Good hs hmillis hN hmax s0 hP rng ex
      (cfg.max_iterations + 1) (le_refl _)
    exact ⟨r1, hr1⟩

/-- Witness for C2: the single-node tree of the empty board and a run with
`max_iterations = 1` on it. -/
theorem most_visited_child_is_returned_witness :
    ∃ r, run world0 ratFloat oracle0 (config 1) 2 oxo.reset 0 none = .ok r ∧
      get_most_visited_child r.final.nodes (some 0) = .ok r.best_node ∧
      (get_most_visited_child (start world0 ratFloat oxo.reset).nodes (some 0) = .ok none ↔
        (TreeNode.create world0 ratFloat oxo.reset none).children = []) := by
  obtain ⟨r, hr, _⟩ := run_total world0 ratFloat oracle0 (config 1) oxo.Reachable
    (fun v => 0 ≤ v)
    (oxo.world_sane ratFloat rand0 oracle0 _ _ (ratFloat_sane _ (config_k_nonneg 1))
      reverse_shuffle_perm)
    rfl (by decide) (by decide) oxo.reset oxo.Reachable.reset 0 none 2 (by decide)
  have h := most_visited_child_is_returned world0 ratFloat oracle0 (config 1)
    (start world0 ratFloat oxo.reset).nodes 0 (TreeNode.create world0 ratFloat oxo.reset none)
    rfl (by intro c hc; cases hc) 2 oxo.reset 0 none r hr
  exact ⟨r, hr, h.2.2.2.1, h.1⟩

/-- C3 (counterexample): `twoLeftBoard` is reachable and not terminal, and
`nanConfig2` has `max_iterations = 2`, `max_millis = 0` and the exploration
constant NaN.  The third pass of `run` finds the root fully expanded, no score
compares greater than `-FLT_MAX`, `get_best_uct_child` returns null and the
selection loop dereferences it: whatever the fuel beyond three passes, `run` ends
in `Err.null_deref` and returns no action.  And with `max_iterations = INT_MAX` on
the empty board (exact arithmetic), `run` never returns, whatever the fuel: the
`int` visit counter of the root would have to pass `INT_MAX`. -/
theorem oxo_run_counterexample :
    oxo.Reachable twoLeftBoard ∧ twoLeftBoard.is_terminal = false ∧
    1 ≤ nanConfig2.max_iterations ∧ nanConfig2.max_millis = 0 ∧
    (∀ fuel : Nat,
      (match run nanWorld nanFloat oracle0 nanConfig2 (fuel + 3) twoLeftBoard 0 none with
        | .error .null_deref => true
        | _ => false) = true) ∧
    (∀ fuel : Nat,
      (run world0 ratFloat oracle0 (config INT_MAX) fuel oxo.reset 0 none).toOption = none) := by
  refine ⟨reachable_twoLeftBoard, rfl, by decide, rfl, fun _ => rfl, ?_⟩
  intro fuel
  cases h : run world0 ratFloat oracle0 (config INT_MAX) fuel oxo.reset 0 none with
  | error err => rfl
  | ok r =>
    exfalso
    obtain ⟨_, h2, h3⟩ := run_ok_budget world0 ratFloat oracle0 (config INT_MAX) rfl fuel
      oxo.reset 0 none r h
    have h4 : (config INT_MAX).max_iterations = INT_MAX := rfl
    omega

/-- C3 (amended): let `s` be a tic-tac-toe state that is reachable from the initial
board by legal moves and not terminal, and let the shuffle permute.  Whenever
`run` returns on `s`, under any configuration, the action it returns is legal in
`s`: its tile is in `0..8` and that cell of the board is empty.  Without time
limit `run` returns only if `1 <= max_iterations < INT_MAX`; and under that
budget it does return, after `max_iterations` counted iterations, when the
arithmetic satisfies `FloatSane` (every score of a child compares greater than
`-FLT_MAX`, so no score is NaN). -/
theorem oxo_run_returns_legal_action {F : Type} (fl : FloatOps F) (rand : Nat → Nat)
    (o : Oracle oxo.Action)
    (hsh : ∀ (k : Nat) (l : List oxo.Action), (o.shuffle k l).Perm l)
    (s : oxo.State) (hreach : oxo.Reachable s) (hnt : s.is_terminal = false) :
    (∀ (cfg : UCT F) (g : Nat) (ex : Option (List oxo.State)) (fuel : Nat)
      (r : RunResult F oxo.State oxo.Action Nat),
      run (oxo.world fl rand) fl o cfg fuel s g ex = .ok r →
      0 ≤ r.action.tile ∧ r.action.tile ≤ 8 ∧
      oxo.cell s.board r.action.tile.toNat = oxo.kNone ∧
      r.action ∈ oxo.get_actions s) ∧
    (∀ (cfg : UCT F) (g : Nat) (ex : Option (List oxo.State)) (fuel : Nat)
      (r : RunResult F oxo.State oxo.Action Nat), cfg.max_millis = 0 →
      run (oxo.world fl rand) fl o cfg fuel s g ex = .ok r →
      1 ≤ cfg.max_iterations ∧ cfg.max_iterations < INT_MAX) ∧
    (∀ (cfg : UCT F) (Good : F → Prop), oxo.FloatSane fl cfg.uct_k Good →
      cfg.max_millis = 0 → 1 ≤ cfg.max_iterations → cfg.max_iterations < INT_MAX →
      ∀ (g : Nat) (ex : Option (List oxo.State)) (fuel : Nat),
        cfg.max_iterations + 1 ≤ fuel →
        ∃ r, run (oxo.world fl rand) fl o cfg fuel s g ex = .ok r ∧
          r.iterations = cfg.max_iterations) := by
  refine ⟨?_, ?_, ?_⟩
  · intro cfg g ex fuel r hr
    have hmem : r.action ∈ oxo.get_actions s :=
      run_action_legal (oxo.world fl rand) fl o cfg hsh s hnt g ex fuel r hr
    obtain ⟨h0, h8, _, hcell, _⟩ := oxo.mem_get_actions_range s r.action hmem
    exact ⟨h0, h8, hcell, hmem⟩
  · intro cfg g ex fuel r hmillis hr
    obtain ⟨h1, h2, h3⟩ := run_ok_budget (oxo.world fl rand) fl o cfg hmillis fuel s g ex r hr
    exact ⟨h1, by omega⟩
  · intro cfg Good hfl hmillis hN hmax g ex fuel hfuel
    have hs := oxo.world_sane fl rand o cfg.uct_k Good hfl hsh
    exact run_total (oxo.world fl rand) fl o cfg oxo.Reachable Good hs hmillis hN hmax s
      hreach g ex fuel hfuel

/-- Witness for C3 (amended): the empty board with `max_iterations = 1`, over the
arithmetic `nanFloat`, which has a NaN, with the exploration constant `1.5`: `run`
returns tile 8, a legal action. -/
theorem oxo_run_returns_legal_action_witness :
    oxo.Reachable oxo.reset ∧ oxo.reset.is_terminal = false ∧
    (run nanWorld nanFloat oracle0 (numConfig 1) 2 oxo.reset 0 none).toOption.map
      (fun r => r.action) = some (oxo.Action.mk 8) ∧
    ∃ r, run nanWorld nanFloat oracle0 (numConfig 1) 2 oxo.reset 0 none = .ok r ∧
      r.iterations = 1 ∧ 0 ≤ r.action.tile ∧ r.action.tile ≤ 8 ∧
      oxo.cell oxo.reset.board r.action.tile.toNat = oxo.kNone ∧
      r.action ∈ oxo.get_actions oxo.reset := by
  have h := oxo_run_returns_legal_action nanFloat rand0 oracle0 reverse_shuffle_perm
    oxo.reset oxo.Reachable.reset rfl
  obtain ⟨r, hr, hit⟩ := h.2.2 (numConfig 1) _ (nanFloat_sane (3 / 2) (by norm_num)) rfl
    (by decide) (by decide) 0 none 2 (by decide)
  have hl := h.1 (numConfig 1) 0 none 2 r hr
  exact ⟨oxo.Reachable.reset, rfl, rfl, r, hr, hit, hl⟩

/-- C5 (counterexample): `lastMoveBoard` is not terminal and has exactly one legal
action (tile 8), and `nanConfig` has `max_iterations = 1`, `max_millis = 0` and the
exploration constant NaN.  The second pass of `run` finds the root fully expanded
and dereferences the null child returned by `get_best_uct_child`: whatever the
fuel beyond two passes, `run` ends in `Err.null_deref` and does not return tile 8.
And with `max_iterations = INT_MAX` (exact arithmetic) `run` never returns on this
board, whatever the fuel. -/
theorem run_with_single_action_counterexample :
    lastMoveBoard.is_terminal = false ∧
    oxo.get_actions lastMoveBoard = [oxo.Action.mk 8] ∧
    1 ≤ nanConfig.max_iterations ∧ nanConfig.max_millis = 0 ∧
    (∀ fuel : Nat,
      (match run nanWorld nanFloat oracle0 nanConfig (fuel + 2) lastMoveBoard 0 none with
        | .error .null_deref => true
        | _ => false) = true) ∧
    (∀ fuel : Nat,
      (run world0 ratFloat oracle0 (config INT_MAX) fuel lastMoveBoard 0 none).toOption =
        none) := by
  refine ⟨rfl, by decide, by decide, rfl, fun _ => rfl, ?_⟩
  intro fuel
  cases h : run world0 ratFloat oracle0 (config INT_MAX) fuel lastMoveBoard 0 none with
  | error err => rfl
  | ok r =>
    exfalso
    obtain ⟨_, h2, h3⟩ := run_ok_budget world0 ratFloat oracle0 (config INT_MAX) rfl fuel
      lastMoveBoard 0 none r h
    have h4 : (config INT_MAX).max_iterations = INT_MAX := rfl
    omega

/-- C5 (amended): let `s0` be an initial state that is not terminal and has exactly
one legal action `a`, and let the shuffle permute.  Whenever `run` returns on
`s0`, under any configuration, it returns `a`.  Without time limit `run` returns
only if `1 <= max_iterations < INT_MAX`; and under that budget it does return
(and returns `a`) under the assumptions `Sane`, which ask that every score of a
child compares greater than `-FLT_MAX` (no score is NaN). -/
theorem run_with_single_action {F S A G : Type}
    (W : World F S A G) (fl : FloatOps F) (o : Oracle A)
    (hperm : ∀ (k : Nat) (l : List A), (o.shuffle k l).Perm l)
    (s0 : S) (hnt : W.is_terminal s0 = false) (a : A) (hone : W.get_actions s0 = [a]) :
    (∀ (cfg : UCT F) (rng : G) (ex : Option (List S)) (fuel : Nat) (r : RunResult F S A G),
      run W fl o cfg fuel s0 rng ex = .ok r → r.action = a) ∧
    (∀ (cfg : UCT F) (rng : G) (ex : Option (List S)) (fuel : Nat) (r : RunResult F S A G),
      cfg.max_millis = 0 → run W fl o cfg fuel s0 rng ex = .ok r →
      1 ≤ cfg.max_iterations ∧ cfg.max_iterations < INT_MAX) ∧
    (∀ (cfg : UCT F) (P : S → Prop) (Good : F → Prop), Sane W fl o cfg.uct_k P Good →
      P s0 → cfg.max_millis = 0 → 1 ≤ cfg.max_iterations → cfg.max_iterations < INT_MAX →
      ∀ (rng : G) (ex : Option (List S)) (fuel : Nat), cfg.max_iterations + 1 ≤ fuel →
        ∃ r, run W fl o cfg fuel s0 rng ex = .ok r ∧ r.action = a) := by
  have hpart : ∀ (cfg : UCT F) (rng : G) (ex : Option (List S)) (fuel : Nat)
      (r : RunResult F S A G), run W fl o cfg fuel s0 rng ex = .ok r → r.action = a := by
    intro cfg rng ex fuel r hr
    have hmem := run_action_legal W fl o cfg hperm s0 hnt rng ex fuel r hr
    rw [hone] at hmem
    simpa using hmem
  refine ⟨hpart, ?_, ?_⟩
  · intro cfg rng ex fuel r hmillis hr
    obtain ⟨h1, h2, h3⟩ := run_ok_budget W fl o cfg hmillis fuel s0 rng ex r hr
    exact ⟨h1, by omega⟩
  · intro cfg P Good hs hP hmillis hN hmax rng ex fuel hfuel
    obtain ⟨r, hr, _⟩ := run_total W fl o cfg P Good hs hmillis hN hmax s0 hP rng ex fuel hfuel
    exact ⟨r, hr, hpart cfg rng ex fuel r hr⟩

/-- Witness for C5 (amended): the board `lastMoveBoard`, whose only empty cell is
tile 8, with `max_iterations = 5`, over the arithmetic `nanFloat` with the
exploration constant `1.5`. -/
theorem run_with_single_action_witness :
    lastMoveBoard.is_terminal = false ∧
    oxo.get_actions lastMoveBoard = [oxo.Action.mk 8] ∧
    (∃ r, run nanWorld nanFloat oracle0 (numConfig 5) 6 lastMoveBoard 0 none = .ok r ∧
      r.action = oxo.Action.mk 8) ∧
    (∀ (cfg : UCT (Option ℚ)) (fuel : Nat) (r : RunResult (Option ℚ) oxo.State oxo.Action Nat),
      run nanWorld nanFloat oracle0 cfg fuel lastMoveBoard 0 none = .ok r →
      r.action = oxo.Action.mk 8) := by
  have h := run_with_single_action nanWorld nanFloat oracle0 reverse_shuffle_perm
    lastMoveBoard rfl (oxo.Action.mk 8) (by decide)
  refine ⟨rfl, by decide, ?_, fun cfg fuel r hr => h.1 cfg 0 none fuel r hr⟩
  exact h.2.2 (numConfig 5) oxo.Reachable (fun v => ∃ q : ℚ, v = some q ∧ 0 ≤ q)
    (oxo.world_sane nanFloat rand0 oracle0 _ _ (nanFloat_sane (3 / 2) (by norm_num))
      reverse_shuffle_perm)
    reachable_lastMoveBoard rfl (by decide) (by decide) 0 none 6 (by decide)

/-- C6: for a node `n` (stored at `id`) that is not fully expanded, whose state has
a legal action and whose child count does not exceed its action count (the data
model invariant), with a shuffle that permutes: `expand` (i) leaves a populated
action list unchanged and otherwise sets it to a permutation of the legal actions
of `n.state`, (ii) appends exactly one child, at the end of the arena and of
`n.children`, and returns it; the child has `action = actions[k]` for `k` the old
child count, state `n.state` with that action applied, `depth = n.depth + 1`,
`parent = n`, no visits and value `0`; (iii) nothing else changes: `n` keeps its
state, visits, value, depth and earlier children, and all other nodes are
untouched. -/
theorem expand_creates_one_child {F S A G : Type}
    (W : World F S A G) (fl : FloatOps F) (o : Oracle A)
    (nodes : List (TreeNode F S A)) (rd id : Nat) (n : TreeNode F S A)
    (hn : nodes[id]? = some n)
    (hfe : is_fully_expanded n = false)
    (hle : n.children.length ≤ n.actions.length)
    (hact : W.get_actions n.state ≠ [])
    (hperm : ∀ (k : Nat) (l : List A), (o.shuffle k l).Perm l) :
    ∃ acts a rd1,
      (n.actions = [] → acts.Perm (W.get_actions n.state)) ∧
      (n.actions ≠ [] → acts = n.actions) ∧
      acts[n.children.length]? = some a ∧
      expand W fl o nodes rd id =
        .ok (nodes.set id { n with actions := acts, children := n.children ++ [nodes.length] } ++
              [{ state := W.apply_action n.state a, action := a, parent := some id,
                 agent_id := W.agent_id n.state, num_visits := 0, value := fl.ofInt 0,
                 depth := n.depth + 1, children := [], actions := [] }],
             rd1, some nodes.length) :=
  expand_ok W fl o nodes rd id n hn hfe hle hact hperm

/-- Witness for C6: expanding the root of the empty board. -/
theorem expand_creates_one_child_witness :
    ∃ acts a rd1,
      ((TreeNode.create world0 ratFloat oxo.reset none).actions = [] →
        acts.Perm (world0.get_actions oxo.reset)) ∧
      ((TreeNode.create world0 ratFloat oxo.reset none).actions ≠ [] →
        acts = (TreeNode.create world0 ratFloat oxo.reset none).actions) ∧
      acts[0]? = some a ∧
      expand world0 ratFloat oracle0 [TreeNode.create world0 ratFloat oxo.reset none] 0 0 =
        .ok ([{ TreeNode.create world0 ratFloat oxo.reset none with
                  actions := acts, children := [1] },
              { state := world0.apply_action oxo.reset a, action := a, parent := some 0,
                agent_id := world0.agent_id oxo.reset, num_visits := 0,
                value := ratFloat.ofInt 0, depth := 1, children := [], actions := [] }],
             rd1, some 1) :=
  expand_creates_one_child world0 ratFloat oracle0
    [TreeNode.create world0 ratFloat oxo.reset none] 0 0
    (TreeNode.create world0 ratFloat oxo.reset none) rfl rfl (by decide) (by decide)
    reverse_shuffle_perm

/-- C7 (counterexample): after the first pass of the loop on the empty board, the
child at index 1 caches agent `0` (player 1, who made the move), while the agent to
move from the child's own state is `1`. -/
theorem cached_agent_counterexample :
    Built world0 ratFloat oracle0 (config 1) oxo.reset
      (firstPass world0 ratFloat oracle0 (config 1) oxo.reset) ∧
    ((firstPass world0 ratFloat oracle0 (config 1) oxo.reset).nodes[1]?).map
      (fun n => (n.agent_id, world0.agent_id n.state)) = some (0, 1) := by
  constructor
  · exact built_firstPass world0 ratFloat oracle0 (config 1) oxo.reset rfl
  · rfl

/-- C7 (amended): in every tree built by `run`, the root (the only node without a
parent) caches the agent to move from its own state, and every other node caches
the agent to move from its parent's state, that is the agent who made the move
leading to the node; `update` uses the cached agent as the index of the reward it
adds to the value. -/
theorem cached_agent_is_mover {F S A G : Type}
    (W : World F S A G) (fl : FloatOps F) (o : Oracle A) (cfg : UCT F) (s0 : S)
    (e : Engine F S A G) (hb : Built W fl o cfg s0 e)
    (i : Nat) (n : TreeNode F S A) (hn : e.nodes[i]? = some n) :
    (n.parent = none → i = 0 ∧ n.agent_id = W.agent_id n.state) ∧
    (∀ p, n.parent = some p →
      ∃ pn, e.nodes[p]? = some pn ∧ i ∈ pn.children ∧ n.agent_id = W.agent_id pn.state) ∧
    (∀ (rewards : List F) (n1 : TreeNode F S A), update fl n rewards = .ok n1 →
      ∃ r, rewards[n.agent_id.toNat]? = some r ∧ n1.value = fl.add n.value r ∧
        n1.num_visits = n.num_visits + 1) := by
  have hinv := built_treeInv W fl o cfg s0 e hb
  refine ⟨?_, ?_, ?_⟩
  · intro hp
    have hi := hinv.parent_none i n hn hp
    subst hi
    obtain ⟨r, hr, hag⟩ := built_root_agent W fl o cfg s0 e hb
    rw [hn] at hr; cases hr
    exact ⟨rfl, hag⟩
  · intro p hp
    obtain ⟨pn, hpn, hmem⟩ := hinv.parent_child i n p hn hp
    obtain ⟨j, hj⟩ := List.mem_iff_getElem?.mp hmem
    obtain ⟨cn, _, hcn, _, _, _, _, _, hag⟩ := hinv.child p pn j i hpn hj
    rw [hn] at hcn; cases hcn
    exact ⟨pn, hpn, hmem, hag⟩
  · intro rewards n1 hu
    obtain ⟨_, _, r, hr, hn1⟩ := update_ok_inv fl n n1 rewards hu
    exact ⟨r, hr, by rw [hn1], by rw [hn1]⟩

/-- Witness for C7 (amended): the child created by the first pass on the empty
board. -/
theorem cached_agent_is_mover_witness :
    ∃ n, (firstPass world0 ratFloat oracle0 (config 1) oxo.reset).nodes[1]? = some n ∧
      ∀ p, n.parent = some p →
        ∃ pn, (firstPass world0 ratFloat oracle0 (config 1) oxo.reset).nodes[p]? = some pn ∧
          1 ∈ pn.children ∧ n.agent_id = world0.agent_id pn.state :=
  ⟨_, rfl, (cached_agent_is_mover world0 ratFloat oracle0 (config 1) oxo.reset
    (firstPass world0 ratFloat oracle0 (config 1) oxo.reset)
    (built_firstPass world0 ratFloat oracle0 (config 1) oxo.reset rfl) 1 _ rfl).2.1⟩

/-- C8: in every pass of the loop of `run`, with `final` the state the simulation
ends in and `p` the active node: the parent chain of `p` ends in the root; every
node on it gets `visit_count + 1` and `value + rewards[its cached agent]` for
`rewards = evaluate(final)`; every node off the chain is unchanged.  Nodes that
existed before the pass enter back propagation with the statistics they had, a
node created in the pass is the active node and enters with no visits and value
`0`; hence no `visit_count` ever decreases. -/
theorem backpropagation_updates_exactly_the_path {F S A G : Type}
    (W : World F S A G) (fl : FloatOps F) (o : Oracle A) (cfg : UCT F) (s0 : S)
    (e e1 : Engine F S A G) (hb : Built W fl o cfg s0 e)
    (hc : cycle W fl o cfg e = .ok e1) :
    ∃ nodes1 rd1 p node final,
      select_expand W fl o cfg e = .ok (nodes1, rd1, some p) ∧ nodes1[p]? = some node ∧
      final = (if W.is_terminal node.state = false
        then simulate W cfg.simulation_depth node.state e.rng else (node.state, e.rng)).1 ∧
      OnPath nodes1 (some p) 0 ∧
      e1.nodes.length = nodes1.length ∧
      (∀ i, OnPath nodes1 (some p) i → ∃ n r, nodes1[i]? = some n ∧ 0 ≤ n.agent_id ∧
        (W.evaluate final)[n.agent_id.toNat]? = some r ∧
        e1.nodes[i]? = some { n with value := fl.add n.value r,
                                     num_visits := n.num_visits + 1 }) ∧
      (∀ i, ¬ OnPath nodes1 (some p) i → e1.nodes[i]? = nodes1[i]?) ∧
      (∀ (i : Nat) (n : TreeNode F S A), e.nodes[i]? = some n →
        ∃ m, nodes1[i]? = some m ∧ m.num_visits = n.num_visits ∧ m.value = n.value) ∧
      (∀ (i : Nat) (m : TreeNode F S A), nodes1[i]? = some m → e.nodes.length ≤ i →
        i = p ∧ m.num_visits = 0 ∧ m.value = fl.ofInt 0) ∧
      (∀ (i : Nat) (n : TreeNode F S A), e.nodes[i]? = some n →
        ∃ m, e1.nodes[i]? = some m ∧ n.num_visits ≤ m.num_visits) := by
  obtain ⟨nodes1, rd1, p, node, hse, hnode, hbp, _, _, _⟩ := cycle_inv W fl o cfg e e1 hc
  have hinv := built_treeInv W fl o cfg s0 e hb
  have hinv1 := treeInv_select_expand W fl o cfg e hinv nodes1 rd1 (some p) hse
  obtain ⟨hlen, hout, hin⟩ := backpropagate_spec fl _ _ nodes1 e1.nodes (some p)
    hinv1.parent_lt hbp
  refine ⟨nodes1, rd1, p, node, _, hse, hnode, rfl, onPath_root W nodes1 hinv1 p node hnode,
    hlen, ?_, hout, ?_, ?_, ?_⟩
  · intro i hi
    obtain ⟨n, r, h1, h2, _, h4, h5⟩ := hin i hi
    exact ⟨n, r, h1, h2, h4, h5⟩
  · intro i n hn
    obtain ⟨m, hm, _, hv, hval⟩ := select_expand_old W fl o cfg e nodes1 rd1 _ hse i n hn
    exact ⟨m, hm, hv, hval⟩
  · intro i m hm hi
    obtain ⟨h1, h2, h3⟩ := select_expand_new W fl o cfg e nodes1 rd1 _ hse i m hm hi
    exact ⟨(Option.some.inj h1).symm, h2, h3⟩
  · intro i n hn
    obtain ⟨m, hm, _, hle, _⟩ := cycle_old W fl o cfg e e1 hc i n hn
    exact ⟨m, hm, hle⟩

/-- Witness for C8: the first pass of the loop on the empty board. -/
theorem backpropagation_updates_exactly_the_path_witness :
    ∃ nodes1 p, OnPath nodes1 (some p) 0 ∧
      (firstPass world0 ratFloat oracle0 (config 1) oxo.reset).nodes.length = nodes1.length ∧
      ∀ i, ¬ OnPath nodes1 (some p) i →
        (firstPass world0 ratFloat oracle0 (config 1) oxo.reset).nodes[i]? = nodes1[i]? := by
  obtain ⟨nodes1, _, p, _, _, _, _, _, h1, h2, _, h3, _⟩ :=
    backpropagation_updates_exactly_the_path world0 ratFloat oracle0 (config 1) oxo.reset
      (start world0 ratFloat oxo.reset) (firstPass world0 ratFloat oracle0 (config 1) oxo.reset)
      (Built.init 0 none) (firstPass_spec world0 ratFloat oracle0 (config 1) oxo.reset rfl)
  exact ⟨nodes1, p, h1, h2, h3⟩

/-- C10: in every pass of the loop of `run`, with `node` the active node, the state
`final` that is evaluated (its rewards are back-propagated, and it is what is
appended to `explored_states`) is reached from `node.state` by `j` actions, each
drawn by `get_random_action` from the state it is applied to, where
`j <= simulation_depth` and the rollout stopped because `j = simulation_depth`, or
`final` is terminal, or `get_random_action` reported no action for `final`; if the
active node is terminal then `j = 0` and `final` is its own state; and every tree
node has the same state after the pass as before the simulation. -/
theorem simulation_is_a_bounded_rollout {F S A G : Type}
    (W : World F S A G) (fl : FloatOps F) (o : Oracle A) (cfg : UCT F)
    (e e1 : Engine F S A G) (hc : cycle W fl o cfg e = .ok e1) :
    ∃ nodes1 rd1 p node j final g1,
      select_expand W fl o cfg e = .ok (nodes1, rd1, some p) ∧ nodes1[p]? = some node ∧
      j ≤ cfg.simulation_depth ∧ Rollout W j node.state e.rng final g1 ∧
      ((j = cfg.simulation_depth ∧ e1.rng = g1) ∨
       (W.is_terminal final = true ∧ e1.rng = g1) ∨
       (W.is_terminal final = false ∧ W.get_random_action final g1 = (none, e1.rng))) ∧
      (W.is_terminal node.state = true → j = 0 ∧ final = node.state) ∧
      backpropagate fl (W.evaluate final) nodes1.length nodes1 (some p) = .ok e1.nodes ∧
      e1.explored_states = e.explored_states.map (fun v => v ++ [final]) ∧
      (∀ (i : Nat) (n : TreeNode F S A), nodes1[i]? = some n →
        ∃ m, e1.nodes[i]? = some m ∧ m.state = n.state) ∧
      (∀ (i : Nat) (n : TreeNode F S A), e.nodes[i]? = some n →
        ∃ m, e1.nodes[i]? = some m ∧ m.state = n.state) := by
  obtain ⟨nodes1, rd1, p, node, hse, hnode, hbp, _, hrng, hex⟩ := cycle_inv W fl o cfg e e1 hc
  have hstates1 : ∀ (i : Nat) (n : TreeNode F S A), nodes1[i]? = some n →
      ∃ m, e1.nodes[i]? = some m ∧ m.state = n.state := by
    intro i n hn
    obtain ⟨_, hfr⟩ := backpropagate_shape fl _ _ nodes1 e1.nodes (some p) hbp
    obtain ⟨m, hm, hs, _⟩ := hfr i n hn
    exact ⟨m, hm, hs.1⟩
  have hstates : ∀ (i : Nat) (n : TreeNode F S A), e.nodes[i]? = some n →
      ∃ m, e1.nodes[i]? = some m ∧ m.state = n.state := by
    intro i n hn
    obtain ⟨m, hm, hid, _⟩ := cycle_old W fl o cfg e e1 hc i n hn
    exact ⟨m, hm, hid.1⟩
  cases ht : W.is_terminal node.state with
  | true =>
    simp only [ht, Bool.true_eq_false, if_false] at hbp hrng hex
    exact ⟨nodes1, rd1, p, node, 0, node.state, e.rng, hse, hnode, Nat.zero_le _,
      Rollout.done _ _, Or.inr (Or.inl ⟨ht, hrng⟩), fun _ => ⟨rfl, rfl⟩, hbp, hex,
      hstates1, hstates⟩
  | false =>
    simp only [ht, if_true] at hbp hrng hex
    obtain ⟨j, g1, hj, hroll, hstop⟩ := simulate_spec W cfg.simulation_depth node.state e.rng
    refine ⟨nodes1, rd1, p, node, j, _, g1, hse, hnode, hj, hroll, ?_, ?_, hbp, hex,
      hstates1, hstates⟩
    · rw [hrng]; exact hstop
    · intro h; rw [ht] at h; exact Bool.noConfusion h

/-- Witness for C10: the first pass of the loop on the empty board. -/
theorem simulation_is_a_bounded_rollout_witness :
    ∃ (nodes1 : List (TreeNode ℚ oxo.State oxo.Action)) (p : Nat)
      (node : TreeNode ℚ oxo.State oxo.Action) (j : Nat) (final : oxo.State) (g1 : Nat),
      nodes1[p]? = some node ∧ j ≤ (config 1).simulation_depth ∧
      Rollout world0 j node.state (start world0 ratFloat oxo.reset).rng final g1 ∧
      (firstPass world0 ratFloat oracle0 (config 1) oxo.reset).explored_states =
        (start world0 ratFloat oxo.reset).explored_states.map (fun v => v ++ [final]) := by
  obtain ⟨nodes1, _, p, node, j, final, g1, _, h1, h2, h3, _, _, _, h4, _⟩ :=
    simulation_is_a_bounded_rollout world0 ratFloat oracle0 (config 1)
      (start world0 ratFloat oxo.reset) (firstPass world0 ratFloat oracle0 (config 1) oxo.reset)
      (firstPass_spec world0 ratFloat oracle0 (config 1) oxo.reset rfl)
  exact ⟨nodes1, p, node, j, final, g1, h1, h2, h3, h4⟩

/-- C12: in every tree built by `run` (at the start and after every pass of the
loop) every node has `children.size() <= actions.size()`; a node is fully expanded
only if its action list is populated; and for every node whose action list is
populated, `children.size() == actions.size()` holds if and only if
`is_fully_expanded()` is true. -/
theorem children_never_exceed_actions {F S A G : Type}
    (W : World F S A G) (fl : FloatOps F) (o : Oracle A) (cfg : UCT F) (s0 : S)
    (e : Engine F S A G) (hb : Built W fl o cfg s0 e)
    (i : Nat) (n : TreeNode F S A) (hn : e.nodes[i]? = some n) :
    n.children.length ≤ n.actions.length ∧
    (is_fully_expanded n = true → n.actions ≠ []) ∧
    (n.actions ≠ [] →
      (n.children.length = n.actions.length ↔ is_fully_expanded n = true)) := by
  have hinv := built_treeInv W fl o cfg s0 e hb
  have hle := hinv.children_le i n hn
  refine ⟨hle, ?_, ?_⟩
  · intro hfe h0
    obtain ⟨hne, hlen⟩ := (is_fully_expanded_true_iff n).mp hfe
    rw [h0] at hlen
    exact hne (List.length_eq_zero.mp (by simpa using hlen))
  · intro hne
    constructor
    · intro hlen
      refine (is_fully_expanded_true_iff n).mpr ⟨?_, hlen⟩
      intro h0
      rw [h0] at hlen
      exact hne (List.length_eq_zero.mp (by simpa using hlen.symm))
    · intro hfe
      exact ((is_fully_expanded_true_iff n).mp hfe).2

/-- Witness for C12: the root after the first pass on the empty board (one child,
nine actions). -/
theorem children_never_exceed_actions_witness :
    ∃ (n : TreeNode ℚ oxo.State oxo.Action),
      (firstPass world0 ratFloat oracle0 (config 1) oxo.reset).nodes[0]? = some n ∧
      n.children.length ≤ n.actions.length ∧
      (n.actions ≠ [] →
        (n.children.length = n.actions.length ↔ is_fully_expanded n = true)) := by
  have hb := built_firstPass world0 ratFloat oracle0 (config 1) oxo.reset rfl
  obtain ⟨n, hn, _, _⟩ := (built_treeInv _ _ _ _ _ _ hb).root
  have h := children_never_exceed_actions world0 ratFloat oracle0 (config 1) oxo.reset _ hb
    0 n hn
  exact ⟨n, hn, h.1, h.2.2⟩

/-- C13: in every tree built by `run`, and also in the middle of a pass right after
the expansion phase, every node whose state is terminal has an empty action list
and no children, and `is_fully_expanded()` is false for it; this holds for any
terminal state, whether or not it still has empty cells. -/
theorem terminal_nodes_are_never_expanded {F S A G : Type}
    (W : World F S A G) (fl : FloatOps F) (o : Oracle A) (cfg : UCT F) (s0 : S)
    (e : Engine F S A G) (hb : Built W fl o cfg s0 e)
    (i : Nat) (n : TreeNode F S A) (hn : e.nodes[i]? = some n)
    (ht : W.is_terminal n.state = true) :
    n.actions = [] ∧ n.children = [] ∧ is_fully_expanded n = false ∧
    (∀ (nodes1 : List (TreeNode F S A)) (rd1 : Nat) (q : Option Nat),
      select_expand W fl o cfg e = .ok (nodes1, rd1, q) →
      ∀ (j : Nat) (m : TreeNode F S A), nodes1[j]? = some m →
        W.is_terminal m.state = true →
        m.actions = [] ∧ m.children = [] ∧ is_fully_expanded m = false) := by
  have hinv := built_treeInv W fl o cfg s0 e hb
  have key : ∀ (nodes : List (TreeNode F S A)), TreeInv W nodes →
      ∀ (j : Nat) (m : TreeNode F S A), nodes[j]? = some m → W.is_terminal m.state = true →
      m.actions = [] ∧ m.children = [] ∧ is_fully_expanded m = false := by
    intro nodes hi j m hm htm
    have ha := hi.terminal_leaf j m hm htm
    have hc : m.children = [] := by
      have := hi.children_le j m hm
      rw [ha] at this
      exact List.length_eq_zero.mp (by simpa using this)
    exact ⟨ha, hc, by simp [is_fully_expanded, hc]⟩
  obtain ⟨h1, h2, h3⟩ := key e.nodes hinv i n hn ht
  refine ⟨h1, h2, h3, ?_⟩
  intro nodes1 rd1 q hse
  exact key nodes1 (treeInv_select_expand W fl o cfg e hinv nodes1 rd1 q hse)

/-- Witness for C13: the child created by the first pass on `nearWinBoard` holds a
won game with empty cells. -/
theorem terminal_nodes_are_never_expanded_witness :
    ∃ (n : TreeNode ℚ oxo.State oxo.Action),
      (firstPass world0 ratFloat oracle0 (config 1) nearWinBoard).nodes[1]? = some n ∧
      oxo.get_actions n.state ≠ [] ∧ world0.is_terminal n.state = true ∧
      n.actions = [] ∧ n.children = [] ∧ is_fully_expanded n = false := by
  have hb := built_firstPass world0 ratFloat oracle0 (config 1) nearWinBoard rfl
  have hshape : ((firstPass world0 ratFloat oracle0 (config 1) nearWinBoard).nodes[1]?).map
      (fun n => (world0.is_terminal n.state, (oxo.get_actions n.state).length)) =
      some (true, 4) := rfl
  cases hn : (firstPass world0 ratFloat oracle0 (config 1) nearWinBoard).nodes[1]? with
  | none => rw [hn] at hshape; cases hshape
  | some n =>
    rw [hn] at hshape
    simp at hshape
    have h := terminal_nodes_are_never_expanded world0 ratFloat oracle0 (config 1)
      nearWinBoard _ hb 1 n hn hshape.1
    refine ⟨n, rfl, ?_, hshape.1, h.1, h.2.1, h.2.2.1⟩
    intro h0
    rw [h0] at hshape
    simp at hshape

/-- C14 (evaluated at the failing input): two calls of `run` on the empty board with
`max_iterations = 1`, the same `seed` argument (1) and the same `rand()` sequence
started at the same point, in which `std::random_device` delivers different values
to the shuffle of `expand` (here: the reversing and the identity shuffle).  The
calls build different trees (the children of the root are made from tiles 8, 7 in
one and from tiles 0, 1 in the other) and return different actions (tile 8 and
tile 0); and the `seed` argument has no influence on the result at all. -/
theorem same_seed_runs_differ :
    (run_seeded world0 ratFloat oracle0 (config 1) 2 oxo.reset 1 0 none).toOption.map
      (fun r => (r.action, r.final.nodes.map (fun n => n.action))) =
      some (oxo.Action.mk 8, [oxo.Action.mk 0, oxo.Action.mk 8, oxo.Action.mk 7]) ∧
    (run_seeded world0 ratFloat oracle1 (config 1) 2 oxo.reset 1 0 none).toOption.map
      (fun r => (r.action, r.final.nodes.map (fun n => n.action))) =
      some (oxo.Action.mk 0, [oxo.Action.mk 0, oxo.Action.mk 0, oxo.Action.mk 1]) ∧
    (∀ (o : Oracle oxo.Action) (cfg : UCT ℚ) (fuel seed1 seed2 rng : Nat) (s : oxo.State),
      run_seeded world0 ratFloat o cfg fuel s seed1 rng none =
        run_seeded world0 ratFloat o cfg fuel s seed2 rng none) := by
  refine ⟨?_, ?_, ?_⟩
  · rfl
  · rfl
  · intro o cfg fuel seed1 seed2 rng s
    rfl

/-- C15: for every tic-tac-toe state `s` reachable from the initial board by legal
moves and every action `a` returned by `get_actions` of `s`, in the state reached
by applying `a` the action `a` is no longer returned by `get_actions`, every other
action that was legal is still returned (and nothing else is), and the number of
legal actions has decreased by exactly one. -/
theorem applied_action_is_consumed (s : oxo.State) (a : oxo.Action)
    (hs : oxo.Reachable s) (ha : a ∈ oxo.get_actions s) :
    a ∉ oxo.get_actions (oxo.apply_action s a) ∧
    (∀ b : oxo.Action, b ∈ oxo.get_actions s → b ≠ a →
      b ∈ oxo.get_actions (oxo.apply_action s a)) ∧
    (∀ b : oxo.Action, b ∈ oxo.get_actions (oxo.apply_action s a) → b ∈ oxo.get_actions s) ∧
    (oxo.get_actions (oxo.apply_action s a)).length + 1 = (oxo.get_actions s).length := by
  obtain ⟨_, _, ht, hcell, hai⟩ := oxo.mem_get_actions_range s a ha
  have h := oxo.get_actions_apply s (oxo.reachable_length s hs) (oxo.reachable_turn s hs)
    a.tile.toNat ht hcell
  rw [← hai] at h
  refine ⟨?_, ?_, ?_, h.2⟩
  · intro hmem
    exact ((h.1 a).mp hmem).2 rfl
  · intro b hb hne
    exact (h.1 b).mpr ⟨hb, hne⟩
  · intro b hb
    exact ((h.1 b).mp hb).1

/-- Witness for C15: the centre move on the empty board. -/
theorem applied_action_is_consumed_witness :
    oxo.Reachable oxo.reset ∧ oxo.Action.mk 4 ∈ oxo.get_actions oxo.reset ∧
    oxo.Action.mk 4 ∉ oxo.get_actions (oxo.apply_action oxo.reset (oxo.Action.mk 4)) ∧
    (oxo.get_actions (oxo.apply_action oxo.reset (oxo.Action.mk 4))).length + 1 =
      (oxo.get_actions oxo.reset).length :=
  have h := applied_action_is_consumed oxo.reset (oxo.Action.mk 4) oxo.Reachable.reset
    (by decide)
  ⟨oxo.Reachable.reset, by decide, h.1, h.2.2.2⟩

/-- C16: for every tic-tac-toe state reached from `reset()` by applying legal
actions to states that are not terminal, `is_terminal` is true if and only if some
row, column or diagonal holds three marks of one player (`three_in_line`, stated
on the 3x3 grid and not through the table of the code) or no cell is empty; when a
player's line is complete, the recorded winner is that player, who is the one
that made the last move (the one not to move); and when the board is full without
a complete line the winner is `kNone`. -/
theorem terminal_iff_line_or_full (s : oxo.State) (h : oxo.Played s) :
    (s.is_terminal = true ↔
      ((∃ p, (p = oxo.kPlayer1 ∨ p = oxo.kPlayer2) ∧ oxo.three_in_line s.board p) ∨
        oxo.is_full s.board)) ∧
    (∀ p, (p = oxo.kPlayer1 ∨ p = oxo.kPlayer2) → oxo.three_in_line s.board p →
      s.winner = p ∧ p = 1 - s.player_turn) ∧
    (oxo.is_full s.board →
      (∀ p, (p = oxo.kPlayer1 ∨ p = oxo.kPlayer2) → ¬ oxo.three_in_line s.board p) →
      s.winner = oxo.kNone) := by
  have hinv := oxo.played_inv s h
  have hr := oxo.played_reachable s h
  have hgt : ∀ p, (p = oxo.kPlayer1 ∨ p = oxo.kPlayer2) → oxo.kNone < p := by
    rintro p (rfl | rfl) <;> decide
  have hline : oxo.has_line s.board ↔
      ∃ p, (p = oxo.kPlayer1 ∨ p = oxo.kPlayer2) ∧ oxo.three_in_line s.board p := by
    rw [oxo.has_line_iff]
    constructor
    · rintro ⟨p, hp, hl⟩
      exact ⟨p, oxo.three_in_line_player s hr p hp hl, hl⟩
    · rintro ⟨p, hp, hl⟩
      exact ⟨p, hgt p hp, hl⟩
  have hnoline : s.is_terminal = false → ¬ oxo.has_line s.board := by
    rintro ht ⟨c, hc, hw⟩
    rw [(hinv.1 ht).1 c hc] at hw
    exact Bool.noConfusion hw
  refine ⟨⟨?_, ?_⟩, ?_, ?_⟩
  · intro ht
    rcases (hinv.2 ht).1 with hl | hga
    · exact Or.inl (hline.mp hl)
    · exact Or.inr ((oxo.get_actions_nil_iff s).mp hga)
  · intro hor
    cases ht : s.is_terminal with
    | true => rfl
    | false =>
      exfalso
      rcases hor with hl | hfull
      · exact hnoline ht (hline.mpr hl)
      · exact oxo.reachable_has_action s hr ht ((oxo.get_actions_nil_iff s).mpr hfull)
  · intro p hp hl
    obtain ⟨c, hc, hw⟩ := hline.mpr ⟨p, hp, hl⟩
    have ht : s.is_terminal = true := by
      cases ht : s.is_terminal with
      | true => rfl
      | false => exact absurd ⟨c, hc, hw⟩ (hnoline ht)
    obtain ⟨h1, h2⟩ := (hinv.2 ht).2.1 c hc hw
    have hwp : s.winner = p := by
      obtain ⟨c2, hc2, hw2, hcp⟩ := oxo.three_in_line_win s.board p (hgt p hp) hl
      rw [((hinv.2 ht).2.1 c2 hc2 hw2).1, hcp]
    exact ⟨hwp, by rw [← hwp]; exact h2⟩
  · intro hfull hnl
    have hno : ∀ c ∈ oxo.win_combo, oxo.is_win s.board c = false := by
      intro c hc
      cases hw : oxo.is_win s.board c with
      | false => rfl
      | true =>
        obtain ⟨p, hp, hl⟩ := hline.mp ⟨c, hc, hw⟩
        exact absurd hl (hnl p hp)
    cases ht : s.is_terminal with
    | true => exact (hinv.2 ht).2.2 hno
    | false => exact (hinv.1 ht).2

/-- Witness for C16: in the finished game `wonBoard` player 1 completed the top row
with the last move, so the game is terminal with winner `kPlayer1`, who is not to
move; the drawn game `drawBoard` is full without a line, terminal, with winner
`kNone`. -/
theorem terminal_iff_line_or_full_witness :
    oxo.Played wonBoard ∧ wonBoard.board = [0, 0, 0, 1, 1, -1, -1, -1, -1] ∧
    oxo.three_in_line wonBoard.board oxo.kPlayer1 ∧
    wonBoard.is_terminal = true ∧ wonBoard.winner = oxo.kPlayer1 ∧
    wonBoard.player_turn = oxo.kPlayer2 ∧
    oxo.Played drawBoard ∧ drawBoard.board = [0, 1, 0, 0, 1, 1, 1, 0, 0] ∧
    oxo.is_full drawBoard.board ∧ drawBoard.is_terminal = true ∧
    drawBoard.winner = oxo.kNone := by
  have hw := terminal_iff_line_or_full wonBoard played_wonBoard
  have hd := terminal_iff_line_or_full drawBoard played_drawBoard
  have hrow : oxo.three_in_line wonBoard.board oxo.kPlayer1 :=
    Or.inl ⟨0, by decide, by decide⟩
  have hfull : oxo.is_full drawBoard.board := by
    intro i hi
    interval_cases i <;> decide
  have hnl : ∀ p, (p = oxo.kPlayer1 ∨ p = oxo.kPlayer2) →
      ¬ oxo.three_in_line drawBoard.board p := by
    rintro p (rfl | rfl)
    · unfold oxo.three_in_line; decide
    · unfold oxo.three_in_line; decide
  have hwin := hw.2.1 oxo.kPlayer1 (Or.inl rfl) hrow
  refine ⟨played_wonBoard, by decide, hrow, hw.1.mpr (Or.inl ⟨_, Or.inl rfl, hrow⟩), hwin.1,
    ?_, played_drawBoard, by decide, hfull, hd.1.mpr (Or.inr hfull), hd.2.2 hfull hnl⟩
  have h2 := hwin.2
  have : wonBoard.player_turn = 1 - oxo.kPlayer1 := by omega
  rw [this]; rfl

/-- C17 (counterexample): `fullOpenBoard` is not flagged terminal
and has no legal action.  The first pass of `run` selects the root, which is not
fully expanded and not terminal, and calls `expand` on it; `expand` reads
`actions[0]` of the empty action list, which is undefined behaviour
(`Err.out_of_bounds`), so `run` fails, whatever the fuel, instead of leaving the
node unexpanded; `get_random_action` of the same state reports that there is no
action. -/
theorem expand_without_legal_action_fails :
    fullOpenBoard.is_terminal = false ∧ oxo.get_actions fullOpenBoard = [] ∧
    (match expand world0 ratFloat oracle0 (start world0 ratFloat fullOpenBoard).nodes 0 0 with
      | .error .out_of_bounds => true
      | _ => false) = true ∧
    (∀ fuel : Nat,
      (match run world0 ratFloat oracle0 (config 1) (fuel + 1) fullOpenBoard 0 none with
        | .error .out_of_bounds => true
        | _ => false) = true) ∧
    oxo.get_random_action rand0 fullOpenBoard 0 = (none, 0) := by
  refine ⟨rfl, by decide, rfl, fun _ => rfl, by decide⟩

/-- C17 (amended): in a tree built by `run` (with a shuffle that permutes), let `n`
be a node whose state is not flagged terminal but has zero legal actions.  Its
action list and its children are empty and it is not fully expanded, so selection
never descends past it (the selection loop started at `n` stops at `n`).  The
engine has no guard for such a node: `expand` called on it reads `actions[0]` of
the empty action list, which is undefined behaviour (`Err.out_of_bounds`), and
every pass of the loop whose selection reaches `n` ends in that error instead of
completing; so no child of `n` is ever created. -/
theorem zero_action_node_is_never_expanded {F S A G : Type}
    (W : World F S A G) (fl : FloatOps F) (o : Oracle A) (cfg : UCT F) (s0 : S)
    (hperm : ∀ (k : Nat) (l : List A), (o.shuffle k l).Perm l)
    (e : Engine F S A G) (hb : Built W fl o cfg s0 e)
    (id : Nat) (n : TreeNode F S A) (hn : e.nodes[id]? = some n)
    (hnt : W.is_terminal n.state = false) (h0 : W.get_actions n.state = []) :
    n.actions = [] ∧ n.children = [] ∧ is_fully_expanded n = false ∧
    (∀ fuel : Nat, select W fl e.nodes cfg.uct_k (fuel + 1) (some id) = .ok (some id)) ∧
    expand W fl o e.nodes e.rd id = .error .out_of_bounds ∧
    (select W fl e.nodes cfg.uct_k e.nodes.length (some 0) = .ok (some id) →
      select_expand W fl o cfg e = .error .out_of_bounds ∧
      cycle W fl o cfg e = .error .out_of_bounds) := by
  have hinv := built_treeInv W fl o cfg s0 e hb
  have hleg := built_legal W fl o cfg (fun _ => True) hperm (fun _ _ _ _ _ => trivial) s0
    trivial e hb
  have hact : n.actions = [] := by
    rcases hleg.acts id n hn with h | h
    · exact h
    · rw [h0] at h; exact List.Perm.eq_nil h
  have hch : n.children = [] := by
    have := hinv.children_le id n hn
    rw [hact] at this
    exact List.length_eq_zero.mp (by simpa using this)
  have hfe : is_fully_expanded n = false := by simp [is_fully_expanded, hch]
  have hd : deref e.nodes (some id) = .ok n := (deref_ok_iff _ _ _).mpr ⟨id, rfl, hn⟩
  have hex := expand_no_action W fl o hperm e.nodes e.rd id n hn hact hch h0
  refine ⟨hact, hch, hfe, ?_, hex, ?_⟩
  · intro fuel
    simp [select, hd, hfe]
  · intro hsel
    have hse : select_expand W fl o cfg e = .error .out_of_bounds := by
      unfold select_expand
      simp [hsel, hd, hfe, TreeNode.is_terminal, hnt, hex]
    refine ⟨hse, ?_⟩
    unfold cycle
    simp [hse]

/-- Witness for C17 (amended): the root of the tree in which `run` starts on
`fullOpenBoard`, a full board without a line whose terminal flag is not set. -/
theorem zero_action_node_is_never_expanded_witness :
    fullOpenBoard.is_terminal = false ∧ oxo.get_actions fullOpenBoard = [] ∧
    expand world0 ratFloat oracle0 (start world0 ratFloat fullOpenBoard).nodes
      (start world0 ratFloat fullOpenBoard).rd 0 = .error .out_of_bounds ∧
    cycle world0 ratFloat oracle0 (config 1) (start world0 ratFloat fullOpenBoard) =
      .error .out_of_bounds := by
  have h := zero_action_node_is_never_expanded world0 ratFloat oracle0 (config 1) fullOpenBoard
    reverse_shuffle_perm (start world0 ratFloat fullOpenBoard) (Built.init 0 none) 0
    (TreeNode.create world0 ratFloat fullOpenBoard none) rfl rfl (by decide)
  exact ⟨rfl, by decide, h.2.2.2.2.1, (h.2.2.2.2.2 (h.2.2.2.1 0)).2⟩

/-- C18: let a tree be built by `run` started on a tic-tac-toe state reachable from
the initial board by legal moves (with a shuffle that permutes).  `run` calls
`expand` only on a node that is not fully expanded and not terminal.  Every such
node `n` of the tree has a state with at least one legal action and fewer children
than legal actions; `expand` on it reads `actions[children.size()]` in bounds and
returns a pointer that is not null, to a node of the new arena, so `get_state()`
on it is defined; and the expansion phase of the pass, hence the call of `expand`
it makes, does not fail. -/
theorem expand_is_called_in_bounds {F : Type} (fl : FloatOps F) (rand : Nat → Nat)
    (o : Oracle oxo.Action) (cfg : UCT F)
    (hperm : ∀ (k : Nat) (l : List oxo.Action), (o.shuffle k l).Perm l)
    (s0 : oxo.State) (hs0 : oxo.Reachable s0) (e : Engine F oxo.State oxo.Action Nat)
    (hb : Built (oxo.world fl rand) fl o cfg s0 e)
    (id : Nat) (n : TreeNode F oxo.State oxo.Action) (hn : e.nodes[id]? = some n)
    (hfe : is_fully_expanded n = false) (hnt : n.state.is_terminal = false) :
    oxo.get_actions n.state ≠ [] ∧
    n.children.length < (oxo.get_actions n.state).length ∧
    ∃ (nodes1 : List (TreeNode F oxo.State oxo.Action)) (rd1 c : Nat)
      (cn m : TreeNode F oxo.State oxo.Action) (a : oxo.Action),
      expand (oxo.world fl rand) fl o e.nodes e.rd id = .ok (nodes1, rd1, some c) ∧
      nodes1[id]? = some m ∧ m.actions[n.children.length]? = some a ∧
      deref nodes1 (some c) = .ok cn ∧ cn.state = oxo.apply_action n.state a := by
  have hinv := built_treeInv (oxo.world fl rand) fl o cfg s0 e hb
  have hleg := oxo.built_reachable fl rand o cfg hperm s0 hs0 e hb
  have hr : oxo.Reachable n.state := hleg.state id n hn
  have hact : oxo.get_actions n.state ≠ [] := oxo.reachable_has_action n.state hr hnt
  have hle := hinv.children_le id n hn
  have hpos : 0 < (oxo.get_actions n.state).length := List.length_pos.mpr hact
  refine ⟨hact, ?_, ?_⟩
  · rcases hleg.acts id n hn with h0 | hp
    · rw [h0] at hle
      simp only [List.length_nil, Nat.le_zero_eq] at hle
      rw [hle]; exact hpos
    · have hlen : n.actions.length = (oxo.get_actions n.state).length := hp.length_eq
      rcases (is_fully_expanded_false_iff n).mp hfe with hc | hc
      · rw [hc]; exact hpos
      · have : n.children.length ≠ (oxo.get_actions n.state).length := by rw [← hlen]; exact hc
        have hle2 : n.children.length ≤ (oxo.get_actions n.state).length := by
          rw [← hlen]; exact hle
        omega
  · obtain ⟨acts, a, rd1, _, _, hidx, hex⟩ :=
      expand_ok (oxo.world fl rand) fl o e.nodes e.rd id n hn hfe hle hact hperm
    have hid : id < e.nodes.length := (List.getElem?_eq_some.mp hn).1
    have hm : (e.nodes.set id { n with actions := acts,
                                        children := n.children ++ [e.nodes.length] } ++
        [{ state := oxo.apply_action n.state a, action := a, parent := some id,
           agent_id := n.state.player_turn, num_visits := 0, value := fl.ofInt 0,
           depth := n.depth + 1, children := [], actions := [] }])[id]? =
        some { n with actions := acts, children := n.children ++ [e.nodes.length] } := by
      rw [List.getElem?_append_left (by simpa using hid)]
      simp [List.getElem?_set, hid]
    have hc : deref (e.nodes.set id { n with actions := acts,
                                             children := n.children ++ [e.nodes.length] } ++
        [{ state := oxo.apply_action n.state a, action := a, parent := some id,
           agent_id := n.state.player_turn, num_visits := 0, value := fl.ofInt 0,
           depth := n.depth + 1, children := [], actions := [] }]) (some e.nodes.length) =
        .ok { state := oxo.apply_action n.state a, action := a, parent := some id,
              agent_id := n.state.player_turn, num_visits := 0, value := fl.ofInt 0,
              depth := n.depth + 1, children := [], actions := [] } := by
      unfold deref
      simp
    exact ⟨_, rd1, e.nodes.length, _, _, a, hex, hm, hidx, hc, rfl⟩

/-- Witness for C18: the root after the first pass on the empty board has one child
and nine actions; the next call of `expand` on it returns a second child. -/
theorem expand_is_called_in_bounds_witness :
    ∃ (n : TreeNode ℚ oxo.State oxo.Action),
      (firstPass world0 ratFloat oracle0 (config 1) oxo.reset).nodes[0]? = some n ∧
      is_fully_expanded n = false ∧ n.state.is_terminal = false ∧
      oxo.get_actions n.state ≠ [] ∧
      n.children.length < (oxo.get_actions n.state).length := by
  have hb := built_firstPass world0 ratFloat oracle0 (config 1) oxo.reset rfl
  have hshape : ((firstPass world0 ratFloat oracle0 (config 1) oxo.reset).nodes[0]?).map
      (fun n => (is_fully_expanded n, n.state.is_terminal)) = some (false, false) := rfl
  cases hn : (firstPass world0 ratFloat oracle0 (config 1) oxo.reset).nodes[0]? with
  | none => rw [hn] at hshape; cases hshape
  | some n =>
    rw [hn] at hshape
    simp at hshape
    have h := expand_is_called_in_bounds ratFloat rand0 oracle0 (config 1) reverse_shuffle_perm
      oxo.reset oxo.Reachable.reset _ hb 0 n hn hshape.1 hshape.2
    exact ⟨n, rfl, hshape.1, hshape.2, h.1, h.2.1⟩

/-- C19: let `s` be a tic-tac-toe state reachable from the initial board by legal
moves.  The number of legal actions of `s` is its number of empty cells and is at
most 9.  Every sequence of `j` moves from `s`, each drawn from `get_actions` of the
current state, which is not terminal, has `j` at most the number of empty cells of
`s`; while the state it has reached is not terminal, `j` is smaller than that
number and a further move exists; after as many moves as `s` has empty cells the
state is terminal.  Hence, when `simulation_depth >= 9`, in every pass of the loop
of `run` started on `s` the state `final` that is evaluated (and whose rewards are
back-propagated) is terminal, and, for arithmetic in which `0.5 + 0.5`, `1 + 0` and
`0 + 1` are `1`, its two rewards sum to 1. -/
theorem simulations_end_in_terminal_states {F : Type} (fl : FloatOps F) (rand : Nat → Nat)
    (o : Oracle oxo.Action) (cfg : UCT F)
    (hperm : ∀ (k : Nat) (l : List oxo.Action), (o.shuffle k l).Perm l)
    (hhalf : fl.add fl.half fl.half = fl.ofInt 1)
    (h10 : fl.add (fl.ofInt 1) (fl.ofInt 0) = fl.ofInt 1)
    (h01 : fl.add (fl.ofInt 0) (fl.ofInt 1) = fl.ofInt 1)
    (s : oxo.State) (hs : oxo.Reachable s) :
    (oxo.get_actions s).length =
      (List.range 9).countP (fun i => decide (oxo.cell s.board i = oxo.kNone)) ∧
    (oxo.get_actions s).length ≤ 9 ∧
    (∀ (j : Nat) (s1 : oxo.State), oxo.Moves j s s1 →
      j ≤ (oxo.get_actions s).length ∧
      (s1.is_terminal = false → j < (oxo.get_actions s).length ∧ oxo.get_actions s1 ≠ []) ∧
      (j = (oxo.get_actions s).length → s1.is_terminal = true)) ∧
    (9 ≤ cfg.simulation_depth →
      ∀ (e e1 : Engine F oxo.State oxo.Action Nat),
        Built (oxo.world fl rand) fl o cfg s e → cycle (oxo.world fl rand) fl o cfg e = .ok e1 →
        ∃ (nodes1 : List (TreeNode F oxo.State oxo.Action)) (rd1 p : Nat)
          (node : TreeNode F oxo.State oxo.Action) (final : oxo.State) (r0 r1 : F),
          select_expand (oxo.world fl rand) fl o cfg e = .ok (nodes1, rd1, some p) ∧
          nodes1[p]? = some node ∧
          final = (if node.state.is_terminal = false
            then simulate (oxo.world fl rand) cfg.simulation_depth node.state e.rng
            else (node.state, e.rng)).1 ∧
          backpropagate fl (oxo.evaluate fl final) nodes1.length nodes1 (some p) = .ok e1.nodes ∧
          e1.explored_states = e.explored_states.map (fun v => v ++ [final]) ∧
          final.is_terminal = true ∧
          oxo.evaluate fl final = [r0, r1] ∧ fl.add r0 r1 = fl.ofInt 1) := by
  refine ⟨?_, oxo.get_actions_length_le s, ?_, ?_⟩
  · unfold oxo.get_actions
    rw [List.length_map, List.countP_eq_length_filter]
  · intro j s1 hm
    obtain ⟨hr1, hlen⟩ := oxo.moves_bound j s s1 hm hs
    refine ⟨by omega, ?_, ?_⟩
    · intro hnt
      have hne := oxo.reachable_has_action s1 hr1 hnt
      have hpos : 0 < (oxo.get_actions s1).length := List.length_pos.mpr hne
      exact ⟨by omega, hne⟩
    · intro hj
      apply oxo.reachable_terminal_of_no_action s1 hr1
      apply List.length_eq_zero.mp
      omega
  · intro hdepth e e1 hb hc
    obtain ⟨nodes1, rd1, p, node, hse, hnode, hbp, _, _, hex⟩ :=
      cycle_inv (oxo.world fl rand) fl o cfg e e1 hc
    have hleg := oxo.built_reachable fl rand o cfg hperm s hs e hb
    have hleg1 := legal_select_expand (oxo.world fl rand) fl o cfg oxo.Reachable hperm
      (fun _ _ h _ ha => oxo.Reachable.step h ha) e hleg nodes1 rd1 (some p) hse
    have hrn : oxo.Reachable node.state := hleg1.state p node hnode
    have hfin : oxo.Reachable (if node.state.is_terminal = false
          then simulate (oxo.world fl rand) cfg.simulation_depth node.state e.rng
          else (node.state, e.rng)).1 ∧
        (if node.state.is_terminal = false
          then simulate (oxo.world fl rand) cfg.simulation_depth node.state e.rng
          else (node.state, e.rng)).1.is_terminal = true := by
      cases ht : node.state.is_terminal with
      | true => simpa [ht] using hrn
      | false =>
        simp only [if_true]
        exact oxo.simulate_terminal fl rand _ node.state e.rng hrn hdepth
    have hw := oxo.reachable_winner _ hfin.1 hfin.2
    rcases oxo.evaluate_terminal fl _ hfin.2 hw with hev | hev | hev
    · exact ⟨nodes1, rd1, p, node, _, fl.half, fl.half, hse, hnode, rfl, hbp, hex, hfin.2,
        hev, hhalf⟩
    · exact ⟨nodes1, rd1, p, node, _, fl.ofInt 1, fl.ofInt 0, hse, hnode, rfl, hbp, hex,
        hfin.2, hev, h10⟩
    · exact ⟨nodes1, rd1, p, node, _, fl.ofInt 0, fl.ofInt 1, hse, hnode, rfl, hbp, hex,
        hfin.2, hev, h01⟩

/-- Witness for C19: the first pass of the loop on the empty board with the default
depth 10 and exact rational arithmetic. -/
theorem simulations_end_in_terminal_states_witness :
    oxo.Reachable oxo.reset ∧ 9 ≤ (config 1).simulation_depth ∧
    (oxo.get_actions oxo.reset).length ≤ 9 ∧
    ∃ (final : oxo.State) (r0 r1 : ℚ),
      (firstPass world0 ratFloat oracle0 (config 1) oxo.reset).explored_states =
        (start world0 ratFloat oxo.reset).explored_states.map (fun v => v ++ [final]) ∧
      final.is_terminal = true ∧
      oxo.evaluate ratFloat final = [r0, r1] ∧ ratFloat.add r0 r1 = ratFloat.ofInt 1 := by
  have h := simulations_end_in_terminal_states ratFloat rand0 oracle0 (config 1)
    reverse_shuffle_perm (by show (1 / 2 : ℚ) + 1 / 2 = ((1 : Int) : ℚ); norm_num)
    (by show (((1 : Int) : ℚ)) + ((0 : Int) : ℚ) = ((1 : Int) : ℚ); norm_num)
    (by show (((0 : Int) : ℚ)) + ((1 : Int) : ℚ) = ((1 : Int) : ℚ); norm_num)
    oxo.reset oxo.Reachable.reset
  obtain ⟨_, _, _, _, final, r0, r1, _, _, _, _, h5, h6, h7, h8⟩ := h.2.2.2 (by decide)
    (start world0 ratFloat oxo.reset) (firstPass world0 ratFloat oracle0 (config 1) oxo.reset)
    (Built.init 0 none) (firstPass_spec world0 ratFloat oracle0 (config 1) oxo.reset rfl)
  exact ⟨oxo.Reachable.reset, by decide, h.2.1, final, r0, r1, h5, h6, h7, h8⟩

/-- C20: after every completed pass of the loop of `run`, every node has
`num_visits >= 1`; every node other than the root whose state is not terminal has
`num_visits = 1 + (sum of its children's num_visits)`; a root whose state is not
terminal has `num_visits = (sum of its children's num_visits)`; the number of
children of any node is at most its `num_visits`; and every child pointer refers
to a node of the tree, whose `num_visits` is the term it contributes to the sum. -/
theorem visits_are_conserved {F S A G : Type}
    (W : World F S A G) (fl : FloatOps F) (o : Oracle A) (cfg : UCT F) (s0 : S)
    (e e1 : Engine F S A G) (hb : Built W fl o cfg s0 e) (hc : cycle W fl o cfg e = .ok e1)
    (i : Nat) (n : TreeNode F S A) (hn : e1.nodes[i]? = some n) :
    1 ≤ n.num_visits ∧
    (i ≠ 0 → W.is_terminal n.state = false → n.num_visits = 1 + child_visits e1.nodes n) ∧
    (i = 0 → W.is_terminal n.state = false → n.num_visits = child_visits e1.nodes n) ∧
    n.children.length ≤ n.num_visits ∧
    (∀ c ∈ n.children, ∃ cn, e1.nodes[c]? = some cn ∧ visits_at e1.nodes c = cn.num_visits) := by
  have hb1 : Built W fl o cfg s0 e1 := Built.cycle hb hc
  have hinv := built_treeInv W fl o cfg s0 e hb
  have hinv1 := built_treeInv W fl o cfg s0 e1 hb1
  have hv := built_visits W fl o cfg s0 e1 hb1
  have hchild : ∀ c ∈ n.children, ∃ cn, e1.nodes[c]? = some cn ∧
      visits_at e1.nodes c = cn.num_visits ∧ 1 ≤ cn.num_visits := by
    intro c hcm
    obtain ⟨cn, hcn, hp⟩ := treeInv_child_parent W e1.nodes hinv1 i n hn c hcm
    have hc0 : c ≠ 0 := by
      intro h0
      subst h0
      obtain ⟨r, hr, hrp, _⟩ := hinv1.root
      rw [hcn] at hr; cases hr
      rw [hp] at hrp; cases hrp
    exact ⟨cn, hcn, by simp [visits_at, hcn], hv.pos c cn hcn hc0⟩
  have hsum : n.children.length ≤ child_visits e1.nodes n :=
    sum_map_ge_length n.children _ (fun c hcm => by
      obtain ⟨cn, _, h1, h2⟩ := hchild c hcm
      rw [h1]; exact h2)
  have hpos : 1 ≤ n.num_visits := by
    by_cases hi : i = 0
    · subst hi
      obtain ⟨r, hr, _, _⟩ := hinv.root
      obtain ⟨r1, hr1, hv1⟩ := cycle_root_visits W fl o cfg e e1 hinv hc r hr
      rw [hn] at hr1; cases hr1
      omega
    · exact hv.pos i n hn hi
  have hcons : W.is_terminal n.state = false →
      n.num_visits = (if i = 0 then 0 else 1) + child_visits e1.nodes n := by
    intro hnt
    have h0 := hv.owed i n hn hnt
    simp only [reduceCtorEq, if_false] at h0
    exact h0
  refine ⟨hpos, ?_, ?_, ?_, ?_⟩
  · intro hi hnt
    have h0 := hcons hnt
    rw [if_neg hi] at h0
    exact h0
  · intro hi hnt
    have h0 := hcons hnt
    rw [if_pos hi] at h0
    omega
  · cases hnt : W.is_terminal n.state with
    | false =>
      have h0 := hcons hnt
      omega
    | true =>
      have ha := hinv1.terminal_leaf i n hn hnt
      have hle := hinv1.children_le i n hn
      rw [ha] at hle
      simp only [List.length_nil] at hle
      omega
  · intro c hcm
    obtain ⟨cn, h1, h2, _⟩ := hchild c hcm
    exact ⟨cn, h1, h2⟩

/-- Witness for C20: the root after the first pass on the empty board (one visit,
one child with one visit). -/
theorem visits_are_conserved_witness :
    ∃ (n : TreeNode ℚ oxo.State oxo.Action),
      (firstPass world0 ratFloat oracle0 (config 1) oxo.reset).nodes[0]? = some n ∧
      world0.is_terminal n.state = false ∧ 1 ≤ n.num_visits ∧
      n.num_visits =
        child_visits (firstPass world0 ratFloat oracle0 (config 1) oxo.reset).nodes n ∧
      n.children.length ≤ n.num_visits := by
  have hshape : ((firstPass world0 ratFloat oracle0 (config 1) oxo.reset).nodes[0]?).map
      (fun n => world0.is_terminal n.state) = some false := rfl
  cases hn : (firstPass world0 ratFloat oracle0 (config 1) oxo.reset).nodes[0]? with
  | none => rw [hn] at hshape; cases hshape
  | some n =>
    rw [hn] at hshape
    simp at hshape
    have h := visits_are_conserved world0 ratFloat oracle0 (config 1) oxo.reset
      (start world0 ratFloat oxo.reset) (firstPass world0 ratFloat oracle0 (config 1) oxo.reset)
      (Built.init 0 none) (firstPass_spec world0 ratFloat oracle0 (config 1) oxo.reset rfl)
      0 n hn
    exact ⟨n, rfl, hshape, h.1, h.2.2.1 rfl hshape, h.2.2.2.1⟩

end Claims
